import Mathlib

/-
Verification of the heap memory allocator in HMM.c.

Shallow embedding conventions:
* `size_t` arithmetic is modelled on `Nat` (the allocator never overflows
  `size_t` on the paths the claims exercise; `HMMcalloc` guards the one
  multiplication that could, and that guard is modelled exactly).
* A chunk pointer is its header address (a `Nat`).  The address-ordered
  doubly-linked list of `mem_chunk_t` records (`head`/`tail`/`prev`/`next`)
  is modelled as a Lean list in address order: list adjacency is the
  `prev`/`next` linkage, the list head is `head` and the last element `tail`.
* The hash table `block_freq` is an association list from bucket index to
  the bucket's list of chunk addresses (front of list = head of bucket);
  the `next_free` linkage is the adjacency inside a bucket list.
* Payload bytes are a function `Nat → Nat` (byte offset to byte value).
* `sbrk` is modelled by the `brk` field plus two oracle flags: `growOk`
  (whether positive `sbrk` calls succeed) and `shrinkOk` (whether the
  negative `sbrk` call in `HMMfree` succeeds).  Every positive request is
  recorded in `growLog`.
* The pthread mutex serializes every public operation, so the public API
  is modelled as the sequential functions `HMMmalloc`, `HMMfree`,
  `HMMcalloc`, `HMMrealloc` applied atomically.
-/

namespace HMM

/-- Alignment requirement for memory allocation (`ALIGNMENT` in HMM.c). -/
def ALIGNMENT : Nat := 8

/-- Size of the allocated memory block in an sbrk call (`ALLOCATED_BYTES`). -/
def ALLOCATED_BYTES : Nat := 8 * 1024 * 1024

/-- Maximum number of slots for the hash table (`MULTIPLES_MAX`). -/
def MULTIPLES_MAX : Nat := ALLOCATED_BYTES / ALIGNMENT

/-- Size of the in-band chunk header: `sizeof(mem_chunk_t)` on LP64
(two flag bytes padded to 8, one `size_t`, three pointers). -/
def headerSize : Nat := 40

/-- `ULONG_MAX` on LP64, used by the overflow guard in `HMMcalloc`. -/
def ULONG_MAX : Nat := 2 ^ 64 - 1

/-- One `mem_chunk_t` record.  `addr` is the header address; `prev`, `next`
and `next_free` are represented by list adjacency (see module comment). -/
structure Chunk where
  addr : Nat
  is_added : Bool
  is_free : Bool
  size : Nat
  data : Nat → Nat

/-- The global state of the allocator: the chunk list (`head`/`tail` chain),
the hash table `block_freq`, the accumulator `current_free_size`, the data
segment break, the sbrk oracles and the log of positive sbrk requests. -/
structure AllocState where
  chunks : List Chunk
  freq : List (Nat × List Nat)
  current_free_size : Nat
  brk : Nat
  growOk : Bool
  shrinkOk : Bool
  growLog : List Nat

/-- Bucket index of a payload size: `(cur_size / ALIGNMENT) - 1`. -/
def bucketIdx (sz : Nat) : Nat := sz / ALIGNMENT - 1

/-- Read the bucket of a given index from the hash table. -/
def freqGet (i : Nat) : List (Nat × List Nat) → List Nat
  | [] => []
  | e :: rest => if e.1 = i then e.2 else freqGet i rest

/-- Write the bucket of a given index into the hash table. -/
def freqSet (i : Nat) (l : List Nat) : List (Nat × List Nat) → List (Nat × List Nat)
  | [] => [(i, l)]
  | e :: rest => if e.1 = i then (i, l) :: rest else e :: freqSet i l rest

/-- Dereference a chunk pointer: the first chunk of the list with that
header address (unique in every state the allocator constructs). -/
def findChunk (a : Nat) (s : AllocState) : Option Chunk :=
  s.chunks.find? (fun c => c.addr == a)

/-- Update the chunk record at a given header address in place. -/
def updChunk (a : Nat) (f : Chunk → Chunk) (l : List Chunk) : List Chunk :=
  l.map (fun c => if c.addr == a then f c else c)

/-- Split the chunk list at the chunk with the given header address. -/
def splitAtAddr (a : Nat) : List Chunk → Option (List Chunk × Chunk × List Chunk)
  | [] => none
  | c :: rest =>
    if c.addr = a then some ([], c, rest)
    else (splitAtAddr a rest).map (fun p => (c :: p.1, p.2.1, p.2.2))

/-- `HMMis_block_found`: membership test via the `is_added` flag. -/
def HMMis_block_found (c : Chunk) : Bool := c.is_added

/-- `HMMremove_free_block`: remove a block from its hash-table bucket,
clear `is_added` and subtract its size from `current_free_size`.  The C
code scans the bucket for pointer identity and unlinks the first match. -/
def HMMremove_free_block (a : Nat) (s : AllocState) : AllocState :=
  match findChunk a s with
  | none => s
  | some c =>
    let idx := bucketIdx c.size
    if idx < MULTIPLES_MAX then
      let b := freqGet idx s.freq
      if a ∈ b then
        { s with
          freq := freqSet idx (b.erase a) s.freq
          current_free_size := s.current_free_size - c.size
          chunks := updChunk a (fun x => { x with is_added := false }) s.chunks }
      else s
    else s

/-- `HMMadd_free_block`: push a block onto the front of its bucket, set
`is_added` and add its size to `current_free_size`; no-op when the block
is already added or its bucket index is out of range. -/
def HMMadd_free_block (a : Nat) (s : AllocState) : AllocState :=
  match findChunk a s with
  | none => s
  | some c =>
    let idx := bucketIdx c.size
    if idx < MULTIPLES_MAX then
      if HMMis_block_found c then s
      else
        { s with
          current_free_size := s.current_free_size + c.size
          chunks := updChunk a (fun x => { x with is_added := true }) s.chunks
          freq := freqSet idx (a :: freqGet idx s.freq) s.freq }
    else s

/-- `HMMget_free_block`: pop the head of the bucket for an exact size. -/
def HMMget_free_block (sz : Nat) (s : AllocState) : Option Nat × AllocState :=
  let idx := bucketIdx sz
  if idx < MULTIPLES_MAX then
    match freqGet idx s.freq with
    | [] => (none, s)
    | a :: rest =>
      let retSize := ((findChunk a s).map Chunk.size).getD 0
      (some a,
        { s with
          current_free_size := s.current_free_size - retSize
          chunks := updChunk a (fun x => { x with is_added := false }) s.chunks
          freq := freqSet idx rest s.freq })
  else (none, s)

/-- Payload bytes of a chunk extended by an absorbed successor: the first
`size` bytes stay, then come the absorbed header's 40 bytes (their values
are never read; modelled as 0), then the absorbed payload. -/
def absorbOne (c x : Chunk) : Chunk :=
  { c with
    size := c.size + headerSize + x.size
    data := fun i =>
      if i < c.size then c.data i
      else if i < c.size + headerSize then 0
      else x.data (i - c.size - headerSize) }

/-- `HMMcoalesce`: walk forward from `start` over free chunks, removing
each visited chunk from the hash table; if at least one successor was
absorbed, merge the run into `start` (which keeps its address), relink the
terminator and, when the walk hit the end of the list, let `start` be the
new tail.  All relinking is implicit in the list representation. -/
def HMMcoalesce (a : Nat) (s : AllocState) : AllocState :=
  match splitAtAddr a s.chunks with
  | none => s
  | some (_, c, post) =>
    if c.is_free then
      let run := post.takeWhile (fun x => x.is_free)
      let total := (run.map (fun x => x.size + headerSize)).sum
      let s₁ := (c :: run).foldl (fun st x => HMMremove_free_block x.addr st) s
      if 0 < total then
        match splitAtAddr a s₁.chunks with
        | none => s₁
        | some (pre₁, c₁, post₁) =>
          { s₁ with
            chunks := pre₁ ++ (run.foldl absorbOne c₁) :: post₁.drop run.length }
      else s₁
    else s

/-- The new chunk carved out of the tail of `c` when `c` is split at `sz`
payload bytes: header at `c + sizeof(mem_chunk_t) + sz`, payload the rest. -/
def splitRemainder (c : Chunk) (sz : Nat) : Chunk :=
  { addr := c.addr + headerSize + sz
    is_added := false
    is_free := true
    size := c.size - sz - headerSize
    data := fun i => c.data (sz + headerSize + i) }

/-- State surgery for the split: shrink the chunk at `c.addr` (list index
`k`) to `sz` payload bytes and splice the remainder in right after it. -/
def splitChunkState (c : Chunk) (k sz : Nat) (s₁ : AllocState) : AllocState :=
  let l := updChunk c.addr (fun x => { x with size := sz }) s₁.chunks
  { s₁ with chunks := l.take (k + 1) ++ splitRemainder c sz :: l.drop (k + 1) }

/-- The descending scan of `HMMget_free_chunk` from `tail` via `prev`:
`scanLoop sz (k+1) s` examines the chunk at list index `k`.  A free chunk
of sufficient size is removed from the hash table and split when strictly
larger than `sizeof(mem_chunk_t) + sz`; a free chunk that is too small is
re-added to the hash table and the scan continues toward `head`. -/
def scanLoop (sz : Nat) : Nat → AllocState → Option Nat × AllocState
  | 0, s => (none, s)
  | k + 1, s =>
    match s.chunks[k]? with
    | none => (none, s)
    | some c =>
      if c.is_free ∧ sz ≤ c.size then
        let s₁ := HMMremove_free_block c.addr s
        if headerSize + sz < c.size then
          (some c.addr,
            HMMadd_free_block (splitRemainder c sz).addr (splitChunkState c k sz s₁))
        else (some c.addr, s₁)
      else if c.is_free then scanLoop sz k (HMMadd_free_block c.addr s)
      else scanLoop sz k s

/-- Number of bytes requested from `sbrk` when growing for a normalized
request: `((size + sizeof(mem_chunk_t) + ALLOCATED_BYTES) / ALLOCATED_BYTES)
* ALLOCATED_BYTES` with C integer (floor) division. -/
def numAllocatedBytes (sz : Nat) : Nat :=
  ((sz + headerSize + ALLOCATED_BYTES) / ALLOCATED_BYTES) * ALLOCATED_BYTES

/-- `HMMget_free_chunk` with explicit recursion fuel (`none` means the
fuel ran out; the code's recursion is proved to need depth at most 2).
Order of effects follows the C code: exact-bucket fast path, descending
scan, then grow: `sbrk`, `HMMremove_free_block(tail)`, and either absorb
the new range into a free tail or append a fresh chunk, then recurse. -/
def HMMget_free_chunkF : Nat → Nat → AllocState → Option (Option Nat × AllocState)
  | 0, _, _ => none
  | fuel + 1, sz, s =>
    match HMMget_free_block sz s with
    | (some a, s₁) => some (some a, s₁)
    | (none, s₁) =>
      match scanLoop sz s₁.chunks.length s₁ with
      | (some a, s₂) => some (some a, s₂)
      | (none, s₂) =>
        let num := numAllocatedBytes sz
        if s₂.growOk then
          let newSpace := s₂.brk
          let s₃ := { s₂ with brk := s₂.brk + num, growLog := num :: s₂.growLog }
          match s₃.chunks.getLast? with
          | some t =>
            let s₄ := HMMremove_free_block t.addr s₃
            if t.is_free then
              let s₅ :=
                { s₄ with
                  chunks := updChunk t.addr (fun x =>
                    { x with
                      size := x.size + num
                      data := fun i => if i < x.size then x.data i else 0 }) s₄.chunks }
              HMMget_free_chunkF fuel sz s₅
            else
              let nc : Chunk :=
                { addr := newSpace, is_added := false, is_free := true
                  size := num - headerSize, data := fun _ => 0 }
              HMMget_free_chunkF fuel sz
                (HMMadd_free_block nc.addr { s₄ with chunks := s₄.chunks ++ [nc] })
          | none =>
            let nc : Chunk :=
              { addr := newSpace, is_added := false, is_free := true
                size := num - headerSize, data := fun _ => 0 }
            HMMget_free_chunkF fuel sz
              (HMMadd_free_block nc.addr { s₃ with chunks := s₃.chunks ++ [nc] })
        else some (none, s₂)

/-- `HMMget_free_chunk`: fuel 2 suffices (theorem `get_free_chunk_depth_two`);
the fallback branch is unreachable. -/
def HMMget_free_chunk (sz : Nat) (s : AllocState) : Option Nat × AllocState :=
  (HMMget_free_chunkF 2 sz s).getD (none, s)

/-- Size normalization of `HMMmalloc`/`HMMcalloc`/`HMMrealloc`:
`(size + (ALIGNMENT-1)) & ~(ALIGNMENT-1)`, written arithmetically. -/
def roundUp8 (n : Nat) : Nat := (n + (ALIGNMENT - 1)) / ALIGNMENT * ALIGNMENT

/-- `HMMmalloc`: normalize the size (a request of zero becomes
`ALIGNMENT`), acquire a chunk, clear its `is_free` flag and return the
address immediately after its header. -/
def HMMmalloc (n : Nat) (s : AllocState) : Option Nat × AllocState :=
  let n₁ := if n = 0 then ALIGNMENT else n
  let sz := roundUp8 n₁
  match HMMget_free_chunk sz s with
  | (none, s') => (none, s')
  | (some a, s') =>
    (some (a + headerSize),
      { s' with chunks := updChunk a (fun x => { x with is_free := false }) s'.chunks })

/-- The tail-anchored release walk at the end of `HMMfree`: only entered
when `current_free_size ≥ ALLOCATED_BYTES`; removes every chunk of the
free tail run from the hash table, and if the run spans at least
`ALLOCATED_BYTES` detaches it from the list and calls `sbrk(-total)`
(on sbrk failure the chunks stay detached and the break is unchanged). -/
def shrinkCheck (s : AllocState) : AllocState :=
  if ALLOCATED_BYTES ≤ s.current_free_size then
    let run := s.chunks.reverse.takeWhile (fun c => c.is_free)
    let total := (run.map (fun c => c.size + headerSize)).sum
    let s₁ := run.foldl (fun st c => HMMremove_free_block c.addr st) s
    if ALLOCATED_BYTES ≤ total then
      let s₂ := { s₁ with chunks := s₁.chunks.take (s₁.chunks.length - run.length) }
      if s₂.shrinkOk then { s₂ with brk := s₂.brk - total } else s₂
    else s₁
  else s

/-- `HMMfree`: null and double-free are no-ops; otherwise mark the chunk
free, coalesce with a free predecessor (or else a free successor),
re-index the surviving chunk, and run the release-to-OS check. -/
def HMMfree (p : Nat) (s : AllocState) : AllocState :=
  if p = 0 then s
  else
    match splitAtAddr (p - headerSize) s.chunks with
    | none => s
    | some (pre, c, post) =>
      if c.is_free then s
      else
        let a := p - headerSize
        let s₁ :=
          { s with chunks := updChunk a (fun x => { x with is_free := true }) s.chunks }
        let s₂ :=
          match pre.getLast? with
          | some pv =>
            if pv.is_free then HMMadd_free_block pv.addr (HMMcoalesce pv.addr s₁)
            else
              match post.head? with
              | some nx =>
                if nx.is_free then HMMadd_free_block a (HMMcoalesce a s₁)
                else HMMadd_free_block a s₁
              | none => HMMadd_free_block a s₁
          | none =>
            match post.head? with
            | some nx =>
              if nx.is_free then HMMadd_free_block a (HMMcoalesce a s₁)
              else HMMadd_free_block a s₁
            | none => HMMadd_free_block a s₁
        shrinkCheck s₂

/-- `HMMcalloc`: reject when `nmemb * size` overflows `size_t`, otherwise
allocate the rounded product (`ALIGNMENT` when zero) and zero the whole
payload of the returned chunk. -/
def HMMcalloc (nmemb sz : Nat) (s : AllocState) : Option Nat × AllocState :=
  if sz ≠ 0 ∧ ULONG_MAX / sz < nmemb then (none, s)
  else
    let t := roundUp8 (sz * nmemb)
    let t := if t = 0 then ALIGNMENT else t
    match HMMmalloc t s with
    | (none, s') => (none, s')
    | (some p, s') =>
      (some p,
        { s' with
          chunks := updChunk (p - headerSize) (fun x =>
            { x with data := fun i => if i < x.size then 0 else x.data i }) s'.chunks })

/-- `HMMrealloc`: null pointer behaves as malloc; size rounding to zero
frees and returns a fresh minimum allocation; a size equal to the current
payload size returns the pointer unchanged; otherwise allocate a new
chunk, copy `min(old payload, new payload)` bytes, free the old chunk. -/
def HMMrealloc (p : Nat) (n : Nat) (s : AllocState) : Option Nat × AllocState :=
  let sz := roundUp8 n
  if p = 0 then HMMmalloc sz s
  else if sz = 0 then
    let s₁ := HMMfree p s
    HMMmalloc ALIGNMENT s₁
  else
    match findChunk (p - headerSize) s with
    | none => (none, s)
    | some c =>
      if sz = c.size then (some p, s)
      else
        match HMMmalloc sz s with
        | (none, s₁) => (none, s₁)
        | (some q, s₁) =>
          let oldSize := ((findChunk (p - headerSize) s₁).map Chunk.size).getD 0
          let newSize := ((findChunk (q - headerSize) s₁).map Chunk.size).getD 0
          let len := min oldSize newSize
          let oldData := ((findChunk (p - headerSize) s₁).map Chunk.data).getD (fun _ => 0)
          let s₂ :=
            { s₁ with
              chunks := updChunk (q - headerSize) (fun x =>
                { x with data := fun i => if i < len then oldData i else x.data i }) s₁.chunks }
          (some q, HMMfree p s₂)

/-- One public operation together with the sbrk oracle settings in force
while it runs (the mutex serializes operations, so a run is a sequence). -/
inductive Op where
  | alloc (n : Nat) (g k : Bool)
  | dealloc (p : Nat) (g k : Bool)
  | zalloc (n m : Nat) (g k : Bool)
  | resize (p n : Nat) (g k : Bool)

/-- Apply one public operation to the state. -/
def step (s : AllocState) : Op → AllocState
  | .alloc n g k => (HMMmalloc n { s with growOk := g, shrinkOk := k }).2
  | .dealloc p g k => HMMfree p { s with growOk := g, shrinkOk := k }
  | .zalloc n m g k => (HMMcalloc n m { s with growOk := g, shrinkOk := k }).2
  | .resize p n g k => (HMMrealloc p n { s with growOk := g, shrinkOk := k }).2

/-- The initial empty state: no chunks, empty hash table, break at `base`. -/
def initState (base : Nat) : AllocState :=
  { chunks := [], freq := [], current_free_size := 0, brk := base
    growOk := true, shrinkOk := true, growLog := [] }

/-- State after a sequence of public operations from the empty state. -/
def run (ops : List Op) (base : Nat) : AllocState :=
  ops.foldl step (initState base)

/-- Two adjacent free chunks, used as a concrete test state. -/
def wChunkA : Chunk :=
  { addr := 0, is_added := false, is_free := true, size := 8, data := fun _ => 0 }

/-- The second free chunk of the test state. -/
def wChunkB : Chunk :=
  { addr := 48, is_added := false, is_free := true, size := 8, data := fun _ => 0 }

/-- Concrete state with two adjacent free chunks (for the coalesce test). -/
def wState2 : AllocState :=
  { chunks := [wChunkA, wChunkB], freq := [], current_free_size := 0, brk := 96
    growOk := true, shrinkOk := true, growLog := [] }

/-- A single allocated chunk, used as a concrete test state. -/
def wChunkAlloc : Chunk :=
  { addr := 0, is_added := false, is_free := false, size := 8, data := fun _ => 0 }

/-- Concrete state with one allocated chunk and a failing sbrk. -/
def wState9 : AllocState :=
  { chunks := [wChunkAlloc], freq := [], current_free_size := 0, brk := 48
    growOk := false, shrinkOk := true, growLog := [] }

/-! ## Invariants -/

/-- Sum of `size` over the chunks whose `is_added` flag is set: the value
the free-size accumulator is supposed to track. -/
def sumAdded (l : List Chunk) : Nat :=
  ((l.filter (fun c => c.is_added)).map (fun c => c.size)).sum

/-- Header addresses of the chunks of a list. -/
def chunkAddrs (l : List Chunk) : List Nat := l.map (fun c => c.addr)

/-- No two adjacent chunks are both free. -/
def NoAdj (s : AllocState) : Prop :=
  s.chunks.Chain' (fun c d => ¬(c.is_free = true ∧ d.is_free = true))

/-- Adjacent chunks are both free only when the first is the chunk at
address `a` (the transient state inside `HMMget_free_chunk` after a split,
before `HMMmalloc` clears the returned chunk's `is_free` flag). -/
def NoAdjExcept (a : Nat) (s : AllocState) : Prop :=
  s.chunks.Chain' (fun c d => c.is_free = true → d.is_free = true → c.addr = a)

/-- The core allocator invariant, maintained across every public
operation (and through the helpers, except that `NoAdj` is handled
separately because splitting briefly leaves two adjacent free chunks). -/
structure CoreInv (s : AllocState) : Prop where
  acc : s.current_free_size = sumAdded s.chunks
  mem_of_bucket : ∀ e ∈ s.freq, ∀ a ∈ e.2,
    ∃ c ∈ s.chunks, c.addr = a ∧ c.is_added = true ∧ bucketIdx c.size = e.1
  bucket_of_added : ∀ c ∈ s.chunks, c.is_added = true →
    bucketIdx c.size < MULTIPLES_MAX ∧ c.addr ∈ freqGet (bucketIdx c.size) s.freq
  keys_nodup : (s.freq.map Prod.fst).Nodup
  bucket_nodup : ∀ e ∈ s.freq, e.2.Nodup
  ordered : s.chunks.Pairwise (fun c d => c.addr + headerSize + c.size ≤ d.addr)
  brk_ub : ∀ c ∈ s.chunks, c.addr + headerSize + c.size ≤ s.brk
  added_free : ∀ c ∈ s.chunks, c.is_added = true → c.is_free = true
  size8 : ∀ c ∈ s.chunks, ALIGNMENT ∣ c.size ∧ ALIGNMENT ≤ c.size

/-- The full invariant. -/
def Inv (s : AllocState) : Prop := CoreInv s ∧ NoAdj s

/-- Fields of the state that the chunk-acquisition helpers never change. -/
def framesEq (s s' : AllocState) : Prop :=
  s'.brk = s.brk ∧ s'.growOk = s.growOk ∧ s'.shrinkOk = s.shrinkOk ∧ s'.growLog = s.growLog

/-- Every allocated chunk record survives, untouched, into the new state. -/
def allocPreserved (s s' : AllocState) : Prop :=
  ∀ c ∈ s.chunks, c.is_free = false → c ∈ s'.chunks

theorem coreInv_iff (s : AllocState) : CoreInv s ↔
    (s.current_free_size = sumAdded s.chunks
    ∧ (∀ e ∈ s.freq, ∀ a ∈ e.2,
        ∃ c ∈ s.chunks, c.addr = a ∧ c.is_added = true ∧ bucketIdx c.size = e.1)
    ∧ (∀ c ∈ s.chunks, c.is_added = true →
        bucketIdx c.size < MULTIPLES_MAX ∧ c.addr ∈ freqGet (bucketIdx c.size) s.freq)
    ∧ (s.freq.map Prod.fst).Nodup
    ∧ (∀ e ∈ s.freq, e.2.Nodup)
    ∧ s.chunks.Pairwise (fun c d => c.addr + headerSize + c.size ≤ d.addr)
    ∧ (∀ c ∈ s.chunks, c.addr + headerSize + c.size ≤ s.brk)
    ∧ (∀ c ∈ s.chunks, c.is_added = true → c.is_free = true)
    ∧ (∀ c ∈ s.chunks, ALIGNMENT ∣ c.size ∧ ALIGNMENT ≤ c.size)) := by
  constructor
  · rintro ⟨h1, h2, h3, h4, h5, h6, h7, h8, h9⟩
    exact ⟨h1, h2, h3, h4, h5, h6, h7, h8, h9⟩
  · rintro ⟨h1, h2, h3, h4, h5, h6, h7, h8, h9⟩
    exact ⟨h1, h2, h3, h4, h5, h6, h7, h8, h9⟩

instance (s : AllocState) : Decidable (CoreInv s) :=
  decidable_of_iff _ (coreInv_iff s).symm

instance (s : AllocState) : Decidable (NoAdj s) :=
  inferInstanceAs (Decidable (List.Chain'
    (fun (c d : Chunk) => ¬(c.is_free = true ∧ d.is_free = true)) s.chunks))

instance (s : AllocState) : Decidable (Inv s) := by
  unfold Inv NoAdj; infer_instance

/-! ## Basic lemmas about the hash-table representation -/

theorem freqGet_freqSet_self (i : Nat) (l : List Nat) (f : List (Nat × List Nat)) :
    freqGet i (freqSet i l f) = l := by
  induction f with
  | nil => simp [freqSet, freqGet]
  | cons e rest ih =>
    by_cases h : e.1 = i
    · simp [freqSet, h, freqGet]
    · simp [freqSet, h, freqGet, ih]

theorem freqGet_freqSet_ne (i j : Nat) (l : List Nat) (f : List (Nat × List Nat))
    (h : j ≠ i) : freqGet j (freqSet i l f) = freqGet j f := by
  have hij : i ≠ j := Ne.symm h
  induction f with
  | nil => simp [freqSet, freqGet, hij]
  | cons e rest ih =>
    by_cases he : e.1 = i
    · have hej : e.1 ≠ j := by rw [he]; exact hij
      simp [freqSet, he, freqGet, hij, hej]
    · by_cases hj : e.1 = j
      · simp [freqSet, he, freqGet, hj, h]
      · simp [freqSet, he, freqGet, hj, ih]

theorem mem_freqSet (e : Nat × List Nat) (i : Nat) (l : List Nat)
    (f : List (Nat × List Nat)) (h : e ∈ freqSet i l f) :
    e = (i, l) ∨ e ∈ f := by
  induction f with
  | nil => simpa [freqSet] using h
  | cons e' rest ih =>
    by_cases he : e'.1 = i
    · rcases (by simpa [freqSet, he] using h) with h' | h'
      · exact Or.inl h'
      · exact Or.inr (List.mem_cons_of_mem _ h')
    · rcases (by simpa [freqSet, he] using h) with h' | h'
      · exact Or.inr (by simp [h'])
      · rcases ih h' with h'' | h''
        · exact Or.inl h''
        · exact Or.inr (List.mem_cons_of_mem _ h'')

theorem keys_freqSet_mem (i : Nat) (l : List Nat) (f : List (Nat × List Nat))
    (h : i ∈ f.map Prod.fst) :
    (freqSet i l f).map Prod.fst = f.map Prod.fst := by
  induction f with
  | nil => simp at h
  | cons e rest ih =>
    by_cases he : e.1 = i
    · simp [freqSet, he]
    · have : i ∈ rest.map Prod.fst := by
        rcases (by simpa using h) with h' | h'
        · exact absurd h'.symm he
        · simpa using h'
      simp [freqSet, he, ih this]

theorem keys_freqSet_not_mem (i : Nat) (l : List Nat) (f : List (Nat × List Nat))
    (h : i ∉ f.map Prod.fst) :
    (freqSet i l f).map Prod.fst = f.map Prod.fst ++ [i] := by
  induction f with
  | nil => simp [freqSet]
  | cons e rest ih =>
    have he : e.1 ≠ i := by
      intro h'; exact h (by simp [h'])
    have : i ∉ rest.map Prod.fst := by
      intro h'; exact h (by simp [h'])
    simp [freqSet, he, ih this]

theorem mem_freqGet_of_mem (f : List (Nat × List Nat)) (e : Nat × List Nat)
    (hk : (f.map Prod.fst).Nodup) (he : e ∈ f) : freqGet e.1 f = e.2 := by
  induction f with
  | nil => simp at he
  | cons e' rest ih =>
    rcases List.mem_cons.mp he with h | h
    · simp [freqGet, h]
    · have hmem : e.1 ∈ rest.map Prod.fst := List.mem_map_of_mem Prod.fst h
      have hk' := List.nodup_cons.mp (by simpa using hk :
        (e'.1 :: rest.map Prod.fst).Nodup)
      have hne : e'.1 ≠ e.1 := by
        intro hq
        exact hk'.1 (hq ▸ hmem)
      simp [freqGet, hne, ih hk'.2 h]

theorem mem_freqGet_iff (f : List (Nat × List Nat)) (i : Nat) (a : Nat)
    (hk : (f.map Prod.fst).Nodup) :
    a ∈ freqGet i f ↔ ∃ e ∈ f, e.1 = i ∧ a ∈ e.2 := by
  constructor
  · intro h
    induction f with
    | nil => simp [freqGet] at h
    | cons e rest ih =>
      by_cases he : e.1 = i
      · exact ⟨e, by simp, he, by simpa [freqGet, he] using h⟩
      · have hk' : (rest.map Prod.fst).Nodup := (List.nodup_cons.mp (by simpa using hk)).2
        obtain ⟨e', he', h1, h2⟩ := ih hk' (by simpa [freqGet, he] using h)
        exact ⟨e', List.mem_cons_of_mem _ he', h1, h2⟩
  · rintro ⟨e, he, h1, h2⟩
    have := mem_freqGet_of_mem f e hk he
    rw [h1] at this
    rw [this]; exact h2

/-! ## Basic lemmas about the chunk-list representation -/

theorem length_updChunk (a : Nat) (f : Chunk → Chunk) (l : List Chunk) :
    (updChunk a f l).length = l.length := by
  simp [updChunk]

theorem updChunk_append (a : Nat) (f : Chunk → Chunk) (l₁ l₂ : List Chunk) :
    updChunk a f (l₁ ++ l₂) = updChunk a f l₁ ++ updChunk a f l₂ := by
  simp [updChunk]

theorem updChunk_eq_of_not_mem (a : Nat) (f : Chunk → Chunk) (l : List Chunk)
    (h : a ∉ chunkAddrs l) : updChunk a f l = l := by
  induction l with
  | nil => rfl
  | cons c rest ih =>
    have hca : c.addr ≠ a := by
      intro h'; exact h (by simp [chunkAddrs, h'])
    have : a ∉ chunkAddrs rest := by
      intro h'; exact h (by simp only [chunkAddrs] at h' ⊢; exact List.mem_cons_of_mem _ h')
    simp [updChunk, hca] at ih ⊢
    exact ih this

theorem updChunk_split (a : Nat) (f : Chunk → Chunk) (l pre post : List Chunk)
    (c : Chunk) (h : l = pre ++ c :: post) (hca : c.addr = a)
    (hpre : a ∉ chunkAddrs pre) (hpost : a ∉ chunkAddrs post) :
    updChunk a f l = pre ++ f c :: post := by
  subst h
  rw [updChunk_append]
  rw [updChunk_eq_of_not_mem a f pre hpre]
  have h1 : updChunk a f (c :: post) = f c :: updChunk a f post := by
    simp [updChunk, hca]
  rw [h1, updChunk_eq_of_not_mem a f post hpost]

theorem mem_updChunk_elim (a : Nat) (f : Chunk → Chunk) (l : List Chunk) (d : Chunk)
    (h : d ∈ updChunk a f l) :
    ∃ c ∈ l, d = if c.addr = a then f c else c := by
  obtain ⟨c, hc, hd⟩ := List.mem_map.mp h
  refine ⟨c, hc, ?_⟩
  by_cases hca : c.addr = a
  · simp [hca] at hd ⊢; exact hd.symm
  · simp [hca] at hd ⊢; exact hd.symm

theorem mem_updChunk_of_mem (a : Nat) (f : Chunk → Chunk) (l : List Chunk) (c : Chunk)
    (h : c ∈ l) : (if c.addr = a then f c else c) ∈ updChunk a f l := by
  refine List.mem_map.mpr ⟨c, h, ?_⟩
  by_cases hca : c.addr = a <;> simp [hca]

theorem forall_updChunk {P : Chunk → Prop} (a : Nat) (f : Chunk → Chunk)
    (l : List Chunk) (h : ∀ c ∈ l, P c) (hf : ∀ c ∈ l, P c → P (f c)) :
    ∀ d ∈ updChunk a f l, P d := by
  intro d hd
  obtain ⟨c, hc, rfl⟩ := mem_updChunk_elim a f l d hd
  by_cases hca : c.addr = a
  · simpa [hca] using hf c hc (h c hc)
  · simpa [hca] using h c hc

theorem pairwise_updChunk {R : Chunk → Chunk → Prop} (a : Nat) (f : Chunk → Chunk)
    (l : List Chunk) (h : l.Pairwise R)
    (hf : ∀ c d, R c d → R (f c) d ∧ R c (f d) ∧ R (f c) (f d)) :
    (updChunk a f l).Pairwise R := by
  rw [updChunk, List.pairwise_map]
  refine h.imp ?_
  intro c d hcd
  by_cases hca : c.addr = a <;> by_cases hda : d.addr = a <;>
    simp [hca, hda, (hf c d hcd).1, (hf c d hcd).2.1, (hf c d hcd).2.2, hcd]

theorem chain'_updChunk {R : Chunk → Chunk → Prop} (a : Nat) (f : Chunk → Chunk)
    (l : List Chunk) (h : l.Chain' R)
    (hf : ∀ c d, R c d → R (f c) d ∧ R c (f d) ∧ R (f c) (f d)) :
    (updChunk a f l).Chain' R := by
  rw [updChunk, List.chain'_map]
  refine h.imp ?_
  intro c d hcd
  by_cases hca : c.addr = a <;> by_cases hda : d.addr = a <;>
    simp [hca, hda, (hf c d hcd).1, (hf c d hcd).2.1, (hf c d hcd).2.2, hcd]

theorem chunkAddrs_updChunk (a : Nat) (f : Chunk → Chunk) (l : List Chunk)
    (hf : ∀ c, (f c).addr = c.addr) :
    chunkAddrs (updChunk a f l) = chunkAddrs l := by
  simp only [chunkAddrs, updChunk, List.map_map]
  refine List.map_congr_left ?_
  intro c _
  by_cases hca : c.addr = a <;> simp [hca, hf]

theorem splitAtAddr_eq (a : Nat) (l pre post : List Chunk) (c : Chunk)
    (h : splitAtAddr a l = some (pre, c, post)) :
    l = pre ++ c :: post ∧ c.addr = a ∧ a ∉ chunkAddrs pre := by
  induction l generalizing pre with
  | nil => simp [splitAtAddr] at h
  | cons x rest ih =>
    by_cases hx : x.addr = a
    · simp [splitAtAddr, hx] at h
      obtain ⟨h1, h2, h3⟩ := h
      subst h1; subst h2; subst h3
      exact ⟨rfl, hx, by simp [chunkAddrs]⟩
    · simp only [splitAtAddr, hx, if_false, Option.map_eq_some'] at h
      obtain ⟨⟨pre', c', post'⟩, hsp, heq⟩ := h
      simp at heq
      obtain ⟨h1, h2, h3⟩ := heq
      subst h1; subst h2; subst h3
      obtain ⟨he, hca, hpre⟩ := ih pre' hsp
      refine ⟨by rw [he]; rfl, hca, ?_⟩
      intro hmem
      rcases (by simpa [chunkAddrs] using hmem) with h' | h'
      · exact hx h'.symm
      · exact hpre (by simpa [chunkAddrs] using h')

theorem splitAtAddr_of_eq (a : Nat) (l pre post : List Chunk) (c : Chunk)
    (h : l = pre ++ c :: post) (hca : c.addr = a) (hpre : a ∉ chunkAddrs pre) :
    splitAtAddr a l = some (pre, c, post) := by
  subst h
  induction pre with
  | nil => simp [splitAtAddr, hca]
  | cons x rest ih =>
    have hx : x.addr ≠ a := by
      intro h'; exact hpre (by simp [chunkAddrs, h'])
    have hrest : a ∉ chunkAddrs rest := by
      intro h'
      exact hpre (by simp only [chunkAddrs] at h' ⊢; exact List.mem_cons_of_mem _ h')
    simp [splitAtAddr, hx, ih hrest]

theorem splitAtAddr_none (a : Nat) (l : List Chunk)
    (h : splitAtAddr a l = none) : a ∉ chunkAddrs l := by
  induction l with
  | nil => simp [chunkAddrs]
  | cons x rest ih =>
    by_cases hx : x.addr = a
    · simp [splitAtAddr, hx] at h
    · simp only [splitAtAddr, hx, if_false, Option.map_eq_none'] at h
      intro hmem
      rcases (by simpa [chunkAddrs] using hmem) with h' | h'
      · exact hx h'.symm
      · exact ih h (by simpa [chunkAddrs] using h')

theorem splitAtAddr_isSome (a : Nat) (l : List Chunk) (h : a ∈ chunkAddrs l) :
    (splitAtAddr a l).isSome := by
  cases hs : splitAtAddr a l with
  | none => exact absurd h (splitAtAddr_none a l hs)
  | some p => rfl

theorem find?_first (a : Nat) (pre post : List Chunk) (c : Chunk)
    (hca : c.addr = a) (hpre : a ∉ chunkAddrs pre) :
    (pre ++ c :: post).find? (fun c => c.addr == a) = some c := by
  induction pre with
  | nil => simp [List.find?_cons, hca]
  | cons x rest ih =>
    have hx : x.addr ≠ a := by
      intro h'; exact hpre (by simp [chunkAddrs, h'])
    have hrest : a ∉ chunkAddrs rest := by
      intro h'
      exact hpre (by simp only [chunkAddrs] at h' ⊢; exact List.mem_cons_of_mem _ h')
    simpa [List.find?_cons, hx] using ih hrest

theorem find?_eq_of_splitAtAddr (a : Nat) (l pre post : List Chunk) (c : Chunk)
    (h : splitAtAddr a l = some (pre, c, post)) :
    l.find? (fun c => c.addr == a) = some c := by
  obtain ⟨he, hca, hpre⟩ := splitAtAddr_eq a l pre post c h
  subst he
  exact find?_first a pre post c hca hpre

theorem findChunk_mem (a : Nat) (s : AllocState) (c : Chunk)
    (h : findChunk a s = some c) : c ∈ s.chunks ∧ c.addr = a := by
  constructor
  · exact List.mem_of_find?_eq_some h
  · have := List.find?_some h
    simpa using this

theorem findChunk_none (a : Nat) (s : AllocState) (h : findChunk a s = none) :
    a ∉ chunkAddrs s.chunks := by
  intro hmem
  obtain ⟨c, hc, hca⟩ := List.mem_map.mp hmem
  have : ¬(c.addr == a) := by
    have := List.find?_eq_none.mp h c hc
    simpa using this
  exact this (by simp [hca])

theorem addr_inj (l : List Chunk) (hnd : (chunkAddrs l).Nodup)
    (c d : Chunk) (hc : c ∈ l) (hd : d ∈ l) (h : c.addr = d.addr) : c = d :=
  List.inj_on_of_nodup_map hnd hc hd h

theorem nodup_chunkAddrs_of_ordered (l : List Chunk)
    (h : l.Pairwise (fun c d => c.addr + headerSize + c.size ≤ d.addr)) :
    (chunkAddrs l).Nodup := by
  rw [chunkAddrs, List.Nodup, List.pairwise_map]
  refine h.imp ?_
  intro c d hcd
  have : headerSize = 40 := rfl
  omega

theorem clear_added_eq (c : Chunk) (h : c.is_added = false) :
    { c with is_added := false } = c := by
  cases c; simp_all

theorem freqGet_ne_nil_key (i : Nat) (f : List (Nat × List Nat))
    (h : freqGet i f ≠ []) : i ∈ f.map Prod.fst := by
  induction f with
  | nil => simp [freqGet] at h
  | cons e rest ih =>
    by_cases he : e.1 = i
    · simp [he]
    · simp only [freqGet, he, if_false] at h
      simpa using Or.inr (ih h)

theorem mem_freqSet_strong (e : Nat × List Nat) (i : Nat) (l : List Nat)
    (f : List (Nat × List Nat)) (hk : (f.map Prod.fst).Nodup)
    (h : e ∈ freqSet i l f) :
    e = (i, l) ∨ (e ∈ f ∧ e.1 ≠ i) := by
  induction f with
  | nil =>
    rcases (by simpa [freqSet] using h) with h'
    exact Or.inl h'
  | cons e' rest ih =>
    have hk' := List.nodup_cons.mp (by simpa using hk :
      (e'.1 :: rest.map Prod.fst).Nodup)
    by_cases he : e'.1 = i
    · rcases (by simpa [freqSet, he] using h) with h' | h'
      · exact Or.inl h'
      · refine Or.inr ⟨List.mem_cons_of_mem _ h', ?_⟩
        intro hq
        rw [← he] at hq
        exact hk'.1 (hq ▸ List.mem_map_of_mem Prod.fst h')
    · rcases (by simpa [freqSet, he] using h) with h' | h'
      · exact Or.inr ⟨by simp [h'], by rw [h']; exact he⟩
      · rcases ih hk'.2 h' with h'' | h''
        · exact Or.inl h''
        · exact Or.inr ⟨List.mem_cons_of_mem _ h''.1, h''.2⟩

theorem mem_decomp (l : List Chunk) (c : Chunk) (h : c ∈ l)
    (hnd : (chunkAddrs l).Nodup) :
    ∃ pre post, l = pre ++ c :: post ∧ c.addr ∉ chunkAddrs pre ∧
      c.addr ∉ chunkAddrs post := by
  obtain ⟨pre, post, rfl⟩ := List.append_of_mem h
  refine ⟨pre, post, rfl, ?_, ?_⟩
  · intro hmem
    have : (chunkAddrs pre ++ c.addr :: chunkAddrs post).Nodup := by
      simpa [chunkAddrs] using hnd
    have h2 := (List.nodup_middle.mp this)
    exact (List.nodup_cons.mp h2).1 (by simp [hmem])
  · intro hmem
    have : (chunkAddrs pre ++ c.addr :: chunkAddrs post).Nodup := by
      simpa [chunkAddrs] using hnd
    have h2 := (List.nodup_middle.mp this)
    exact (List.nodup_cons.mp h2).1 (by simp [hmem])

theorem sumAdded_append (l₁ l₂ : List Chunk) :
    sumAdded (l₁ ++ l₂) = sumAdded l₁ + sumAdded l₂ := by
  simp [sumAdded]

theorem sumAdded_cons (c : Chunk) (l : List Chunk) :
    sumAdded (c :: l) = (if c.is_added then c.size else 0) + sumAdded l := by
  by_cases h : c.is_added <;> simp [sumAdded, h]

/-! ## Lemmas about HMMremove_free_block -/

theorem remove_frame (a : Nat) (s : AllocState) :
    (HMMremove_free_block a s).brk = s.brk ∧
    (HMMremove_free_block a s).growOk = s.growOk ∧
    (HMMremove_free_block a s).shrinkOk = s.shrinkOk ∧
    (HMMremove_free_block a s).growLog = s.growLog := by
  unfold HMMremove_free_block
  cases findChunk a s with
  | none => exact ⟨rfl, rfl, rfl, rfl⟩
  | some c =>
    dsimp only
    split_ifs <;> exact ⟨rfl, rfl, rfl, rfl⟩

theorem remove_chunks_cases (a : Nat) (s : AllocState) :
    (HMMremove_free_block a s).chunks = s.chunks ∨
    (HMMremove_free_block a s).chunks
      = updChunk a (fun x => { x with is_added := false }) s.chunks := by
  unfold HMMremove_free_block
  cases findChunk a s with
  | none => exact Or.inl rfl
  | some c =>
    dsimp only
    split_ifs <;> first | exact Or.inl rfl | exact Or.inr rfl

theorem remove_geom (a : Nat) (s : AllocState) :
    chunkAddrs (HMMremove_free_block a s).chunks = chunkAddrs s.chunks := by
  rcases remove_chunks_cases a s with h | h <;> rw [h]
  exact chunkAddrs_updChunk a _ s.chunks (fun c => rfl)

theorem remove_preserves_other (a : Nat) (s : AllocState) (c : Chunk)
    (hc : c ∈ s.chunks) (hne : c.addr ≠ a) : c ∈ (HMMremove_free_block a s).chunks := by
  rcases remove_chunks_cases a s with h | h <;> rw [h]
  · exact hc
  · have := mem_updChunk_of_mem a (fun x => { x with is_added := false }) s.chunks c hc
    simpa [hne] using this

theorem noadj_remove (a : Nat) (s : AllocState) (h : NoAdj s) :
    NoAdj (HMMremove_free_block a s) := by
  unfold NoAdj at h ⊢
  rcases remove_chunks_cases a s with hc | hc <;> rw [hc]
  · exact h
  · exact chain'_updChunk a _ s.chunks h (fun c d hcd => ⟨hcd, hcd, hcd⟩)

theorem noadjexcept_remove (a b : Nat) (s : AllocState) (h : NoAdjExcept b s) :
    NoAdjExcept b (HMMremove_free_block a s) := by
  unfold NoAdjExcept at h ⊢
  rcases remove_chunks_cases a s with hc | hc <;> rw [hc]
  · exact h
  · exact chain'_updChunk a _ s.chunks h (fun c d hcd => ⟨hcd, hcd, hcd⟩)

theorem remove_is_added_false (a : Nat) (s : AllocState) (hI : CoreInv s) :
    ∀ d ∈ (HMMremove_free_block a s).chunks, d.addr = a → d.is_added = false := by
  have hnd := nodup_chunkAddrs_of_ordered _ hI.ordered
  intro d hd hda
  unfold HMMremove_free_block at hd
  cases hf : findChunk a s with
  | none =>
    rw [hf] at hd
    exact absurd (List.mem_map_of_mem _ hd) (hda ▸ findChunk_none a s hf)
  | some c =>
    rw [hf] at hd
    obtain ⟨hcmem, hca⟩ := findChunk_mem a s c hf
    dsimp only at hd
    by_cases hidx : bucketIdx c.size < MULTIPLES_MAX
    · by_cases hab : a ∈ freqGet (bucketIdx c.size) s.freq
      · rw [if_pos hidx, if_pos hab] at hd
        dsimp only at hd
        obtain ⟨x, hx, hdx⟩ := mem_updChunk_elim a _ s.chunks d hd
        by_cases hxa : x.addr = a
        · rw [if_pos hxa] at hdx; rw [hdx]
        · rw [if_neg hxa] at hdx; exact absurd (hdx ▸ hda) hxa
      · rw [if_pos hidx, if_neg hab] at hd
        have hdc : d = c := addr_inj s.chunks hnd d c hd hcmem (hda.trans hca.symm)
        subst hdc
        by_cases hadd : d.is_added = true
        · have h2 := (hI.bucket_of_added d hd hadd).2
          rw [hda] at h2
          exact absurd h2 hab
        · simpa using hadd
    · rw [if_neg hidx] at hd
      have hdc : d = c := addr_inj s.chunks hnd d c hd hcmem (hda.trans hca.symm)
      subst hdc
      by_cases hadd : d.is_added = true
      · exact absurd ((hI.bucket_of_added d hd hadd).1) hidx
      · simpa using hadd

theorem coreInv_remove (a : Nat) (s : AllocState) (hI : CoreInv s) :
    CoreInv (HMMremove_free_block a s) := by
  have hnd := nodup_chunkAddrs_of_ordered _ hI.ordered
  unfold HMMremove_free_block
  cases hf : findChunk a s with
  | none => exact hI
  | some c =>
    dsimp only
    by_cases hidx : bucketIdx c.size < MULTIPLES_MAX
    · by_cases hab : a ∈ freqGet (bucketIdx c.size) s.freq
      · rw [if_pos hidx, if_pos hab]
        obtain ⟨hcmem, hca⟩ := findChunk_mem a s c hf
        obtain ⟨e0, he0, he0k, he0m⟩ :=
          (mem_freqGet_iff s.freq (bucketIdx c.size) a hI.keys_nodup).mp hab
        have hbeq : freqGet (bucketIdx c.size) s.freq = e0.2 := by
          rw [← he0k]; exact mem_freqGet_of_mem s.freq e0 hI.keys_nodup he0
        have hbnd : (freqGet (bucketIdx c.size) s.freq).Nodup :=
          hbeq ▸ hI.bucket_nodup e0 he0
        obtain ⟨c', hc'mem, hc'a, hc'add, hc'idx⟩ := hI.mem_of_bucket e0 he0 a he0m
        have hcc : c' = c := addr_inj s.chunks hnd c' c hc'mem hcmem (hc'a.trans hca.symm)
        have hcadd : c.is_added = true := hcc ▸ hc'add
        obtain ⟨pre, post, hsplit, hpre, hpost⟩ := mem_decomp s.chunks c hcmem hnd
        rw [hca] at hpre hpost
        have hchunks : updChunk a (fun x => { x with is_added := false }) s.chunks
            = pre ++ { c with is_added := false } :: post :=
          updChunk_split a _ s.chunks pre post c hsplit hca hpre hpost
        refine ⟨?_, ?_, ?_, ?_, ?_, ?_, ?_, ?_, ?_⟩
        · show s.current_free_size - c.size = sumAdded (updChunk a _ s.chunks)
          rw [hchunks, hI.acc, hsplit, sumAdded_append, sumAdded_append,
            sumAdded_cons, sumAdded_cons]
          simp only [hcadd, if_true]
          simp only [Bool.false_eq_true, if_false]
          omega
        · show ∀ e ∈ freqSet _ _ s.freq, ∀ a' ∈ e.2, ∃ d ∈ updChunk a _ s.chunks, _
          intro e he a' ha'
          rw [hchunks]
          rcases mem_freqSet_strong e _ _ s.freq hI.keys_nodup he with heq | ⟨hef, hek⟩
          · subst heq
            simp only at ha'
            have hmem : a' ∈ freqGet (bucketIdx c.size) s.freq :=
              (hbnd.mem_erase_iff.mp ha').2
            have hne : a' ≠ a := (hbnd.mem_erase_iff.mp ha').1
            rw [hbeq] at hmem
            obtain ⟨d, hdmem, hda, hdadd, hdidx⟩ := hI.mem_of_bucket e0 he0 a' hmem
            have hdc : d ≠ c := by
              intro h'; rw [h'] at hda; exact hne (hda.symm.trans hca)
            have : d ∈ pre ++ c :: post := hsplit ▸ hdmem
            rcases List.mem_append.mp this with h' | h'
            · exact ⟨d, List.mem_append_left _ h', hda, hdadd, by rw [hdidx, he0k]⟩
            · rcases List.mem_cons.mp h' with h'' | h''
              · exact absurd h'' hdc
              · exact ⟨d, List.mem_append_right _ (List.mem_cons_of_mem _ h''), hda,
                  hdadd, by rw [hdidx, he0k]⟩
          · obtain ⟨d, hdmem, hda, hdadd, hdidx⟩ := hI.mem_of_bucket e hef a' ha'
            have hne : a' ≠ a := by
              intro h'
              subst h'
              have hdc : d = c := addr_inj s.chunks hnd d c hdmem hcmem (hda.trans hca.symm)
              rw [hdc] at hdidx
              exact hek hdidx.symm
            have hdc : d ≠ c := by
              intro h'; rw [h'] at hda; exact hne (hda.symm.trans hca)
            have : d ∈ pre ++ c :: post := hsplit ▸ hdmem
            rcases List.mem_append.mp this with h' | h'
            · exact ⟨d, List.mem_append_left _ h', hda, hdadd, hdidx⟩
            · rcases List.mem_cons.mp h' with h'' | h''
              · exact absurd h'' hdc
              · exact ⟨d, List.mem_append_right _ (List.mem_cons_of_mem _ h''), hda,
                  hdadd, hdidx⟩
        · show ∀ d ∈ updChunk a _ s.chunks, d.is_added = true → _
          intro d hd hdadd
          rw [hchunks] at hd
          have hdne : d.addr ≠ a := by
            intro h'
            have : d.is_added = false := by
              refine remove_is_added_false a s hI d ?_ h'
              unfold HMMremove_free_block
              rw [hf]
              dsimp only
              rw [if_pos hidx, if_pos hab]
              exact hchunks ▸ hd
            rw [this] at hdadd; cases hdadd
          have hdmem : d ∈ s.chunks := by
            rw [hsplit]
            rcases List.mem_append.mp hd with h' | h'
            · exact List.mem_append_left _ h'
            · rcases List.mem_cons.mp h' with h'' | h''
              · exact absurd (by rw [h'']; exact hca) hdne
              · exact List.mem_append_right _ (List.mem_cons_of_mem _ h'')
          obtain ⟨hd1, hd2⟩ := hI.bucket_of_added d hdmem hdadd
          refine ⟨hd1, ?_⟩
          by_cases hde : bucketIdx d.size = bucketIdx c.size
          · rw [hde, freqGet_freqSet_self]
            exact (List.mem_erase_of_ne hdne).mpr (hde ▸ hd2)
          · rw [freqGet_freqSet_ne _ _ _ _ hde]
            exact hd2
        · show ((freqSet _ _ s.freq).map Prod.fst).Nodup
          rw [keys_freqSet_mem _ _ _ (freqGet_ne_nil_key _ _ (by
            intro h'; rw [h'] at hab; exact absurd hab (List.not_mem_nil a)))]
          exact hI.keys_nodup
        · show ∀ e ∈ freqSet _ _ s.freq, e.2.Nodup
          intro e he
          rcases mem_freqSet e _ _ s.freq he with heq | hef
          · subst heq; exact hbnd.erase a
          · exact hI.bucket_nodup e hef
        · show (updChunk a _ s.chunks).Pairwise _
          exact pairwise_updChunk a _ s.chunks hI.ordered (fun c d hcd => ⟨hcd, hcd, hcd⟩)
        · show ∀ d ∈ updChunk a _ s.chunks, _ ≤ s.brk
          exact forall_updChunk a _ s.chunks hI.brk_ub (fun c _ h => h)
        · show ∀ d ∈ updChunk a _ s.chunks, d.is_added = true → d.is_free = true
          refine forall_updChunk a _ s.chunks hI.added_free ?_
          intro x _ _ h'
          simp at h'
        · show ∀ d ∈ updChunk a _ s.chunks, _
          exact forall_updChunk a _ s.chunks hI.size8 (fun c _ h => h)
      · rw [if_pos hidx, if_neg hab]; exact hI
    · rw [if_neg hidx]; exact hI

/-! ## Lemmas about HMMadd_free_block -/

theorem findChunk_of_mem (a : Nat) (s : AllocState) (c : Chunk)
    (hnd : (chunkAddrs s.chunks).Nodup) (hc : c ∈ s.chunks) (hca : c.addr = a) :
    findChunk a s = some c := by
  obtain ⟨pre, post, hsplit, hpre, _⟩ := mem_decomp s.chunks c hc hnd
  rw [hca] at hpre
  unfold findChunk
  rw [hsplit]
  exact find?_first a pre post c hca hpre

theorem freqGet_nodup (i : Nat) (f : List (Nat × List Nat))
    (h : ∀ e ∈ f, e.2.Nodup) : (freqGet i f).Nodup := by
  induction f with
  | nil => simp [freqGet]
  | cons e rest ih =>
    by_cases he : e.1 = i
    · simpa [freqGet, he] using h e (by simp)
    · simpa [freqGet, he] using ih (fun e' he' => h e' (List.mem_cons_of_mem _ he'))

theorem bucketIdx_inj (x y : Nat) (hx8 : ALIGNMENT ∣ x) (hx : ALIGNMENT ≤ x)
    (hy8 : ALIGNMENT ∣ y) (hy : ALIGNMENT ≤ y)
    (h : bucketIdx x = bucketIdx y) : x = y := by
  have hA : ALIGNMENT = 8 := rfl
  obtain ⟨u, rfl⟩ := hx8
  obtain ⟨v, rfl⟩ := hy8
  unfold bucketIdx at h
  rw [hA] at h hx hy ⊢
  rw [Nat.mul_div_cancel_left u (by norm_num), Nat.mul_div_cancel_left v (by norm_num)] at h
  omega

theorem add_frame (a : Nat) (s : AllocState) :
    (HMMadd_free_block a s).brk = s.brk ∧
    (HMMadd_free_block a s).growOk = s.growOk ∧
    (HMMadd_free_block a s).shrinkOk = s.shrinkOk ∧
    (HMMadd_free_block a s).growLog = s.growLog := by
  unfold HMMadd_free_block
  cases findChunk a s with
  | none => exact ⟨rfl, rfl, rfl, rfl⟩
  | some c =>
    dsimp only
    split_ifs <;> exact ⟨rfl, rfl, rfl, rfl⟩

theorem add_chunks_cases (a : Nat) (s : AllocState) :
    (HMMadd_free_block a s).chunks = s.chunks ∨
    (HMMadd_free_block a s).chunks
      = updChunk a (fun x => { x with is_added := true }) s.chunks := by
  unfold HMMadd_free_block
  cases findChunk a s with
  | none => exact Or.inl rfl
  | some c =>
    dsimp only
    split_ifs <;> first | exact Or.inl rfl | exact Or.inr rfl

theorem add_geom (a : Nat) (s : AllocState) :
    chunkAddrs (HMMadd_free_block a s).chunks = chunkAddrs s.chunks := by
  rcases add_chunks_cases a s with h | h <;> rw [h]
  exact chunkAddrs_updChunk a _ s.chunks (fun c => rfl)

theorem noadj_add (a : Nat) (s : AllocState) (h : NoAdj s) :
    NoAdj (HMMadd_free_block a s) := by
  unfold NoAdj at h ⊢
  rcases add_chunks_cases a s with hc | hc <;> rw [hc]
  · exact h
  · exact chain'_updChunk a _ s.chunks h (fun c d hcd => ⟨hcd, hcd, hcd⟩)

theorem noadjexcept_add (a b : Nat) (s : AllocState) (h : NoAdjExcept b s) :
    NoAdjExcept b (HMMadd_free_block a s) := by
  unfold NoAdjExcept at h ⊢
  rcases add_chunks_cases a s with hc | hc <;> rw [hc]
  · exact h
  · exact chain'_updChunk a _ s.chunks h (fun c d hcd => ⟨hcd, hcd, hcd⟩)

theorem coreInv_add (a : Nat) (s : AllocState) (hI : CoreInv s)
    (hfree : ∀ c, findChunk a s = some c → c.is_free = true) :
    CoreInv (HMMadd_free_block a s) := by
  have hnd := nodup_chunkAddrs_of_ordered _ hI.ordered
  unfold HMMadd_free_block
  cases hf : findChunk a s with
  | none => exact hI
  | some c =>
    dsimp only
    by_cases hidx : bucketIdx c.size < MULTIPLES_MAX
    · by_cases hadd : HMMis_block_found c
      · rw [if_pos hidx, if_pos hadd]; exact hI
      · rw [if_pos hidx, if_neg hadd]
        have hcadd : c.is_added = false := by
          unfold HMMis_block_found at hadd
          simpa using hadd
        obtain ⟨hcmem, hca⟩ := findChunk_mem a s c hf
        have hcfree : c.is_free = true := hfree c hf
        have hab : a ∉ freqGet (bucketIdx c.size) s.freq := by
          intro hmem
          obtain ⟨e0, he0, he0k, he0m⟩ :=
            (mem_freqGet_iff s.freq (bucketIdx c.size) a hI.keys_nodup).mp hmem
          obtain ⟨c', hc'mem, hc'a, hc'add, _⟩ := hI.mem_of_bucket e0 he0 a he0m
          have hcc : c' = c := addr_inj s.chunks hnd c' c hc'mem hcmem (hc'a.trans hca.symm)
          rw [hcc] at hc'add
          rw [hc'add] at hcadd
          cases hcadd
        obtain ⟨pre, post, hsplit, hpre, hpost⟩ := mem_decomp s.chunks c hcmem hnd
        rw [hca] at hpre hpost
        have hchunks : updChunk a (fun x => { x with is_added := true }) s.chunks
            = pre ++ { c with is_added := true } :: post :=
          updChunk_split a _ s.chunks pre post c hsplit hca hpre hpost
        have hmemother : ∀ (d : Chunk), d ∈ s.chunks → d.addr ≠ a →
            d ∈ updChunk a (fun x => { x with is_added := true }) s.chunks := by
          intro d hd hdne
          rw [hchunks, hsplit] at *
          rcases List.mem_append.mp hd with h' | h'
          · exact List.mem_append_left _ h'
          · rcases List.mem_cons.mp h' with h'' | h''
            · exact absurd (by rw [h'']; exact hca) hdne
            · exact List.mem_append_right _ (List.mem_cons_of_mem _ h'')
        refine ⟨?_, ?_, ?_, ?_, ?_, ?_, ?_, ?_, ?_⟩
        · show s.current_free_size + c.size = sumAdded (updChunk a _ s.chunks)
          rw [hchunks, hI.acc, hsplit, sumAdded_append, sumAdded_append,
            sumAdded_cons, sumAdded_cons]
          simp only [hcadd, Bool.false_eq_true, if_false, if_true]
          omega
        · intro e he a' ha'
          rcases mem_freqSet_strong e _ _ s.freq hI.keys_nodup he with heq | ⟨hef, hek⟩
          · subst heq
            simp only at ha'
            rcases List.mem_cons.mp ha' with h' | h'
            · subst h'
              refine ⟨{ c with is_added := true }, ?_, hca, rfl, rfl⟩
              rw [hchunks]
              exact List.mem_append_right _ (List.mem_cons_self _ _)
            · obtain ⟨e0, he0, he0k, he0m⟩ :=
                (mem_freqGet_iff s.freq (bucketIdx c.size) a' hI.keys_nodup).mp h'
              obtain ⟨d, hdmem, hda, hdadd, hdidx⟩ := hI.mem_of_bucket e0 he0 a' he0m
              have hdne : d.addr ≠ a := by
                intro h''
                have : d = c := addr_inj s.chunks hnd d c hdmem hcmem (h''.trans hca.symm)
                rw [this] at hdadd
                rw [hdadd] at hcadd
                cases hcadd
              exact ⟨d, hmemother d hdmem hdne, hda, hdadd, by rw [hdidx, he0k]⟩
          · obtain ⟨d, hdmem, hda, hdadd, hdidx⟩ := hI.mem_of_bucket e hef a' ha'
            have hdne : d.addr ≠ a := by
              intro h''
              have : d = c := addr_inj s.chunks hnd d c hdmem hcmem (h''.trans hca.symm)
              rw [this] at hdadd
              rw [hdadd] at hcadd
              cases hcadd
            exact ⟨d, hmemother d hdmem hdne, hda, hdadd, hdidx⟩
        · intro d hd hdadd
          rw [hchunks] at hd
          rcases List.mem_append.mp hd with h' | h'
          · have hdmem : d ∈ s.chunks := by rw [hsplit]; exact List.mem_append_left _ h'
            have hdne : d.addr ≠ a := by
              intro h''; exact hpre (h'' ▸ List.mem_map_of_mem _ h')
            obtain ⟨hd1, hd2⟩ := hI.bucket_of_added d hdmem hdadd
            refine ⟨hd1, ?_⟩
            by_cases hde : bucketIdx d.size = bucketIdx c.size
            · rw [hde, freqGet_freqSet_self]
              exact List.mem_cons_of_mem _ (hde ▸ hd2)
            · rw [freqGet_freqSet_ne _ _ _ _ hde]
              exact hd2
          · rcases List.mem_cons.mp h' with h'' | h''
            · subst h''
              refine ⟨hidx, ?_⟩
              dsimp only
              rw [freqGet_freqSet_self, hca]
              exact List.mem_cons_self _ _
            · have hdmem : d ∈ s.chunks := by
                rw [hsplit]
                exact List.mem_append_right _ (List.mem_cons_of_mem _ h'')
              have hdne : d.addr ≠ a := by
                intro hq3
                exact hpost (hq3 ▸ List.mem_map_of_mem _ h'')
              obtain ⟨hd1, hd2⟩ := hI.bucket_of_added d hdmem hdadd
              refine ⟨hd1, ?_⟩
              by_cases hde : bucketIdx d.size = bucketIdx c.size
              · rw [hde, freqGet_freqSet_self]
                exact List.mem_cons_of_mem _ (hde ▸ hd2)
              · rw [freqGet_freqSet_ne _ _ _ _ hde]
                exact hd2
        · by_cases hkey : bucketIdx c.size ∈ s.freq.map Prod.fst
          · rw [keys_freqSet_mem _ _ _ hkey]; exact hI.keys_nodup
          · rw [keys_freqSet_not_mem _ _ _ hkey]
            simp only [List.nodup_append, List.nodup_cons, List.nodup_nil]
            exact ⟨hI.keys_nodup, by simp, by simpa [List.disjoint_singleton] using hkey⟩
        · intro e he
          rcases mem_freqSet e _ _ s.freq he with heq | hef
          · subst heq
            simp only
            exact List.nodup_cons.mpr ⟨hab, freqGet_nodup _ _ hI.bucket_nodup⟩
          · exact hI.bucket_nodup e hef
        · exact pairwise_updChunk a _ s.chunks hI.ordered (fun c d hcd => ⟨hcd, hcd, hcd⟩)
        · exact forall_updChunk a _ s.chunks hI.brk_ub (fun c _ h => h)
        · intro d hd hdadd
          rw [hchunks] at hd
          rcases List.mem_append.mp hd with h' | h'
          · exact hI.added_free d (by rw [hsplit]; exact List.mem_append_left _ h') hdadd
          · rcases List.mem_cons.mp h' with h'' | h''
            · rw [h'']; exact hcfree
            · exact hI.added_free d
                (by rw [hsplit]; exact List.mem_append_right _ (List.mem_cons_of_mem _ h''))
                hdadd
        · exact forall_updChunk a _ s.chunks hI.size8 (fun c _ h => h)
    · rw [if_neg hidx]; exact hI

theorem add_preserves_other (a : Nat) (s : AllocState) (c : Chunk)
    (hc : c ∈ s.chunks) (hne : c.addr ≠ a) : c ∈ (HMMadd_free_block a s).chunks := by
  rcases add_chunks_cases a s with h | h <;> rw [h]
  · exact hc
  · have := mem_updChunk_of_mem a (fun x => { x with is_added := true }) s.chunks c hc
    simpa [hne] using this

theorem remove_alloc_preserved (a : Nat) (s : AllocState) (hI : CoreInv s) :
    ∀ c ∈ s.chunks, c.is_free = false → c ∈ (HMMremove_free_block a s).chunks := by
  intro c hc hcf
  by_cases hca : c.addr = a
  · have hcadd : c.is_added = false := by
      cases h : c.is_added with
      | false => rfl
      | true =>
        have := hI.added_free c hc h
        rw [hcf] at this; cases this
    rcases remove_chunks_cases a s with h | h <;> rw [h]
    · exact hc
    · have := mem_updChunk_of_mem a (fun x => { x with is_added := false }) s.chunks c hc
      rw [if_pos hca] at this
      rw [← clear_added_eq c hcadd]
      exact this
  · exact remove_preserves_other a s c hc hca

theorem add_alloc_preserved (a : Nat) (s : AllocState) (hI : CoreInv s)
    (hfree : ∀ c, findChunk a s = some c → c.is_free = true) :
    ∀ c ∈ s.chunks, c.is_free = false → c ∈ (HMMadd_free_block a s).chunks := by
  intro c hc hcf
  have hnd := nodup_chunkAddrs_of_ordered _ hI.ordered
  by_cases hca : c.addr = a
  · have := hfree c (findChunk_of_mem a s c hnd hc hca)
    rw [hcf] at this; cases this
  · exact add_preserves_other a s c hc hca

theorem mem_after_remove (a : Nat) (s : AllocState) (c : Chunk) (hc : c ∈ s.chunks) :
    c ∈ (HMMremove_free_block a s).chunks ∨
    { c with is_added := false } ∈ (HMMremove_free_block a s).chunks := by
  rcases remove_chunks_cases a s with h | h <;> rw [h]
  · exact Or.inl hc
  · have := mem_updChunk_of_mem a (fun x => { x with is_added := false }) s.chunks c hc
    by_cases hca : c.addr = a
    · rw [if_pos hca] at this; exact Or.inr this
    · rw [if_neg hca] at this; exact Or.inl this

/-! ## Lemmas about HMMget_free_block -/

theorem gfb_none_state (sz : Nat) (s : AllocState)
    (h : (HMMget_free_block sz s).1 = none) : (HMMget_free_block sz s).2 = s := by
  unfold HMMget_free_block at h ⊢
  by_cases hidx : bucketIdx sz < MULTIPLES_MAX
  · rw [if_pos hidx] at h ⊢
    cases hb : freqGet (bucketIdx sz) s.freq with
    | nil => rfl
    | cons a rest => rw [hb] at h; cases h
  · rw [if_neg hidx]

theorem gfb_some (sz : Nat) (s : AllocState) (hI : CoreInv s) (a : Nat)
    (h : (HMMget_free_block sz s).1 = some a) :
    ∃ c0 ∈ s.chunks, c0.addr = a ∧ c0.is_added = true ∧ c0.is_free = true ∧
      bucketIdx c0.size = bucketIdx sz ∧
      (HMMget_free_block sz s).2 = HMMremove_free_block a s := by
  have hnd := nodup_chunkAddrs_of_ordered _ hI.ordered
  unfold HMMget_free_block at h ⊢
  by_cases hidx : bucketIdx sz < MULTIPLES_MAX
  · rw [if_pos hidx] at h ⊢
    cases hb : freqGet (bucketIdx sz) s.freq with
    | nil => rw [hb] at h; cases h
    | cons a' rest =>
      rw [hb] at h
      have ha : a' = a := by simpa using h
      subst ha
      have hmem : a' ∈ freqGet (bucketIdx sz) s.freq := by
        rw [hb]; exact List.mem_cons_self _ _
      obtain ⟨e0, he0, he0k, he0m⟩ :=
        (mem_freqGet_iff s.freq (bucketIdx sz) a' hI.keys_nodup).mp hmem
      obtain ⟨c0, hc0mem, hc0a, hc0add, hc0idx⟩ := hI.mem_of_bucket e0 he0 a' he0m
      have hc0free : c0.is_free = true := hI.added_free c0 hc0mem hc0add
      have hfind : findChunk a' s = some c0 := findChunk_of_mem a' s c0 hnd hc0mem hc0a
      have hidxeq : bucketIdx c0.size = bucketIdx sz := by rw [hc0idx, he0k]
      refine ⟨c0, hc0mem, hc0a, hc0add, hc0free, hidxeq, ?_⟩
      have hrem : HMMremove_free_block a' s =
          { s with
            chunks := updChunk a' (fun x => { x with is_added := false }) s.chunks
            freq := freqSet (bucketIdx sz) rest s.freq
            current_free_size := s.current_free_size - c0.size } := by
        unfold HMMremove_free_block
        rw [hfind]
        dsimp only
        rw [hidxeq, if_pos hidx, if_pos hmem, hb]
        simp [List.erase_cons_head]
      rw [hrem]
      dsimp only
      rw [hfind]
      rfl
  · rw [if_neg hidx] at h; cases h

/-! ## Lemmas about HMMcoalesce -/

theorem remove_chunks_map (a : Nat) (s : AllocState) (hI : CoreInv s) :
    (HMMremove_free_block a s).chunks
      = s.chunks.map (fun d => if d.addr = a then { d with is_added := false } else d) := by
  rcases hcase : remove_chunks_cases a s with h | h
  · rw [h]
    refine ((List.map_congr_left ?_).trans s.chunks.map_id).symm
    intro d hd
    by_cases hda : d.addr = a
    · rw [if_pos hda]
      refine clear_added_eq d ?_
      refine remove_is_added_false a s hI d ?_ hda
      rw [h]; exact hd
    · rw [if_neg hda]; rfl
  · rw [h]
    unfold updChunk
    refine List.map_congr_left ?_
    intro d _
    by_cases hda : d.addr = a <;> simp [hda]

theorem removeFold_coreInv (xs : List Chunk) (s : AllocState) (hI : CoreInv s) :
    CoreInv (xs.foldl (fun st x => HMMremove_free_block x.addr st) s) := by
  induction xs generalizing s with
  | nil => exact hI
  | cons x xs ih => exact ih _ (coreInv_remove x.addr s hI)

theorem removeFold_frame (xs : List Chunk) (s : AllocState) :
    (xs.foldl (fun st x => HMMremove_free_block x.addr st) s).brk = s.brk ∧
    (xs.foldl (fun st x => HMMremove_free_block x.addr st) s).growOk = s.growOk ∧
    (xs.foldl (fun st x => HMMremove_free_block x.addr st) s).shrinkOk = s.shrinkOk ∧
    (xs.foldl (fun st x => HMMremove_free_block x.addr st) s).growLog = s.growLog := by
  induction xs generalizing s with
  | nil => exact ⟨rfl, rfl, rfl, rfl⟩
  | cons x xs ih =>
    obtain ⟨h1, h2, h3, h4⟩ := remove_frame x.addr s
    obtain ⟨g1, g2, g3, g4⟩ := ih (HMMremove_free_block x.addr s)
    exact ⟨g1.trans h1, g2.trans h2, g3.trans h3, g4.trans h4⟩

theorem removeFold_chunks (xs : List Chunk) (s : AllocState) (hI : CoreInv s) :
    (xs.foldl (fun st x => HMMremove_free_block x.addr st) s).chunks
      = s.chunks.map (fun d =>
          if d.addr ∈ chunkAddrs xs then { d with is_added := false } else d) := by
  induction xs generalizing s with
  | nil =>
    show s.chunks = _
    refine ((List.map_congr_left ?_).trans s.chunks.map_id).symm
    intro d _
    simp [chunkAddrs]
  | cons x xs ih =>
    show (xs.foldl _ (HMMremove_free_block x.addr s)).chunks = _
    rw [ih _ (coreInv_remove x.addr s hI), remove_chunks_map x.addr s hI, List.map_map]
    refine List.map_congr_left ?_
    intro d _
    by_cases hdx : d.addr = x.addr
    · by_cases hdxs : d.addr ∈ chunkAddrs xs <;>
        simp [Function.comp, hdx, hdxs, chunkAddrs]
    · by_cases hdxs : d.addr ∈ chunkAddrs xs <;>
        simp [Function.comp, hdx, hdxs, chunkAddrs]

theorem absorbFold_addr (c : Chunk) (xs : List Chunk) :
    (xs.foldl absorbOne c).addr = c.addr := by
  induction xs generalizing c with
  | nil => rfl
  | cons x xs ih => exact (ih (absorbOne c x)).trans rfl

theorem absorbFold_is_added (c : Chunk) (xs : List Chunk) :
    (xs.foldl absorbOne c).is_added = c.is_added := by
  induction xs generalizing c with
  | nil => rfl
  | cons x xs ih => exact (ih (absorbOne c x)).trans rfl

theorem absorbFold_is_free (c : Chunk) (xs : List Chunk) :
    (xs.foldl absorbOne c).is_free = c.is_free := by
  induction xs generalizing c with
  | nil => rfl
  | cons x xs ih => exact (ih (absorbOne c x)).trans rfl

theorem absorbFold_size (c : Chunk) (xs : List Chunk) :
    (xs.foldl absorbOne c).size
      = c.size + (xs.map (fun x => x.size + headerSize)).sum := by
  induction xs generalizing c with
  | nil => simp
  | cons x xs ih =>
    show (xs.foldl absorbOne (absorbOne c x)).size = _
    rw [ih (absorbOne c x)]
    show c.size + headerSize + x.size + _ = _
    simp
    omega

theorem takeWhile_all_append (p : Chunk → Bool) (run rest : List Chunk)
    (h : ∀ x ∈ run, p x = true) (hrest : ∀ x, rest.head? = some x → p x = false) :
    (run ++ rest).takeWhile p = run := by
  induction run with
  | nil =>
    cases rest with
    | nil => rfl
    | cons r rs =>
      have := hrest r rfl
      simp [List.takeWhile_cons, this]
  | cons x xs ih =>
    have hx := h x (by simp)
    simp only [List.cons_append, List.takeWhile_cons, hx, if_true]
    rw [ih (fun y hy => h y (List.mem_cons_of_mem _ hy))]

theorem chunkAddrs_append (l₁ l₂ : List Chunk) :
    chunkAddrs (l₁ ++ l₂) = chunkAddrs l₁ ++ chunkAddrs l₂ := by
  simp [chunkAddrs]

theorem chunkAddrs_cons (c : Chunk) (l : List Chunk) :
    chunkAddrs (c :: l) = c.addr :: chunkAddrs l := rfl

theorem sumAdded_eq_zero (l : List Chunk) (h : ∀ x ∈ l, x.is_added = false) :
    sumAdded l = 0 := by
  induction l with
  | nil => rfl
  | cons x xs ih =>
    rw [sumAdded_cons, ih (fun y hy => h y (List.mem_cons_of_mem _ hy))]
    simp [h x (by simp)]

theorem chain_span (c : Chunk) (run : List Chunk) (B : Nat)
    (h : (c :: run).Pairwise (fun x y => x.addr + headerSize + x.size ≤ y.addr))
    (hB : ∀ x ∈ c :: run, x.addr + headerSize + x.size ≤ B) :
    c.addr + headerSize + c.size + (run.map (fun x => x.size + headerSize)).sum ≤ B := by
  induction run generalizing c with
  | nil => simpa using hB c (by simp)
  | cons r rs ih =>
    have hcr : c.addr + headerSize + c.size ≤ r.addr :=
      (List.pairwise_cons.mp h).1 r (by simp)
    have h' : (r :: rs).Pairwise (fun x y => x.addr + headerSize + x.size ≤ y.addr) :=
      (List.pairwise_cons.mp h).2
    have hB' : ∀ x ∈ r :: rs, x.addr + headerSize + x.size ≤ B := by
      intro x hx
      exact hB x (List.mem_cons_of_mem _ hx)
    have := ih r h' hB'
    simp only [List.map_cons, List.sum_cons]
    omega

theorem coalesce_merge (s : AllocState) (pre : List Chunk) (c : Chunk)
    (run rest : List Chunk) (hI : CoreInv s)
    (hl : s.chunks = pre ++ c :: (run ++ rest))
    (hc : c.is_free = true)
    (hrun : ∀ x ∈ run, x.is_free = true)
    (hrest : ∀ x, rest.head? = some x → x.is_free = false)
    (hk : run ≠ []) :
    (HMMcoalesce c.addr s).chunks
        = pre ++ (run.foldl absorbOne { c with is_added := false }) :: rest ∧
    CoreInv (HMMcoalesce c.addr s) ∧
    (∀ e ∈ (HMMcoalesce c.addr s).freq, c.addr ∉ e.2) ∧
    (HMMcoalesce c.addr s).brk = s.brk ∧
    (HMMcoalesce c.addr s).growOk = s.growOk ∧
    (HMMcoalesce c.addr s).shrinkOk = s.shrinkOk ∧
    (HMMcoalesce c.addr s).growLog = s.growLog := by
  have hnd0 := nodup_chunkAddrs_of_ordered _ hI.ordered
  have hndl : (chunkAddrs pre ++ c.addr :: (chunkAddrs run ++ chunkAddrs rest)).Nodup := by
    have := hl ▸ hnd0
    simpa [chunkAddrs_append, chunkAddrs_cons] using this
  have hdisj1 : ∀ x ∈ chunkAddrs pre, x ∉ c.addr :: (chunkAddrs run ++ chunkAddrs rest) :=
    fun x hx => List.disjoint_of_nodup_append hndl hx
  have hnd3 : (c.addr :: (chunkAddrs run ++ chunkAddrs rest)).Nodup :=
    ((List.nodup_append.mp hndl).2.1)
  have hcnotin : c.addr ∉ chunkAddrs run ++ chunkAddrs rest := (List.nodup_cons.mp hnd3).1
  have hnd4 : (chunkAddrs run ++ chunkAddrs rest).Nodup := (List.nodup_cons.mp hnd3).2
  have hF1 : c.addr ∉ chunkAddrs pre := by
    intro h'
    exact hdisj1 _ h' (List.mem_cons_self _ _)
  have hF2 : ∀ d ∈ pre, d.addr ∉ chunkAddrs (c :: run) := by
    intro d hd hmem
    refine hdisj1 d.addr (List.mem_map_of_mem _ hd) ?_
    rcases List.mem_cons.mp hmem with h' | h'
    · exact List.mem_cons.mpr (Or.inl h')
    · exact List.mem_cons.mpr (Or.inr (List.mem_append_left _ h'))
  have hF3 : ∀ d ∈ rest, d.addr ∉ chunkAddrs (c :: run) := by
    intro d hd hmem
    rcases List.mem_cons.mp hmem with h' | h'
    · have h'' : d.addr = c.addr := h'
      refine hcnotin ?_
      rw [← h'']
      exact List.mem_append_right _ (List.mem_map_of_mem _ hd)
    · exact (List.disjoint_of_nodup_append hnd4) h' (List.mem_map_of_mem _ hd)
  have hsp : splitAtAddr c.addr s.chunks = some (pre, c, run ++ rest) :=
    splitAtAddr_of_eq c.addr s.chunks pre (run ++ rest) c hl rfl hF1
  have htake : (run ++ rest).takeWhile (fun x => x.is_free) = run :=
    takeWhile_all_append _ run rest hrun hrest
  have htotal_pos : 0 < (run.map (fun x => x.size + headerSize)).sum := by
    cases run with
    | nil => exact absurd rfl hk
    | cons r rs =>
      simp only [List.map_cons, List.sum_cons]
      have : headerSize = 40 := rfl
      omega
  have hIs₁ : CoreInv ((c :: run).foldl (fun st x => HMMremove_free_block x.addr st) s) :=
    removeFold_coreInv _ _ hI
  have hchunks₁ : ((c :: run).foldl (fun st x => HMMremove_free_block x.addr st) s).chunks
      = pre ++ { c with is_added := false }
          :: ((run.map (fun x => { x with is_added := false })) ++ rest) := by
    rw [removeFold_chunks (c :: run) s hI, hl]
    simp only [List.map_append, List.map_cons]
    have h1 : pre.map (fun d =>
        if d.addr ∈ chunkAddrs (c :: run) then { d with is_added := false } else d) = pre := by
      refine (List.map_congr_left ?_).trans pre.map_id
      intro d hd
      rw [if_neg (hF2 d hd)]; rfl
    have h2 : (if c.addr ∈ chunkAddrs (c :: run) then { c with is_added := false } else c)
        = { c with is_added := false } := by
      rw [if_pos (by simp [chunkAddrs_cons])]
    have h3 : run.map (fun d =>
        if d.addr ∈ chunkAddrs (c :: run) then { d with is_added := false } else d)
        = run.map (fun x => { x with is_added := false }) := by
      refine List.map_congr_left ?_
      intro d hd
      rw [if_pos ?_]
      rw [chunkAddrs_cons]
      exact List.mem_cons.mpr (Or.inr (List.mem_map_of_mem _ hd))
    have h4 : rest.map (fun d =>
        if d.addr ∈ chunkAddrs (c :: run) then { d with is_added := false } else d) = rest := by
      refine (List.map_congr_left ?_).trans rest.map_id
      intro d hd
      rw [if_neg (hF3 d hd)]; rfl
    rw [h1, h2, h3, h4]
  have hsp₁ : splitAtAddr c.addr
      ((c :: run).foldl (fun st x => HMMremove_free_block x.addr st) s).chunks
      = some (pre, { c with is_added := false },
          (run.map (fun x => { x with is_added := false })) ++ rest) :=
    splitAtAddr_of_eq c.addr _ pre _ _ hchunks₁ rfl hF1
  have hdrop : ((run.map (fun (x : Chunk) =>
        ({ x with is_added := false } : Chunk))) ++ rest).drop run.length = rest := by
    have := List.drop_left
      (run.map (fun (x : Chunk) => ({ x with is_added := false } : Chunk))) rest
    rwa [List.length_map] at this
  have hco : HMMcoalesce c.addr s =
      { ((c :: run).foldl (fun st x => HMMremove_free_block x.addr st) s) with
        chunks := pre ++ (run.foldl absorbOne { c with is_added := false }) :: rest } := by
    unfold HMMcoalesce
    rw [hsp]
    dsimp only
    rw [if_pos hc, htake, if_pos htotal_pos, hsp₁]
    dsimp only
    rw [hdrop]
  -- abbreviations for the merged chunk
  have hM_addr : (run.foldl absorbOne { c with is_added := false }).addr = c.addr :=
    absorbFold_addr _ _
  have hM_added : (run.foldl absorbOne { c with is_added := false }).is_added = false :=
    absorbFold_is_added _ _
  have hM_free : (run.foldl absorbOne { c with is_added := false }).is_free = true :=
    (absorbFold_is_free _ _).trans hc
  have hM_size : (run.foldl absorbOne { c with is_added := false }).size
      = c.size + (run.map (fun x => x.size + headerSize)).sum := absorbFold_size _ _
  obtain ⟨hfr1, hfr2, hfr3, hfr4⟩ := removeFold_frame (c :: run) s
  have hsub_c : c ∈ s.chunks := by
    rw [hl]; exact List.mem_append_right _ (List.mem_cons_self _ _)
  have hsub_run : ∀ x ∈ run, x ∈ s.chunks := by
    intro x hx
    rw [hl]
    exact List.mem_append_right _
      (List.mem_cons_of_mem _ (List.mem_append_left _ hx))
  have hsub_pre : ∀ x ∈ pre, x ∈ s.chunks := by
    intro x hx; rw [hl]; exact List.mem_append_left _ hx
  have hsub_rest : ∀ x ∈ rest, x ∈ s.chunks := by
    intro x hx
    rw [hl]
    exact List.mem_append_right _
      (List.mem_cons_of_mem _ (List.mem_append_right _ hx))
  -- ordered pieces of the original list
  have hord2 : (pre ++ ((c :: run) ++ rest)).Pairwise
      (fun x y => x.addr + headerSize + x.size ≤ y.addr) := by
    have := hl ▸ hI.ordered
    exact this
  obtain ⟨hPwPre, hPwMid, hcrossPre⟩ := List.pairwise_append.mp hord2
  obtain ⟨hPwCR, hPwRest, hcross2⟩ := List.pairwise_append.mp hPwMid
  refine ⟨by rw [hco], ?_, ?_, by rw [hco]; exact hfr1, by rw [hco]; exact hfr2,
    by rw [hco]; exact hfr3, by rw [hco]; exact hfr4⟩
  · -- CoreInv of the result
    rw [hco]
    refine ⟨?_, ?_, ?_, hIs₁.keys_nodup, hIs₁.bucket_nodup, ?_, ?_, ?_, ?_⟩
    · show ((c :: run).foldl (fun st x => HMMremove_free_block x.addr st) s).current_free_size
        = sumAdded (pre ++ (run.foldl absorbOne { c with is_added := false }) :: rest)
      rw [hIs₁.acc, hchunks₁]
      rw [sumAdded_append, sumAdded_cons, sumAdded_append,
        sumAdded_append, sumAdded_cons]
      have hz : sumAdded (run.map (fun x => { x with is_added := false })) = 0 := by
        refine sumAdded_eq_zero _ ?_
        intro x hx
        obtain ⟨y, _, rfl⟩ := List.mem_map.mp hx
        rfl
      rw [hz]
      simp [hM_added]
    · -- mem_of_bucket
      intro e he a' ha'
      obtain ⟨d, hd, hda, hdadd, hdidx⟩ := hIs₁.mem_of_bucket e he a' ha'
      rw [hchunks₁] at hd
      rcases List.mem_append.mp hd with h' | h'
      · exact ⟨d, List.mem_append_left _ h', hda, hdadd, hdidx⟩
      · rcases List.mem_cons.mp h' with h'' | h''
        · rw [h''] at hdadd; cases hdadd
        · rcases List.mem_append.mp h'' with h3 | h3
          · obtain ⟨y, _, rfl⟩ := List.mem_map.mp h3
            cases hdadd
          · exact ⟨d, List.mem_append_right _ (List.mem_cons_of_mem _ h3), hda, hdadd, hdidx⟩
    · -- bucket_of_added
      intro d hd hdadd
      rcases List.mem_append.mp hd with h' | h'
      · refine hIs₁.bucket_of_added d ?_ hdadd
        rw [hchunks₁]
        exact List.mem_append_left _ h'
      · rcases List.mem_cons.mp h' with h'' | h''
        · rw [h''] at hdadd; rw [hM_added] at hdadd; cases hdadd
        · refine hIs₁.bucket_of_added d ?_ hdadd
          rw [hchunks₁]
          exact List.mem_append_right _
            (List.mem_cons_of_mem _ (List.mem_append_right _ h''))
    · -- ordered
      refine List.pairwise_append.mpr ⟨hPwPre, ?_, ?_⟩
      · refine List.pairwise_cons.mpr ⟨?_, hPwRest⟩
        intro y hy
        have hspan := chain_span c run y.addr hPwCR
          (fun x hx => hcross2 x hx y hy)
        rw [hM_addr, hM_size]
        omega
      · intro x hx y hy
        rcases List.mem_cons.mp hy with h' | h'
        · rw [h', hM_addr]
          exact hcrossPre x hx c (List.mem_append_left _ (List.mem_cons_self _ _))
        · exact hcrossPre x hx y (List.mem_append_right _ h')
    · -- brk_ub
      intro d hd
      show d.addr + headerSize + d.size ≤
        ((c :: run).foldl (fun st x => HMMremove_free_block x.addr st) s).brk
      rw [hfr1]
      rcases List.mem_append.mp hd with h' | h'
      · exact hI.brk_ub d (hsub_pre d h')
      · rcases List.mem_cons.mp h' with h'' | h''
        · rw [h'', hM_addr, hM_size]
          have hspan := chain_span c run s.brk hPwCR ?_
          · omega
          · intro x hx
            rcases List.mem_cons.mp hx with h3 | h3
            · exact h3 ▸ hI.brk_ub c hsub_c
            · exact hI.brk_ub x (hsub_run x h3)
        · exact hI.brk_ub d (hsub_rest d h'')
    · -- added_free
      intro d hd hdadd
      rcases List.mem_append.mp hd with h' | h'
      · exact hI.added_free d (hsub_pre d h') hdadd
      · rcases List.mem_cons.mp h' with h'' | h''
        · rw [h'', hM_free]
        · exact hI.added_free d (hsub_rest d h'') hdadd
    · -- size8
      intro d hd
      rcases List.mem_append.mp hd with h' | h'
      · exact hI.size8 d (hsub_pre d h')
      · rcases List.mem_cons.mp h' with h'' | h''
        · rw [h'', hM_size]
          have hc8 := hI.size8 c hsub_c
          have hsum : ALIGNMENT ∣ (run.map (fun x => x.size + headerSize)).sum := by
            refine List.dvd_sum ?_
            intro t ht
            obtain ⟨x, hx, rfl⟩ := List.mem_map.mp ht
            exact Nat.dvd_add (hI.size8 x (hsub_run x hx)).1 (by decide)
          exact ⟨Nat.dvd_add hc8.1 hsum, by omega⟩
        · exact hI.size8 d (hsub_rest d h'')
  · -- the coalesced chunk is not re-inserted into the hash table
    rw [hco]
    intro e he hmem
    obtain ⟨d, hd, hda, hdadd, _⟩ := hIs₁.mem_of_bucket e he c.addr hmem
    have hnd₁ := nodup_chunkAddrs_of_ordered _ hIs₁.ordered
    have hcmem₁ : ({ c with is_added := false } : Chunk)
        ∈ ((c :: run).foldl (fun st x => HMMremove_free_block x.addr st) s).chunks := by
      rw [hchunks₁]
      exact List.mem_append_right _ (List.mem_cons_self _ _)
    have : d = { c with is_added := false } :=
      addr_inj _ hnd₁ d _ hd hcmem₁ (by rw [hda])
    rw [this] at hdadd
    cases hdadd

theorem coalesce_not_found (a : Nat) (s : AllocState)
    (h : splitAtAddr a s.chunks = none) : HMMcoalesce a s = s := by
  unfold HMMcoalesce
  rw [h]

theorem coalesce_not_free (a : Nat) (s : AllocState) (pre post : List Chunk) (c : Chunk)
    (h : splitAtAddr a s.chunks = some (pre, c, post)) (hc : c.is_free = false) :
    HMMcoalesce a s = s := by
  unfold HMMcoalesce
  rw [h]
  dsimp only
  rw [if_neg (by rw [hc]; simp)]

theorem coalesce_single (s : AllocState) (pre rest : List Chunk) (c : Chunk)
    (hl : s.chunks = pre ++ c :: rest) (hC : c.addr ∉ chunkAddrs pre)
    (hc : c.is_free = true)
    (hrest : ∀ x, rest.head? = some x → x.is_free = false) :
    HMMcoalesce c.addr s = HMMremove_free_block c.addr s := by
  have hsp : splitAtAddr c.addr s.chunks = some (pre, c, rest) :=
    splitAtAddr_of_eq c.addr s.chunks pre rest c hl rfl hC
  unfold HMMcoalesce
  rw [hsp]
  dsimp only
  rw [if_pos hc]
  have htake : rest.takeWhile (fun x => x.is_free) = [] :=
    takeWhile_all_append _ [] rest (by simp) hrest
  rw [htake]
  dsimp only [List.map_nil, List.sum_nil]
  rw [if_neg (by omega)]
  rfl

theorem sumAdded_updChunk (a : Nat) (f : Chunk → Chunk) (l : List Chunk)
    (hadded : ∀ c, (f c).is_added = c.is_added) (hsize : ∀ c, (f c).size = c.size) :
    sumAdded (updChunk a f l) = sumAdded l := by
  induction l with
  | nil => rfl
  | cons x xs ih =>
    have hcons : updChunk a f (x :: xs) = (if x.addr == a then f x else x) :: updChunk a f xs := by
      simp [updChunk]
    rw [hcons, sumAdded_cons, sumAdded_cons, ih]
    by_cases hxa : x.addr = a
    · rw [if_pos (show (x.addr == a) = true by simp [hxa])]
      rw [hadded, hsize]
    · rw [if_neg (show ¬((x.addr == a) = true) by simp [hxa])]

theorem coreInv_updChunk_flags (a : Nat) (s : AllocState) (f : Chunk → Chunk)
    (hI : CoreInv s)
    (haddr : ∀ c, (f c).addr = c.addr) (hsize : ∀ c, (f c).size = c.size)
    (hadded : ∀ c, (f c).is_added = c.is_added)
    (hfree : ∀ c ∈ s.chunks, c.addr = a → c.is_added = true → (f c).is_free = true) :
    CoreInv { s with chunks := updChunk a f s.chunks } := by
  refine ⟨?_, ?_, ?_, hI.keys_nodup, hI.bucket_nodup, ?_, ?_, ?_, ?_⟩
  · show s.current_free_size = sumAdded (updChunk a f s.chunks)
    rw [sumAdded_updChunk a f s.chunks hadded hsize]
    exact hI.acc
  · intro e he a' ha'
    obtain ⟨d, hd, hda, hdadd, hdidx⟩ := hI.mem_of_bucket e he a' ha'
    refine ⟨if d.addr = a then f d else d, mem_updChunk_of_mem a f s.chunks d hd, ?_, ?_, ?_⟩
    · by_cases hdx : d.addr = a
      · rw [if_pos hdx, haddr]; exact hda
      · rw [if_neg hdx]; exact hda
    · by_cases hdx : d.addr = a
      · rw [if_pos hdx, hadded]; exact hdadd
      · rw [if_neg hdx]; exact hdadd
    · by_cases hdx : d.addr = a
      · rw [if_pos hdx]
        show bucketIdx (f d).size = e.1
        rw [hsize]; exact hdidx
      · rw [if_neg hdx]; exact hdidx
  · intro d hd hdadd
    obtain ⟨x, hx, rfl⟩ := mem_updChunk_elim a f s.chunks d hd
    by_cases hxa : x.addr = a
    · rw [if_pos hxa] at hdadd ⊢
      rw [hadded] at hdadd
      obtain ⟨h1, h2⟩ := hI.bucket_of_added x hx hdadd
      rw [hsize, haddr]
      exact ⟨h1, h2⟩
    · rw [if_neg hxa] at hdadd ⊢
      exact hI.bucket_of_added x hx hdadd
  · refine pairwise_updChunk a f s.chunks hI.ordered ?_
    intro c d hcd
    refine ⟨?_, ?_, ?_⟩
    · show (f c).addr + headerSize + (f c).size ≤ d.addr
      rw [haddr, hsize]; exact hcd
    · show c.addr + headerSize + c.size ≤ (f d).addr
      rw [haddr]; exact hcd
    · show (f c).addr + headerSize + (f c).size ≤ (f d).addr
      rw [haddr, hsize, haddr]; exact hcd
  · show ∀ d ∈ updChunk a f s.chunks, d.addr + headerSize + d.size ≤ s.brk
    refine forall_updChunk a f s.chunks hI.brk_ub ?_
    intro c _ h
    rw [haddr, hsize]; exact h
  · intro d hd hdadd
    obtain ⟨x, hx, rfl⟩ := mem_updChunk_elim a f s.chunks d hd
    by_cases hxa : x.addr = a
    · rw [if_pos hxa] at hdadd ⊢
      rw [hadded] at hdadd
      exact hfree x hx hxa hdadd
    · rw [if_neg hxa] at hdadd ⊢
      exact hI.added_free x hx hdadd
  · refine forall_updChunk a f s.chunks hI.size8 ?_
    intro c _ h
    rw [hsize]; exact h

theorem noadj_of_flip (a : Nat) (s : AllocState) (hna : NoAdjExcept a s) :
    NoAdj { s with chunks := updChunk a (fun x => { x with is_free := false }) s.chunks } := by
  show (updChunk a (fun x => { x with is_free := false }) s.chunks).Chain' _
  rw [updChunk, List.chain'_map]
  refine hna.imp ?_
  intro c d hcd hcontra
  obtain ⟨h1, h2⟩ := hcontra
  by_cases hca : c.addr = a
  · rw [if_pos (show (c.addr == a) = true by simp [hca])] at h1
    simp at h1
  · rw [if_neg (show ¬((c.addr == a) = true) by simp [hca])] at h1
    by_cases hda : d.addr = a
    · rw [if_pos (show (d.addr == a) = true by simp [hda])] at h2
      simp at h2
    · rw [if_neg (show ¬((d.addr == a) = true) by simp [hda])] at h2
      exact hca (hcd h1 h2)

/-! ## Lemmas about the descending scan of HMMget_free_chunk -/

theorem framesEq_refl (s : AllocState) : framesEq s s := ⟨rfl, rfl, rfl, rfl⟩

theorem framesEq_trans (s₁ s₂ s₃ : AllocState)
    (h1 : framesEq s₁ s₂) (h2 : framesEq s₂ s₃) : framesEq s₁ s₃ :=
  ⟨h2.1.trans h1.1, h2.2.1.trans h1.2.1, h2.2.2.1.trans h1.2.2.1, h2.2.2.2.trans h1.2.2.2⟩

theorem allocPreserved_refl (s : AllocState) : allocPreserved s s := fun _ hc _ => hc

theorem noadjexcept_of_noadj (a : Nat) (s : AllocState) (h : NoAdj s) :
    NoAdjExcept a s := by
  refine h.imp ?_
  intro c d hcd h1 h2
  exact absurd ⟨h1, h2⟩ hcd

theorem getElem?_decomp (l : List Chunk) (k : Nat) (c : Chunk) (h : l[k]? = some c) :
    l = l.take k ++ c :: l.drop (k + 1) ∧ (l.take k).length = k := by
  have hk : k < l.length := by
    by_contra h'
    rw [List.getElem?_eq_none (by omega)] at h
    cases h
  have hgc : l[k] = c := by
    have := List.getElem?_eq_getElem hk
    rw [h] at this
    exact (Option.some_inj.mp this.symm)
  have h1 : l.drop k = c :: l.drop (k + 1) := by
    rw [List.drop_eq_getElem_cons hk, hgc]
  have h2 := List.take_append_drop k l
  rw [h1] at h2
  refine ⟨h2.symm, ?_⟩
  rw [List.length_take]
  omega

theorem remove_chunks_split (s : AllocState) (hI : CoreInv s)
    (A B : List Chunk) (c : Chunk) (hl : s.chunks = A ++ c :: B) :
    (HMMremove_free_block c.addr s).chunks
      = A ++ { c with is_added := false } :: B := by
  have hnd := nodup_chunkAddrs_of_ordered _ hI.ordered
  rw [hl] at hnd
  have h1 : c.addr ∉ chunkAddrs A := by
    have : (chunkAddrs A ++ c.addr :: chunkAddrs B).Nodup := by
      simpa [chunkAddrs_append, chunkAddrs_cons] using hnd
    intro hmem
    exact List.disjoint_of_nodup_append this hmem (List.mem_cons_self _ _)
  have h2 : c.addr ∉ chunkAddrs B := by
    have h3 : (chunkAddrs A ++ c.addr :: chunkAddrs B).Nodup := by
      simpa [chunkAddrs_append, chunkAddrs_cons] using hnd
    exact (List.nodup_cons.mp (List.nodup_append.mp h3).2.1).1
  rcases remove_chunks_cases c.addr s with h | h
  · rw [h, hl]
    have hfalse : c.is_added = false := by
      refine remove_is_added_false c.addr s hI c ?_ rfl
      rw [h, hl]
      exact List.mem_append_right _ (List.mem_cons_self _ _)
    rw [clear_added_eq c hfalse]
  · rw [h]
    exact updChunk_split c.addr _ s.chunks A B c hl rfl h1 h2

theorem split_result_spec (s : AllocState) (k : Nat) (c : Chunk) (sz : Nat)
    (hI : CoreInv s) (hNA : NoAdj s) (hsz8 : ALIGNMENT ∣ sz) (hsz : ALIGNMENT ≤ sz)
    (hk : s.chunks[k]? = some c) (hcf : c.is_free = true) (_hcsz : sz ≤ c.size)
    (hspl : headerSize + sz < c.size) :
    CoreInv (HMMadd_free_block (splitRemainder c sz).addr
        (splitChunkState c k sz (HMMremove_free_block c.addr s))) ∧
    NoAdjExcept c.addr (HMMadd_free_block (splitRemainder c sz).addr
        (splitChunkState c k sz (HMMremove_free_block c.addr s))) ∧
    framesEq s (HMMadd_free_block (splitRemainder c sz).addr
        (splitChunkState c k sz (HMMremove_free_block c.addr s))) ∧
    allocPreserved s (HMMadd_free_block (splitRemainder c sz).addr
        (splitChunkState c k sz (HMMremove_free_block c.addr s))) ∧
    (∀ d ∈ (HMMadd_free_block (splitRemainder c sz).addr
        (splitChunkState c k sz (HMMremove_free_block c.addr s))).chunks,
      d.addr = c.addr → d.is_added = false) ∧
    (∃ d ∈ (HMMadd_free_block (splitRemainder c sz).addr
        (splitChunkState c k sz (HMMremove_free_block c.addr s))).chunks,
      d.addr = c.addr ∧ d.is_free = true ∧ sz ≤ d.size) := by
  have h40 : headerSize = 40 := rfl
  have h8 : ALIGNMENT = 8 := rfl
  obtain ⟨hdec, hlen⟩ := getElem?_decomp s.chunks k c hk
  have hIs₁ := coreInv_remove c.addr s hI
  have hrem := remove_chunks_split s hI (s.chunks.take k) (s.chunks.drop (k + 1)) c hdec
  obtain ⟨hbrk₁, hg₁, hk₁, hl₁⟩ := remove_frame c.addr s
  -- name the parts
  set A := s.chunks.take k with hA
  set B := s.chunks.drop (k + 1) with hB
  set c₂ : Chunk := { c with is_added := false, size := sz } with hc₂
  set sp : Chunk := splitRemainder c sz with hsp
  -- ordered and chain decompositions of the original state
  have hordS : (A ++ c :: B).Pairwise (fun x y => x.addr + headerSize + x.size ≤ y.addr) := by
    rw [← hdec]; exact hI.ordered
  obtain ⟨hPwA, hPwCB, hcrossA⟩ := List.pairwise_append.mp hordS
  obtain ⟨hordC, hPwB⟩ := List.pairwise_cons.mp hPwCB
  have hnaS : (A ++ c :: B).Chain' (fun x y => ¬(x.is_free = true ∧ y.is_free = true)) := by
    rw [← hdec]; exact hNA
  obtain ⟨hchA, hchCB, hlink⟩ := List.chain'_append.mp hnaS
  obtain ⟨hheadB, hchB⟩ := List.chain'_cons'.mp hchCB
  -- membership of the original parts in s
  have hmemA : ∀ x ∈ A, x ∈ s.chunks := by
    intro x hx; rw [hdec]; exact List.mem_append_left _ hx
  have hmemB : ∀ x ∈ B, x ∈ s.chunks := by
    intro x hx; rw [hdec]; exact List.mem_append_right _ (List.mem_cons_of_mem _ hx)
  have hmemC : c ∈ s.chunks := by
    rw [hdec]; exact List.mem_append_right _ (List.mem_cons_self _ _)
  -- the updated chunk list of the split state
  have hndS := nodup_chunkAddrs_of_ordered _ hI.ordered
  have hnds₁ := nodup_chunkAddrs_of_ordered _ hIs₁.ordered
  have hcA : c.addr ∉ chunkAddrs A := by
    have : (chunkAddrs A ++ c.addr :: chunkAddrs B).Nodup := by
      have := hdec ▸ hndS
      simpa [chunkAddrs_append, chunkAddrs_cons] using this
    intro hmem
    exact List.disjoint_of_nodup_append this hmem (List.mem_cons_self _ _)
  have hcB : c.addr ∉ chunkAddrs B := by
    have h3 : (chunkAddrs A ++ c.addr :: chunkAddrs B).Nodup := by
      have := hdec ▸ hndS
      simpa [chunkAddrs_append, chunkAddrs_cons] using this
    exact (List.nodup_cons.mp (List.nodup_append.mp h3).2.1).1
  have hupd : updChunk c.addr (fun x => { x with size := sz })
      (HMMremove_free_block c.addr s).chunks = A ++ c₂ :: B := by
    rw [hrem]
    exact updChunk_split c.addr _ _ A B _ rfl rfl hcA hcB
  have hgroup : A ++ c₂ :: B = (A ++ [c₂]) ++ B := by simp
  have hlen2 : (A ++ [c₂]).length = k + 1 := by simp [hlen]
  have htk : (A ++ c₂ :: B).take (k + 1) = A ++ [c₂] := by
    rw [hgroup, ← hlen2, List.take_left]
  have hdp : (A ++ c₂ :: B).drop (k + 1) = B := by
    rw [hgroup, ← hlen2, List.drop_left]
  have hs₂chunks : (splitChunkState c k sz (HMMremove_free_block c.addr s)).chunks
      = A ++ c₂ :: sp :: B := by
    show (updChunk c.addr (fun x => { x with size := sz })
        (HMMremove_free_block c.addr s).chunks).take (k + 1)
        ++ sp :: (updChunk c.addr (fun x => { x with size := sz })
          (HMMremove_free_block c.addr s).chunks).drop (k + 1) = A ++ c₂ :: sp :: B
    rw [hupd, htk, hdp]
    simp
  have hs₂frames : framesEq s (splitChunkState c k sz (HMMremove_free_block c.addr s)) :=
    ⟨hbrk₁, hg₁, hk₁, hl₁⟩
  -- geometry facts
  have hspaddr : sp.addr = c.addr + headerSize + sz := rfl
  have hspsize : sp.size = c.size - sz - headerSize := rfl
  have hspfree : sp.is_free = true := rfl
  have hspadded : sp.is_added = false := rfl
  have hc₂nadd : c₂.is_added = false := rfl
  -- CoreInv of the split state
  have hIs₂ : CoreInv (splitChunkState c k sz (HMMremove_free_block c.addr s)) := by
    refine ⟨?_, ?_, ?_, hIs₁.keys_nodup, hIs₁.bucket_nodup, ?_, ?_, ?_, ?_⟩
    · show (HMMremove_free_block c.addr s).current_free_size = _
      rw [hIs₁.acc, hrem, hs₂chunks]
      rw [sumAdded_append, sumAdded_cons, sumAdded_append, sumAdded_cons, sumAdded_cons]
      simp [hc₂nadd, hspadded]
    · intro e he a' ha'
      obtain ⟨d, hd, hda, hdadd, hdidx⟩ := hIs₁.mem_of_bucket e he a' ha'
      rw [hrem] at hd
      rw [hs₂chunks]
      rcases List.mem_append.mp hd with h' | h'
      · exact ⟨d, List.mem_append_left _ h', hda, hdadd, hdidx⟩
      · rcases List.mem_cons.mp h' with h'' | h''
        · rw [h''] at hdadd; cases hdadd
        · exact ⟨d, List.mem_append_right _
            (List.mem_cons_of_mem _ (List.mem_cons_of_mem _ h'')), hda, hdadd, hdidx⟩
    · intro d hd hdadd
      rw [hs₂chunks] at hd
      have hd' : d ∈ (HMMremove_free_block c.addr s).chunks := by
        rw [hrem]
        rcases List.mem_append.mp hd with h' | h'
        · exact List.mem_append_left _ h'
        · rcases List.mem_cons.mp h' with h'' | h''
          · rw [h''] at hdadd; cases hdadd
          · rcases List.mem_cons.mp h'' with h3 | h3
            · rw [h3, hspadded] at hdadd; cases hdadd
            · exact List.mem_append_right _ (List.mem_cons_of_mem _ h3)
      exact hIs₁.bucket_of_added d hd' hdadd
    · rw [hs₂chunks]
      refine List.pairwise_append.mpr ⟨hPwA, ?_, ?_⟩
      · refine List.pairwise_cons.mpr ⟨?_, List.pairwise_cons.mpr ⟨?_, hPwB⟩⟩
        · intro y hy
          rcases List.mem_cons.mp hy with h' | h'
          · rw [h']
            show c.addr + headerSize + sz ≤ sp.addr
            rw [hspaddr]
          · have := hordC y h'
            show c.addr + headerSize + sz ≤ y.addr
            omega
        · intro y hy
          have := hordC y hy
          rw [hspaddr]
          show _ + headerSize + sp.size ≤ y.addr
          rw [hspsize]
          omega
      · intro x hx y hy
        have hxc := hcrossA x hx c (List.mem_cons_self _ _)
        rcases List.mem_cons.mp hy with h' | h'
        · rw [h']
          show x.addr + headerSize + x.size ≤ c.addr
          exact hxc
        · rcases List.mem_cons.mp h' with h'' | h''
          · rw [h'', hspaddr]
            omega
          · exact hcrossA x hx y (List.mem_cons_of_mem _ h'')
    · intro d hd
      rw [hs₂chunks] at hd
      show d.addr + headerSize + d.size ≤ (HMMremove_free_block c.addr s).brk
      rw [hbrk₁]
      rcases List.mem_append.mp hd with h' | h'
      · exact hI.brk_ub d (hmemA d h')
      · rcases List.mem_cons.mp h' with h'' | h''
        · have := hI.brk_ub c hmemC
          rw [h'']
          show c.addr + headerSize + sz ≤ s.brk
          omega
        · rcases List.mem_cons.mp h'' with h3 | h3
          · have := hI.brk_ub c hmemC
            rw [h3, hspaddr]
            show _ + headerSize + sp.size ≤ s.brk
            rw [hspsize]
            omega
          · exact hI.brk_ub d (hmemB d h3)
    · intro d hd hdadd
      rw [hs₂chunks] at hd
      rcases List.mem_append.mp hd with h' | h'
      · exact hI.added_free d (hmemA d h') hdadd
      · rcases List.mem_cons.mp h' with h'' | h''
        · rw [h''] at hdadd; cases hdadd
        · rcases List.mem_cons.mp h'' with h3 | h3
          · rw [h3, hspfree]
          · exact hI.added_free d (hmemB d h3) hdadd
    · intro d hd
      rw [hs₂chunks] at hd
      rcases List.mem_append.mp hd with h' | h'
      · exact hI.size8 d (hmemA d h')
      · rcases List.mem_cons.mp h' with h'' | h''
        · rw [h'']
          exact ⟨hsz8, hsz⟩
        · rcases List.mem_cons.mp h'' with h3 | h3
          · rw [h3]
            refine ⟨?_, ?_⟩
            · rw [hspsize, Nat.sub_sub]
              have h1 := (hI.size8 c hmemC).1
              have h2 : ALIGNMENT ∣ sz + headerSize := by
                refine Nat.dvd_add hsz8 ?_
                rw [h40, h8]
                decide
              exact Nat.dvd_sub' h1 h2
            · rw [hspsize, Nat.sub_sub]
              have h1 := (hI.size8 c hmemC).1
              have h2 : ALIGNMENT ∣ sz + headerSize := by
                refine Nat.dvd_add hsz8 ?_
                rw [h40, h8]
                decide
              have h3 : ALIGNMENT ∣ c.size - (sz + headerSize) := Nat.dvd_sub' h1 h2
              have h4 : 0 < c.size - (sz + headerSize) := by omega
              exact Nat.le_of_dvd h4 h3
          · exact hI.size8 d (hmemB d h3)
  have hnas₂ : NoAdjExcept c.addr (splitChunkState c k sz (HMMremove_free_block c.addr s)) := by
    show (splitChunkState c k sz (HMMremove_free_block c.addr s)).chunks.Chain' _
    rw [hs₂chunks]
    refine List.chain'_append.mpr ⟨?_, ?_, ?_⟩
    · refine hchA.imp ?_
      intro x y hxy h1 h2
      exact absurd ⟨h1, h2⟩ hxy
    · refine List.chain'_cons'.mpr ⟨?_, List.chain'_cons'.mpr ⟨?_, ?_⟩⟩
      · intro y _ _ _
        rfl
      · intro y hy h1 h2
        cases hyB : B.head? with
        | none => rw [hyB] at hy; cases hy
        | some z =>
          rw [hyB] at hy
          have hyz : y = z := Eq.symm (by simpa using hy)
          have := hheadB z hyB
          rw [hyz] at h2
          exact absurd ⟨hcf, h2⟩ this
      · refine hchB.imp ?_
        intro x y hxy h1 h2
        exact absurd ⟨h1, h2⟩ hxy
    · intro x hx y hy
      have hx' : x ∈ A.getLast? := hx
      cases hyy : (c₂ :: sp :: B).head? with
      | none => cases hyy ▸ hy
      | some z =>
        have hyz : y = z := Eq.symm (by rw [hyy] at hy; simpa using hy)
        have hz : z = c₂ := by simpa using hyy.symm
        intro h1 h2
        have hlk := hlink x hx' c (by simp)
        rw [hyz, hz] at h2
        have hc2free : c₂.is_free = c.is_free := rfl
        rw [hc2free, hcf] at h2
        exact absurd ⟨h1, hcf⟩ hlk
  -- facts about the splitted chunk inside the split state
  have hspmem : sp ∈ (splitChunkState c k sz (HMMremove_free_block c.addr s)).chunks := by
    rw [hs₂chunks]
    exact List.mem_append_right _ (List.mem_cons_of_mem _ (List.mem_cons_self _ _))
  have hnds₂ := nodup_chunkAddrs_of_ordered _ hIs₂.ordered
  have hfindsp : findChunk sp.addr (splitChunkState c k sz (HMMremove_free_block c.addr s))
      = some sp := findChunk_of_mem _ _ sp hnds₂ hspmem rfl
  have hfreesp : ∀ d, findChunk sp.addr (splitChunkState c k sz (HMMremove_free_block c.addr s))
      = some d → d.is_free = true := by
    intro d hd
    rw [hfindsp] at hd
    cases hd
    exact hspfree
  have hc₂mem : c₂ ∈ (splitChunkState c k sz (HMMremove_free_block c.addr s)).chunks := by
    rw [hs₂chunks]
    exact List.mem_append_right _ (List.mem_cons_self _ _)
  have hc₂ne : c₂.addr ≠ sp.addr := by
    rw [hspaddr]
    show c.addr ≠ _
    omega
  refine ⟨coreInv_add _ _ hIs₂ hfreesp, noadjexcept_add _ _ _ hnas₂, ?_, ?_, ?_, ?_⟩
  · exact framesEq_trans _ _ _ hs₂frames
      (let h := add_frame sp.addr (splitChunkState c k sz (HMMremove_free_block c.addr s))
       ⟨h.1, h.2.1, h.2.2.1, h.2.2.2⟩)
  · intro d hd hdf
    have hd₂ : d ∈ (splitChunkState c k sz (HMMremove_free_block c.addr s)).chunks := by
      rw [hs₂chunks]
      rw [hdec] at hd
      rcases List.mem_append.mp hd with h' | h'
      · exact List.mem_append_left _ h'
      · rcases List.mem_cons.mp h' with h'' | h''
        · rw [h''] at hdf
          rw [hcf] at hdf
          cases hdf
        · exact List.mem_append_right _
            (List.mem_cons_of_mem _ (List.mem_cons_of_mem _ h''))
    exact add_alloc_preserved sp.addr _ hIs₂ hfreesp d hd₂ hdf
  · intro d hd hda
    have hd₂ : d ∈ (splitChunkState c k sz (HMMremove_free_block c.addr s)).chunks := by
      rcases add_chunks_cases sp.addr (splitChunkState c k sz (HMMremove_free_block c.addr s))
        with h' | h'
      · rw [← h']; exact hd
      · rw [h'] at hd
        obtain ⟨x, hx, hdx⟩ := mem_updChunk_elim _ _ _ d hd
        by_cases hxa : x.addr = sp.addr
        · rw [if_pos hxa] at hdx
          rw [hdx] at hda
          have : x.addr = c.addr := hda
          rw [hxa, hspaddr] at this
          omega
        · rw [if_neg hxa] at hdx
          rw [hdx]; exact hx
    have hdc : d = c₂ := addr_inj _ hnds₂ d c₂ hd₂ hc₂mem hda
    exact hdc ▸ hc₂nadd
  · exact ⟨c₂, add_preserves_other sp.addr _ c₂ hc₂mem hc₂ne, rfl, hcf, Nat.le_refl sz⟩

theorem scanLoop_spec (sz : Nat) (hsz8 : ALIGNMENT ∣ sz) (hsz : ALIGNMENT ≤ sz) :
    ∀ (k : Nat) (s : AllocState), CoreInv s → NoAdj s →
      (∀ s', scanLoop sz k s = (none, s') →
        CoreInv s' ∧ NoAdj s' ∧ framesEq s s' ∧ allocPreserved s s') ∧
      (∀ a s', scanLoop sz k s = (some a, s') →
        CoreInv s' ∧ NoAdjExcept a s' ∧ framesEq s s' ∧ allocPreserved s s' ∧
        (∀ d ∈ s'.chunks, d.addr = a → d.is_added = false) ∧
        (∃ c ∈ s'.chunks, c.addr = a ∧ c.is_free = true ∧ sz ≤ c.size)) := by
  intro k
  induction k with
  | zero =>
    intro s hI hNA
    constructor
    · intro s' h
      have h' : ((none : Option Nat), s) = (none, s') := h
      have hs : s = s' := congrArg Prod.snd h'
      rw [← hs]
      exact ⟨hI, hNA, framesEq_refl s, allocPreserved_refl s⟩
    · intro a s' h
      have h' : ((none : Option Nat), s) = (some a, s') := h
      have := congrArg Prod.fst h'
      simp at this
  | succ k ih =>
    intro s hI hNA
    cases hk : s.chunks[k]? with
    | none =>
      constructor
      · intro s' h
        unfold scanLoop at h
        rw [hk] at h
        have hs : s = s' := congrArg Prod.snd h
        rw [← hs]
        exact ⟨hI, hNA, framesEq_refl s, allocPreserved_refl s⟩
      · intro a s' h
        unfold scanLoop at h
        rw [hk] at h
        have := congrArg Prod.fst h
        simp at this
    | some c =>
      have hcmem : c ∈ s.chunks := by
        obtain ⟨hdec, _⟩ := getElem?_decomp s.chunks k c hk
        rw [hdec]
        exact List.mem_append_right _ (List.mem_cons_self _ _)
      have hnd := nodup_chunkAddrs_of_ordered _ hI.ordered
      by_cases hcond : c.is_free = true ∧ sz ≤ c.size
      · by_cases hspl : headerSize + sz < c.size
        · -- split case
          constructor
          · intro s' h
            unfold scanLoop at h
            rw [hk] at h
            dsimp only at h
            rw [if_pos hcond, if_pos hspl] at h
            have := congrArg Prod.fst h
            simp at this
          · intro a s' h
            unfold scanLoop at h
            rw [hk] at h
            dsimp only at h
            rw [if_pos hcond, if_pos hspl] at h
            have ha : c.addr = a := by
              have := congrArg Prod.fst h
              simpa using this
            have hs : HMMadd_free_block (splitRemainder c sz).addr
                (splitChunkState c k sz (HMMremove_free_block c.addr s)) = s' :=
              congrArg Prod.snd h
            obtain ⟨g1, g2, g3, g4, g5, g6⟩ :=
              split_result_spec s k c sz hI hNA hsz8 hsz hk hcond.1 hcond.2 hspl
            rw [hs] at g1 g2 g3 g4 g5 g6
            rw [← ha]
            exact ⟨g1, g2, g3, g4, g5, g6⟩
        · -- whole-chunk case
          constructor
          · intro s' h
            unfold scanLoop at h
            rw [hk] at h
            dsimp only at h
            rw [if_pos hcond, if_neg hspl] at h
            have := congrArg Prod.fst h
            simp at this
          · intro a s' h
            unfold scanLoop at h
            rw [hk] at h
            dsimp only at h
            rw [if_pos hcond, if_neg hspl] at h
            have ha : c.addr = a := by
              have := congrArg Prod.fst h
              simpa using this
            have hs : HMMremove_free_block c.addr s = s' := congrArg Prod.snd h
            rw [← hs, ← ha]
            obtain ⟨f1, f2, f3, f4⟩ := remove_frame c.addr s
            refine ⟨coreInv_remove c.addr s hI,
              noadjexcept_of_noadj _ _ (noadj_remove c.addr s hNA),
              ⟨f1, f2, f3, f4⟩, remove_alloc_preserved c.addr s hI,
              remove_is_added_false c.addr s hI, ?_⟩
            rcases mem_after_remove c.addr s c hcmem with h' | h'
            · exact ⟨c, h', rfl, hcond.1, hcond.2⟩
            · exact ⟨{ c with is_added := false }, h', rfl, hcond.1, hcond.2⟩
      · by_cases hcf : c.is_free = true
        · -- free but too small: re-add and continue
          have hfind : findChunk c.addr s = some c := findChunk_of_mem c.addr s c hnd hcmem rfl
          have hfree : ∀ d, findChunk c.addr s = some d → d.is_free = true := by
            intro d hd
            rw [hfind] at hd
            cases hd
            exact hcf
          have hI' : CoreInv (HMMadd_free_block c.addr s) := coreInv_add c.addr s hI hfree
          have hNA' : NoAdj (HMMadd_free_block c.addr s) := noadj_add c.addr s hNA
          obtain ⟨ihn, ihs⟩ := ih (HMMadd_free_block c.addr s) hI' hNA'
          obtain ⟨f1, f2, f3, f4⟩ := add_frame c.addr s
          constructor
          · intro s' h
            unfold scanLoop at h
            rw [hk] at h
            dsimp only at h
            rw [if_neg hcond, if_pos hcf] at h
            obtain ⟨p1, p2, p3, p4⟩ := ihn s' h
            exact ⟨p1, p2, framesEq_trans _ _ _ ⟨f1, f2, f3, f4⟩ p3,
              fun d hd hdf => p4 d (add_alloc_preserved c.addr s hI hfree d hd hdf) hdf⟩
          · intro a s' h
            unfold scanLoop at h
            rw [hk] at h
            dsimp only at h
            rw [if_neg hcond, if_pos hcf] at h
            obtain ⟨p1, p2, p3, p4, p5, p6⟩ := ihs a s' h
            exact ⟨p1, p2, framesEq_trans _ _ _ ⟨f1, f2, f3, f4⟩ p3,
              fun d hd hdf => p4 d (add_alloc_preserved c.addr s hI hfree d hd hdf) hdf,
              p5, p6⟩
        · -- not free: continue
          obtain ⟨ihn, ihs⟩ := ih s hI hNA
          constructor
          · intro s' h
            unfold scanLoop at h
            rw [hk] at h
            dsimp only at h
            rw [if_neg hcond, if_neg hcf] at h
            exact ihn s' h
          · intro a s' h
            unfold scanLoop at h
            rw [hk] at h
            dsimp only at h
            rw [if_neg hcond, if_neg hcf] at h
            exact ihs a s' h

/-! ## Termination of HMMget_free_chunk: recursion depth at most 2 -/

theorem getLast?_map (g : Chunk → Chunk) (l : List Chunk) :
    (l.map g).getLast? = l.getLast?.map g := by
  induction l with
  | nil => rfl
  | cons x xs ih =>
    cases xs with
    | nil => rfl
    | cons y ys => simpa using ih

theorem numAllocatedBytes_ge (sz : Nat) : sz + 41 ≤ numAllocatedBytes sz := by
  unfold numAllocatedBytes
  have hAB : ALLOCATED_BYTES = 8388608 := rfl
  have h40 : headerSize = 40 := rfl
  have hdm := Nat.div_add_mod (sz + headerSize + ALLOCATED_BYTES) ALLOCATED_BYTES
  rw [Nat.mul_comm] at hdm
  have hmod : (sz + headerSize + ALLOCATED_BYTES) % ALLOCATED_BYTES < ALLOCATED_BYTES :=
    Nat.mod_lt _ (by rw [hAB]; omega)
  omega

theorem numAllocatedBytes_dvd8 (sz : Nat) : ALIGNMENT ∣ numAllocatedBytes sz := by
  unfold numAllocatedBytes
  refine Dvd.dvd.mul_left ?_ _
  decide

theorem scanLoop_last_hit (sz : Nat) (s : AllocState) (t : Chunk)
    (hlast : s.chunks.getLast? = some t) (ht : t.is_free = true) (htsz : sz ≤ t.size) :
    (scanLoop sz s.chunks.length s).1 = some t.addr := by
  have hne : s.chunks ≠ [] := by
    intro h; rw [h] at hlast; cases hlast
  have hlen : s.chunks.length = (s.chunks.length - 1) + 1 := by
    cases hc : s.chunks with
    | nil => exact absurd hc hne
    | cons x xs => simp
  have hk : s.chunks[s.chunks.length - 1]? = some t := by
    rw [← List.getLast?_eq_getElem?]
    exact hlast
  rw [hlen]
  unfold scanLoop
  rw [hk]
  dsimp only
  rw [if_pos ⟨ht, htsz⟩]
  by_cases hspl : headerSize + sz < t.size
  · rw [if_pos hspl]
  · rw [if_neg hspl]

theorem getF_inner_step (sz : Nat) (s : AllocState) (t : Chunk)
    (hlast : s.chunks.getLast? = some t) (ht : t.is_free = true) (htsz : sz ≤ t.size)
    (f : Nat) :
    HMMget_free_chunkF (f + 1) sz s = HMMget_free_chunkF 1 sz s ∧
    (HMMget_free_chunkF 1 sz s).isSome = true := by
  unfold HMMget_free_chunkF
  cases hg : HMMget_free_block sz s with
  | mk r₁ s₁ =>
    cases r₁ with
    | some a => exact ⟨rfl, rfl⟩
    | none =>
      have hs₁ : s₁ = s := by
        have := gfb_none_state sz s (by rw [hg])
        rw [hg] at this
        exact this
      subst hs₁
      have hscan := scanLoop_last_hit sz s₁ t hlast ht htsz
      dsimp only
      cases hsc : scanLoop sz s₁.chunks.length s₁ with
      | mk r₂ s₂ =>
        rw [hsc] at hscan
        simp only at hscan
        subst hscan
        exact ⟨rfl, rfl⟩

theorem updChunk_getLast? (a : Nat) (f : Chunk → Chunk) (l : List Chunk) (t : Chunk)
    (h : l.getLast? = some t) :
    (updChunk a f l).getLast? = some (if t.addr == a then f t else t) := by
  rw [updChunk, getLast?_map, h]
  rfl

theorem remove_getLast? (a : Nat) (s : AllocState) (t : Chunk)
    (h : s.chunks.getLast? = some t) :
    (HMMremove_free_block a s).chunks.getLast? = some t ∨
    (HMMremove_free_block a s).chunks.getLast? = some { t with is_added := false } := by
  rcases remove_chunks_cases a s with h' | h' <;> rw [h']
  · exact Or.inl h
  · rw [updChunk_getLast? a _ s.chunks t h]
    by_cases hta : t.addr = a
    · refine Or.inr ?_
      rw [if_pos (by simp [hta])]
    · refine Or.inl ?_
      rw [if_neg (by simp [hta])]

theorem add_getLast? (a : Nat) (s : AllocState) (t : Chunk)
    (h : s.chunks.getLast? = some t) :
    (HMMadd_free_block a s).chunks.getLast? = some t ∨
    (HMMadd_free_block a s).chunks.getLast? = some { t with is_added := true } := by
  rcases add_chunks_cases a s with h' | h' <;> rw [h']
  · exact Or.inl h
  · rw [updChunk_getLast? a _ s.chunks t h]
    by_cases hta : t.addr = a
    · refine Or.inr ?_
      rw [if_pos (by simp [hta])]
    · refine Or.inl ?_
      rw [if_neg (by simp [hta])]

/-- Fuel 2 always completes: the `none` returned on fuel exhaustion never
arises at fuel 2. -/
theorem getF_two_isSome (sz : Nat) (s : AllocState) :
    (HMMget_free_chunkF 2 sz s).isSome = true := by
  have hnum := numAllocatedBytes_ge sz
  show (HMMget_free_chunkF (1 + 1) sz s).isSome = true
  unfold HMMget_free_chunkF
  cases hg : HMMget_free_block sz s with
  | mk r₁ s₁ =>
    cases r₁ with
    | some a => rfl
    | none =>
      dsimp only
      cases hsc : scanLoop sz s₁.chunks.length s₁ with
      | mk r₂ s₂ =>
        cases r₂ with
        | some a => rfl
        | none =>
          dsimp only
          by_cases hgrow : s₂.growOk = true
          · rw [if_pos hgrow]
            cases hlast : ({ s₂ with brk := s₂.brk + numAllocatedBytes sz, growLog := numAllocatedBytes sz :: s₂.growLog } : AllocState).chunks.getLast? with
            | some t =>
              dsimp only
              by_cases htf : t.is_free = true
              · rw [if_pos htf]
                set s₄ := HMMremove_free_block t.addr { s₂ with brk := s₂.brk + numAllocatedBytes sz, growLog := numAllocatedBytes sz :: s₂.growLog } with hs₄
                set g : Chunk → Chunk := fun x => { x with size := x.size + numAllocatedBytes sz, data := fun i => if i < x.size then x.data i else 0 } with hgdef
                have hlast₄ := remove_getLast? t.addr _ t hlast
                have hlast₅ : (updChunk t.addr g s₄.chunks).getLast?
                    = some (g t) ∨ (updChunk t.addr g s₄.chunks).getLast?
                    = some (g { t with is_added := false }) := by
                  rcases hlast₄ with h' | h'
                  · rw [updChunk_getLast? t.addr g s₄.chunks t h']
                    rw [if_pos (by simp)]
                    exact Or.inl rfl
                  · rw [updChunk_getLast? t.addr g s₄.chunks _ h']
                    rw [if_pos (by simp)]
                    exact Or.inr rfl
                rcases hlast₅ with h' | h'
                · exact (getF_inner_step sz { s₄ with chunks := updChunk t.addr g s₄.chunks } (g t) h' htf
                    (by show sz ≤ t.size + numAllocatedBytes sz; omega) 0).2
                · exact (getF_inner_step sz { s₄ with chunks := updChunk t.addr g s₄.chunks } (g { t with is_added := false }) h' htf
                    (by show sz ≤ t.size + numAllocatedBytes sz; omega) 0).2
              · rw [if_neg htf]
                set s₄ := HMMremove_free_block t.addr { s₂ with brk := s₂.brk + numAllocatedBytes sz, growLog := numAllocatedBytes sz :: s₂.growLog } with hs₄
                set nc : Chunk := { addr := s₂.brk, is_added := false, is_free := true, size := numAllocatedBytes sz - headerSize, data := fun _ => 0 } with hnc
                have hlast₅ : (s₄.chunks ++ [nc]).getLast? = some nc :=
                  List.getLast?_concat _
                have hsznc : sz ≤ nc.size := by
                  show sz ≤ numAllocatedBytes sz - headerSize
                  have h40 : headerSize = 40 := rfl
                  omega
                rcases add_getLast? nc.addr { s₄ with chunks := s₄.chunks ++ [nc] } nc hlast₅
                  with h' | h'
                · exact (getF_inner_step sz (HMMadd_free_block nc.addr { s₄ with chunks := s₄.chunks ++ [nc] }) nc h' rfl hsznc 0).2
                · exact (getF_inner_step sz (HMMadd_free_block nc.addr { s₄ with chunks := s₄.chunks ++ [nc] }) { nc with is_added := true } h' rfl hsznc 0).2
            | none =>
              dsimp only
              set s₃ := ({ s₂ with brk := s₂.brk + numAllocatedBytes sz, growLog := numAllocatedBytes sz :: s₂.growLog } : AllocState) with hs₃
              set nc : Chunk := { addr := s₂.brk, is_added := false, is_free := true, size := numAllocatedBytes sz - headerSize, data := fun _ => 0 } with hnc
              have hlast₅ : (s₃.chunks ++ [nc]).getLast? = some nc :=
                List.getLast?_concat _
              have hsznc : sz ≤ nc.size := by
                show sz ≤ numAllocatedBytes sz - headerSize
                have h40 : headerSize = 40 := rfl
                omega
              rcases add_getLast? nc.addr { s₃ with chunks := s₃.chunks ++ [nc] } nc hlast₅
                with h' | h'
              · exact (getF_inner_step sz (HMMadd_free_block nc.addr { s₃ with chunks := s₃.chunks ++ [nc] }) nc h' rfl hsznc 0).2
              · exact (getF_inner_step sz (HMMadd_free_block nc.addr { s₃ with chunks := s₃.chunks ++ [nc] }) { nc with is_added := true } h' rfl hsznc 0).2
          · rw [if_neg hgrow]
            rfl

/-! ## The sbrk request log -/

theorem allocPreserved_trans (s₁ s₂ s₃ : AllocState)
    (h1 : allocPreserved s₁ s₂) (h2 : allocPreserved s₂ s₃) : allocPreserved s₁ s₃ :=
  fun c hc hcf => h2 c (h1 c hc hcf) hcf

theorem remove_not_in_freq (a : Nat) (s : AllocState) (hI : CoreInv s) :
    ∀ e ∈ (HMMremove_free_block a s).freq, a ∉ e.2 := by
  have hnd := nodup_chunkAddrs_of_ordered _ hI.ordered
  intro e he ha
  unfold HMMremove_free_block at he
  cases hf : findChunk a s with
  | none =>
    rw [hf] at he
    obtain ⟨c', hc', hc'a, _, _⟩ := hI.mem_of_bucket e he a ha
    refine findChunk_none a s hf ?_
    rw [← hc'a]
    exact List.mem_map_of_mem (fun c => c.addr) hc'
  | some c =>
    rw [hf] at he
    dsimp only at he
    obtain ⟨hcmem, hca⟩ := findChunk_mem a s c hf
    by_cases hidx : bucketIdx c.size < MULTIPLES_MAX
    · by_cases hab : a ∈ freqGet (bucketIdx c.size) s.freq
      · rw [if_pos hidx, if_pos hab] at he
        rcases mem_freqSet_strong e _ _ s.freq hI.keys_nodup he with he' | ⟨he', hne⟩
        · obtain ⟨e0, he0, he0k, _⟩ :=
            (mem_freqGet_iff s.freq (bucketIdx c.size) a hI.keys_nodup).mp hab
          have hbeq : freqGet (bucketIdx c.size) s.freq = e0.2 := by
            rw [← he0k]; exact mem_freqGet_of_mem s.freq e0 hI.keys_nodup he0
          have hbnd : (freqGet (bucketIdx c.size) s.freq).Nodup :=
            hbeq ▸ hI.bucket_nodup e0 he0
          have ha' : a ∈ (freqGet (bucketIdx c.size) s.freq).erase a := by
            rw [he'] at ha; exact ha
          exact hbnd.not_mem_erase ha'
        · obtain ⟨c'', hc'', hc''a, hc''add, hc''idx⟩ := hI.mem_of_bucket e he' a ha
          have hcc : c'' = c := addr_inj s.chunks hnd c'' c hc'' hcmem (hc''a.trans hca.symm)
          exact hne (by rw [← hc''idx, hcc])
      · rw [if_pos hidx, if_neg hab] at he
        obtain ⟨c'', hc'', hc''a, hc''add, hc''idx⟩ := hI.mem_of_bucket e he a ha
        have hcc : c'' = c := addr_inj s.chunks hnd c'' c hc'' hcmem (hc''a.trans hca.symm)
        have hmem := (hI.bucket_of_added c'' hc'' hc''add).2
        rw [hcc] at hmem
        exact hab (hca ▸ hmem)
    · rw [if_neg hidx] at he
      obtain ⟨c'', hc'', hc''a, hc''add, hc''idx⟩ := hI.mem_of_bucket e he a ha
      have hcc : c'' = c := addr_inj s.chunks hnd c'' c hc'' hcmem (hc''a.trans hca.symm)
      have hlt := (hI.bucket_of_added c'' hc'' hc''add).1
      rw [hcc] at hlt
      exact hidx hlt

theorem remove_noop (a : Nat) (s : AllocState) (hI : CoreInv s)
    (hna : ∀ c ∈ s.chunks, c.addr = a → c.is_added = false) :
    HMMremove_free_block a s = s := by
  have hnd := nodup_chunkAddrs_of_ordered _ hI.ordered
  unfold HMMremove_free_block
  cases hf : findChunk a s with
  | none => rfl
  | some c =>
    dsimp only
    obtain ⟨hcmem, hca⟩ := findChunk_mem a s c hf
    by_cases hidx : bucketIdx c.size < MULTIPLES_MAX
    · rw [if_pos hidx]
      have hab : a ∉ freqGet (bucketIdx c.size) s.freq := by
        intro hmem
        obtain ⟨e0, he0, he0k, he0m⟩ :=
          (mem_freqGet_iff s.freq (bucketIdx c.size) a hI.keys_nodup).mp hmem
        obtain ⟨c'', hc'', hc''a, hc''add, _⟩ := hI.mem_of_bucket e0 he0 a he0m
        have hfalse := hna c'' hc'' hc''a
        rw [hfalse] at hc''add
        cases hc''add
      rw [if_neg hab]
    · rw [if_neg hidx]

theorem sumAdded_updChunk_notAdded (a : Nat) (f : Chunk → Chunk) (l : List Chunk)
    (hadded : ∀ c, (f c).is_added = c.is_added)
    (hl : ∀ d ∈ l, d.addr = a → d.is_added = false) :
    sumAdded (updChunk a f l) = sumAdded l := by
  induction l with
  | nil => rfl
  | cons x xs ih =>
    have hcons : updChunk a f (x :: xs)
        = (if x.addr == a then f x else x) :: updChunk a f xs := by
      simp [updChunk]
    rw [hcons, sumAdded_cons, sumAdded_cons,
      ih (fun d hd => hl d (List.mem_cons_of_mem _ hd))]
    by_cases hxa : x.addr = a
    · rw [if_pos (show (x.addr == a) = true by simp [hxa])]
      have hx := hl x (by simp) hxa
      rw [hadded, hx]
      simp
    · rw [if_neg (show ¬((x.addr == a) = true) by simp [hxa])]

theorem coreInv_grow_brk (s : AllocState) (hI : CoreInv s) (b : Nat) (hb : s.brk ≤ b)
    (L : List Nat) : CoreInv { s with brk := b, growLog := L } := by
  refine ⟨hI.acc, hI.mem_of_bucket, hI.bucket_of_added, hI.keys_nodup, hI.bucket_nodup,
    hI.ordered, ?_, hI.added_free, hI.size8⟩
  intro c hc
  exact le_trans (hI.brk_ub c hc) hb

theorem head_dropWhile_not (p : Chunk → Bool) (l : List Chunk) :
    ∀ x, (l.dropWhile p).head? = some x → p x = false := by
  induction l with
  | nil => intro x h; cases h
  | cons y ys ih =>
    intro x h
    by_cases hy : p y = true
    · rw [List.dropWhile_cons, if_pos hy] at h
      exact ih x h
    · rw [List.dropWhile_cons, if_neg hy] at h
      have hyx : y = x := by simpa using h
      rw [← hyx]
      simpa using hy

theorem grow_absorb_spec (s₂ : AllocState) (t : Chunk) (num : Nat) (s₃ s₄ s₅ : AllocState)
    (hI : CoreInv s₂) (hNA : NoAdj s₂)
    (hlast : s₂.chunks.getLast? = some t) (ht : t.is_free = true)
    (hnum8 : ALIGNMENT ∣ num) (hnum : 41 ≤ num)
    (hs₃ : s₃ = { s₂ with brk := s₂.brk + num, growLog := num :: s₂.growLog })
    (hs₄ : s₄ = HMMremove_free_block t.addr s₃)
    (hs₅ : s₅ = { s₄ with chunks := updChunk t.addr (fun x =>
        { x with size := x.size + num
                 data := fun i => if i < x.size then x.data i else 0 }) s₄.chunks }) :
    CoreInv s₅ ∧ NoAdj s₅ ∧ allocPreserved s₂ s₅ ∧
    s₅.growOk = s₂.growOk ∧ s₅.shrinkOk = s₂.shrinkOk := by
  have hIs₃ : CoreInv s₃ := hs₃ ▸ coreInv_grow_brk s₂ hI _ (Nat.le_add_right _ _) _
  have hchunks₃ : s₃.chunks = s₂.chunks := by rw [hs₃]
  have hbrk₃ : s₃.brk = s₂.brk + num := by rw [hs₃]
  have hNAs₃ : NoAdj s₃ := by unfold NoAdj; rw [hchunks₃]; exact hNA
  have hIs₄ : CoreInv s₄ := hs₄ ▸ coreInv_remove t.addr s₃ hIs₃
  have hNAs₄ : NoAdj s₄ := hs₄ ▸ noadj_remove t.addr s₃ hNAs₃
  have hfreq₄ : ∀ e ∈ s₄.freq, t.addr ∉ e.2 := hs₄ ▸ remove_not_in_freq t.addr s₃ hIs₃
  have htadd₄ : ∀ d ∈ s₄.chunks, d.addr = t.addr → d.is_added = false :=
    hs₄ ▸ remove_is_added_false t.addr s₃ hIs₃
  have hbrk₄ : s₄.brk = s₂.brk + num := by
    rw [hs₄, (remove_frame t.addr s₃).1, hbrk₃]
  have hgOk₄ : s₄.growOk = s₂.growOk := by
    rw [hs₄, (remove_frame t.addr s₃).2.1, hs₃]
  have hkOk₄ : s₄.shrinkOk = s₂.shrinkOk := by
    rw [hs₄, (remove_frame t.addr s₃).2.2.1, hs₃]
  have htopt : t ∈ s₂.chunks.getLast? := by rw [Option.mem_def]; exact hlast
  have hdec : s₂.chunks = s₂.chunks.dropLast ++ [t] :=
    (List.dropLast_append_getLast? t htopt).symm
  have htmem : t ∈ s₂.chunks := by rw [hdec]; simp
  have hnd₂ := nodup_chunkAddrs_of_ordered _ hI.ordered
  have hdec₃ : s₃.chunks = s₂.chunks.dropLast ++ t :: [] := by rw [hchunks₃]; exact hdec
  have hrem4 : s₄.chunks = s₂.chunks.dropLast ++ { t with is_added := false } :: [] := by
    rw [hs₄]; exact remove_chunks_split s₃ hIs₃ _ [] t hdec₃
  have htpre : t.addr ∉ chunkAddrs s₂.chunks.dropLast := by
    have h2 : (chunkAddrs s₂.chunks.dropLast ++ [t.addr]).Nodup := by
      have h3 := hnd₂
      rw [hdec, chunkAddrs_append] at h3
      simpa [chunkAddrs] using h3
    intro hmem
    exact List.disjoint_of_nodup_append h2 hmem (by simp)
  subst hs₅
  set F : Chunk → Chunk := (fun x =>
    { x with size := x.size + num
             data := fun i => if i < x.size then x.data i else 0 }) with hF
  set t' : Chunk := { t with is_added := false } with ht'
  have hupd : updChunk t.addr F s₄.chunks = s₂.chunks.dropLast ++ F t' :: [] :=
    updChunk_split t.addr F s₄.chunks _ [] t' hrem4 rfl htpre (by simp [chunkAddrs])
  have hmemA : ∀ x ∈ s₂.chunks.dropLast, x ∈ s₂.chunks := by
    intro x hx; rw [hdec]; exact List.mem_append_left _ hx
  have hmemA₄ : ∀ x ∈ s₂.chunks.dropLast, x ∈ s₄.chunks := by
    intro x hx; rw [hrem4]; exact List.mem_append_left _ hx
  refine ⟨⟨?_, ?_, ?_, hIs₄.keys_nodup, hIs₄.bucket_nodup, ?_, ?_, ?_, ?_⟩, ?_, ?_, hgOk₄, hkOk₄⟩
  · show s₄.current_free_size = sumAdded (updChunk t.addr F s₄.chunks)
    rw [sumAdded_updChunk_notAdded t.addr F s₄.chunks (fun c => rfl) htadd₄]
    exact hIs₄.acc
  · intro e he a' ha'
    obtain ⟨c', hc', hc'a, hc'add, hc'idx⟩ := hIs₄.mem_of_bucket e he a' ha'
    have hne' : c'.addr ≠ t.addr := by
      intro hq
      have hta : t.addr = a' := by rw [← hq, hc'a]
      rw [← hta] at ha'
      exact hfreq₄ e he ha'
    have hmem := mem_updChunk_of_mem t.addr F s₄.chunks c' hc'
    rw [if_neg hne'] at hmem
    exact ⟨c', hmem, hc'a, hc'add, hc'idx⟩
  · intro d hd hdadd
    obtain ⟨x, hx, hd'⟩ := mem_updChunk_elim t.addr F s₄.chunks d hd
    by_cases hxa : x.addr = t.addr
    · rw [if_pos hxa] at hd'
      subst hd'
      have hxadd : x.is_added = true := hdadd
      rw [htadd₄ x hx hxa] at hxadd
      cases hxadd
    · rw [if_neg hxa] at hd'
      have hxadd : x.is_added = true := by rw [← hd']; exact hdadd
      have hres := hIs₄.bucket_of_added x hx hxadd
      rw [hd']
      exact hres
  · show (updChunk t.addr F s₄.chunks).Pairwise (fun c d => c.addr + headerSize + c.size ≤ d.addr)
    rw [hupd]
    have hord₄ := hIs₄.ordered
    rw [hrem4] at hord₄
    obtain ⟨hPwA, hPwT, hcross⟩ := List.pairwise_append.mp hord₄
    refine List.pairwise_append.mpr ⟨hPwA, by simp, ?_⟩
    intro x hx y hy
    have hyt : y = F t' := by simpa using hy
    subst hyt
    show x.addr + headerSize + x.size ≤ t'.addr
    exact hcross x hx t' (by simp)
  · intro d hd
    show d.addr + headerSize + d.size ≤ s₄.brk
    rw [hupd] at hd
    rcases List.mem_append.mp hd with hdA | hdT
    · exact hIs₄.brk_ub d (hmemA₄ d hdA)
    · have hdt : d = F t' := by simpa using hdT
      subst hdt
      have hb := hI.brk_ub t htmem
      show t.addr + headerSize + (t.size + num) ≤ s₄.brk
      rw [hbrk₄]
      omega
  · intro d hd hdadd
    rw [hupd] at hd
    rcases List.mem_append.mp hd with hdA | hdT
    · exact hIs₄.added_free d (hmemA₄ d hdA) hdadd
    · have hdt : d = F t' := by simpa using hdT
      subst hdt
      have hfalse : t.is_added = false ∨ t.is_added = true := by
        cases t.is_added
        · exact Or.inl rfl
        · exact Or.inr rfl
      have hadd' : ({ t with is_added := false } : Chunk).is_added = true := hdadd
      simp at hadd'
  · intro d hd
    rw [hupd] at hd
    rcases List.mem_append.mp hd with hdA | hdT
    · exact hIs₄.size8 d (hmemA₄ d hdA)
    · have hdt : d = F t' := by simpa using hdT
      subst hdt
      obtain ⟨h81, h82⟩ := hI.size8 t htmem
      refine ⟨?_, ?_⟩
      · show ALIGNMENT ∣ t.size + num
        exact Nat.dvd_add h81 hnum8
      · show ALIGNMENT ≤ t.size + num
        omega
  · show (updChunk t.addr F s₄.chunks).Chain' _
    exact chain'_updChunk t.addr F s₄.chunks hNAs₄ (fun c d hcd => ⟨hcd, hcd, hcd⟩)
  · intro c hc hcf
    have hcne : c.addr ≠ t.addr := by
      intro hq
      have : c = t := addr_inj s₂.chunks hnd₂ c t hc htmem hq
      rw [this, ht] at hcf
      cases hcf
    have hc₃ : c ∈ s₃.chunks := by rw [hchunks₃]; exact hc
    have hc₄ : c ∈ s₄.chunks := by
      rw [hs₄]; exact remove_alloc_preserved t.addr s₃ hIs₃ c hc₃ hcf
    have hmem := mem_updChunk_of_mem t.addr F s₄.chunks c hc₄
    rw [if_neg hcne] at hmem
    exact hmem

theorem grow_fresh_spec (s₂ : AllocState) (num : Nat) (T W : AllocState)
    (hI : CoreInv s₂) (hNA : NoAdj s₂)
    (hnum8 : ALIGNMENT ∣ num) (hnum : 49 ≤ num)
    (hlink : ∀ t, s₂.chunks.getLast? = some t → t.is_free = false)
    (hT : T = { s₂ with
        brk := s₂.brk + num
        growLog := num :: s₂.growLog
        chunks := s₂.chunks ++ [{ addr := s₂.brk, is_added := false, is_free := true
                                  size := num - headerSize, data := fun _ => 0 }] })
    (hW : W = HMMadd_free_block s₂.brk T) :
    CoreInv W ∧ NoAdj W ∧ allocPreserved s₂ W ∧
    W.growOk = s₂.growOk ∧ W.shrinkOk = s₂.shrinkOk := by
  have h40 : headerSize = 40 := rfl
  subst hT hW
  set nc : Chunk := { addr := s₂.brk, is_added := false, is_free := true
                      size := num - headerSize, data := fun _ => 0 } with hnc
  have hub := hI.brk_ub
  have hbrkpre : s₂.brk ∉ chunkAddrs s₂.chunks := by
    intro hmem
    obtain ⟨x, hx, hxa⟩ := List.mem_map.mp hmem
    have := hub x hx
    omega
  have hIT : CoreInv { s₂ with
      brk := s₂.brk + num, growLog := num :: s₂.growLog, chunks := s₂.chunks ++ [nc] } := by
    refine ⟨?_, ?_, ?_, hI.keys_nodup, hI.bucket_nodup, ?_, ?_, ?_, ?_⟩
    · show s₂.current_free_size = sumAdded (s₂.chunks ++ [nc])
      rw [sumAdded_append]
      have h0 : sumAdded [nc] = 0 := by simp [sumAdded, hnc]
      rw [h0, Nat.add_zero]
      exact hI.acc
    · intro e he a' ha'
      obtain ⟨c', hc', hc'a, hc'add, hc'idx⟩ := hI.mem_of_bucket e he a' ha'
      exact ⟨c', List.mem_append_left _ hc', hc'a, hc'add, hc'idx⟩
    · intro d hd hdadd
      rcases List.mem_append.mp hd with hdl | hdr
      · exact hI.bucket_of_added d hdl hdadd
      · have hdn : d = nc := by simpa using hdr
        rw [hdn, hnc] at hdadd
        simp at hdadd
    · refine List.pairwise_append.mpr ⟨hI.ordered, by simp, ?_⟩
      intro x hx y hy
      have hyn : y = nc := by simpa using hy
      subst hyn
      show x.addr + headerSize + x.size ≤ s₂.brk
      exact hub x hx
    · intro d hd
      show d.addr + headerSize + d.size ≤ s₂.brk + num
      rcases List.mem_append.mp hd with hdl | hdr
      · have := hub d hdl
        omega
      · have hdn : d = nc := by simpa using hdr
        subst hdn
        show s₂.brk + headerSize + (num - headerSize) ≤ s₂.brk + num
        omega
    · intro d hd hdadd
      rcases List.mem_append.mp hd with hdl | hdr
      · exact hI.added_free d hdl hdadd
      · have hdn : d = nc := by simpa using hdr
        rw [hdn, hnc] at hdadd
        simp at hdadd
    · intro d hd
      rcases List.mem_append.mp hd with hdl | hdr
      · exact hI.size8 d hdl
      · have hdn : d = nc := by simpa using hdr
        subst hdn
        constructor
        · show ALIGNMENT ∣ num - headerSize
          refine Nat.dvd_sub' hnum8 ?_
          rw [h40]
          decide
        · show ALIGNMENT ≤ num - headerSize
          show ALIGNMENT ≤ num - headerSize
          have hA : ALIGNMENT = 8 := rfl
          omega
  have hNAT : NoAdj { s₂ with
      brk := s₂.brk + num, growLog := num :: s₂.growLog, chunks := s₂.chunks ++ [nc] } := by
    show (s₂.chunks ++ [nc]).Chain' _
    refine List.chain'_append.mpr ⟨hNA, by simp, ?_⟩
    intro x hx y hy
    have hyn : y = nc := by
      have h' : nc = y := by simpa using hy
      exact h'.symm
    subst hyn
    intro hcontra
    have hxf := hlink x (Option.mem_def.mp hx)
    rw [hcontra.1] at hxf
    cases hxf
  have hfind : findChunk s₂.brk { s₂ with
      brk := s₂.brk + num, growLog := num :: s₂.growLog, chunks := s₂.chunks ++ [nc] }
      = some nc := by
    show (s₂.chunks ++ nc :: []).find? (fun c => c.addr == s₂.brk) = some nc
    exact find?_first s₂.brk s₂.chunks [] nc rfl hbrkpre
  have hfree : ∀ c, findChunk s₂.brk { s₂ with
      brk := s₂.brk + num, growLog := num :: s₂.growLog, chunks := s₂.chunks ++ [nc] }
      = some c → c.is_free = true := by
    intro c hc
    rw [hfind] at hc
    have : nc = c := Option.some.inj hc
    rw [← this]
  refine ⟨coreInv_add _ _ hIT hfree, noadj_add _ _ hNAT, ?_, ?_, ?_⟩
  · intro c hc hcf
    refine add_alloc_preserved _ _ hIT hfree c ?_ hcf
    exact List.mem_append_left _ hc
  · rw [(add_frame _ _).2.1]
  · rw [(add_frame _ _).2.2.1]

theorem getF_spec (sz : Nat) (hsz8 : ALIGNMENT ∣ sz) (hsz : ALIGNMENT ≤ sz) :
    ∀ (fuel : Nat) (s : AllocState), CoreInv s → NoAdj s →
    ∀ (r : Option Nat) (s' : AllocState), HMMget_free_chunkF fuel sz s = some (r, s') →
      CoreInv s' ∧ allocPreserved s s' ∧
      s'.growOk = s.growOk ∧ s'.shrinkOk = s.shrinkOk ∧
      (r = none → NoAdj s') ∧
      (∀ a, r = some a → NoAdjExcept a s' ∧
        (∀ d ∈ s'.chunks, d.addr = a → d.is_added = false) ∧
        (∃ c ∈ s'.chunks, c.addr = a ∧ c.is_free = true ∧ sz ≤ c.size)) := by
  intro fuel
  induction fuel with
  | zero => intro s _ _ r s' h; cases h
  | succ fuel ih =>
    intro s hI hNA r s' h
    have hA8 : ALIGNMENT = 8 := rfl
    unfold HMMget_free_chunkF at h
    cases hg : HMMget_free_block sz s with
    | mk r₁ s₁ =>
      rw [hg] at h
      cases r₁ with
      | some a' =>
        have hrr : some a' = r := by
          have := congrArg (fun o => Option.map Prod.fst o) h
          simpa using this
        have hss : s₁ = s' := by
          have := congrArg (fun o => Option.map Prod.snd o) h
          simpa using this
        subst hrr
        subst hss
        obtain ⟨c0, hc0mem, hc0a, hc0add, hc0free, hc0idx, hstate⟩ :=
          gfb_some sz s hI a' (by rw [hg])
        have hs₁ : s₁ = HMMremove_free_block a' s := by
          rw [← hstate, hg]
        subst hs₁
        refine ⟨coreInv_remove a' s hI, remove_alloc_preserved a' s hI,
          (remove_frame a' s).2.1, (remove_frame a' s).2.2.1, ?_, ?_⟩
        · intro hcontra; cases hcontra
        · intro a ha
          have haa : a' = a := Option.some.inj ha
          subst haa
          refine ⟨noadjexcept_of_noadj a' _ (noadj_remove a' s hNA),
            remove_is_added_false a' s hI, ?_⟩
          have hsz0 : c0.size = sz := by
            obtain ⟨h81, h82⟩ := hI.size8 c0 hc0mem
            exact bucketIdx_inj c0.size sz h81 h82 hsz8 hsz hc0idx
          rcases mem_after_remove a' s c0 hc0mem with hm | hm
          · exact ⟨c0, hm, hc0a, hc0free, by omega⟩
          · refine ⟨{ c0 with is_added := false }, hm, hc0a, hc0free, ?_⟩
            show sz ≤ c0.size
            omega
      | none =>
        have hs₁ : s₁ = s := by
          have := gfb_none_state sz s (by rw [hg])
          rw [hg] at this
          exact this
        subst hs₁
        dsimp only at h
        cases hsc : scanLoop sz s₁.chunks.length s₁ with
        | mk r₂ s₂ =>
          rw [hsc] at h
          have hscan := scanLoop_spec sz hsz8 hsz s₁.chunks.length s₁ hI hNA
          cases r₂ with
          | some a' =>
            have hrr : some a' = r := by
              have := congrArg (fun o => Option.map Prod.fst o) h
              simpa using this
            have hss : s₂ = s' := by
              have := congrArg (fun o => Option.map Prod.snd o) h
              simpa using this
            subst hrr
            subst hss
            obtain ⟨hC, hNAE, hfr, hap, hadd0, hex⟩ := hscan.2 a' s₂ hsc
            refine ⟨hC, hap, hfr.2.1, hfr.2.2.1, ?_, ?_⟩
            · intro hcontra; cases hcontra
            · intro a ha
              have haa : a' = a := Option.some.inj ha
              subst haa
              exact ⟨hNAE, hadd0, hex⟩
          | none =>
            obtain ⟨hI₂, hNA₂, hfr₂, hap₂⟩ := hscan.1 s₂ hsc
            dsimp only at h
            by_cases hgrow : s₂.growOk = true
            · rw [if_pos hgrow] at h
              cases hlast : ({ s₂ with brk := s₂.brk + numAllocatedBytes sz, growLog := numAllocatedBytes sz :: s₂.growLog } : AllocState).chunks.getLast? with
              | some t =>
                rw [hlast] at h
                dsimp only at h
                have hlast₂ : s₂.chunks.getLast? = some t := hlast
                have hnum8 := numAllocatedBytes_dvd8 sz
                have hnumge := numAllocatedBytes_ge sz
                by_cases htf : t.is_free = true
                · rw [if_pos htf] at h
                  obtain ⟨hC5, hN5, hAP5, hg5, hk5⟩ :=
                    grow_absorb_spec s₂ t (numAllocatedBytes sz) _ _ _ hI₂ hNA₂ hlast₂ htf
                      hnum8 (by omega) rfl rfl rfl
                  obtain ⟨hC', hap', hg', hk', hnone', hsome'⟩ := ih _ hC5 hN5 r s' h
                  refine ⟨hC',
                    allocPreserved_trans _ _ _ (allocPreserved_trans _ _ _ hap₂ hAP5) hap',
                    ?_, ?_, hnone', hsome'⟩
                  · rw [hg', hg5, hfr₂.2.1]
                  · rw [hk', hk5, hfr₂.2.2.1]
                · rw [if_neg htf] at h
                  have htmem₂ : t ∈ s₂.chunks := by
                    have htopt : t ∈ s₂.chunks.getLast? := Option.mem_def.mpr hlast₂
                    rw [← List.dropLast_append_getLast? t htopt]
                    simp
                  have htfree : t.is_free = false := by
                    cases hfb : t.is_free with
                    | false => rfl
                    | true => exact absurd hfb htf
                  have htadd : t.is_added = false := by
                    cases hta : t.is_added with
                    | false => rfl
                    | true =>
                      have := hI₂.added_free t htmem₂ hta
                      rw [this] at htfree
                      cases htfree
                  have hIs₃ : CoreInv ({ s₂ with brk := s₂.brk + numAllocatedBytes sz, growLog := numAllocatedBytes sz :: s₂.growLog } : AllocState) :=
                    coreInv_grow_brk s₂ hI₂ _ (Nat.le_add_right _ _) _
                  have hnd₂ := nodup_chunkAddrs_of_ordered _ hI₂.ordered
                  have hnoop : HMMremove_free_block t.addr { s₂ with brk := s₂.brk + numAllocatedBytes sz, growLog := numAllocatedBytes sz :: s₂.growLog } = { s₂ with brk := s₂.brk + numAllocatedBytes sz, growLog := numAllocatedBytes sz :: s₂.growLog } := by
                    refine remove_noop _ _ hIs₃ ?_
                    intro c hc hca
                    have hc₂ : c ∈ s₂.chunks := hc
                    have hct : c = t := addr_inj s₂.chunks hnd₂ c t hc₂ htmem₂ hca
                    rw [hct]
                    exact htadd
                  rw [hnoop] at h
                  obtain ⟨hCW, hNW, hAPW, hgW, hkW⟩ :=
                    grow_fresh_spec s₂ (numAllocatedBytes sz) _ _ hI₂ hNA₂ hnum8
                      (by have h8 := hsz; rw [hA8] at h8; omega)
                      (fun t0 h0 => by
                        rw [Option.some.inj (h0.symm.trans hlast₂)]
                        exact htfree)
                      rfl rfl
                  obtain ⟨hC', hap', hg', hk', hnone', hsome'⟩ := ih _ hCW hNW r s' h
                  refine ⟨hC',
                    allocPreserved_trans _ _ _ (allocPreserved_trans _ _ _ hap₂ hAPW) hap',
                    ?_, ?_, hnone', hsome'⟩
                  · rw [hg', hgW, hfr₂.2.1]
                  · rw [hk', hkW, hfr₂.2.2.1]
              | none =>
                rw [hlast] at h
                dsimp only at h
                have hempty : s₂.chunks = [] := by
                  have h0 : s₂.chunks.getLast? = none := hlast
                  exact List.getLast?_eq_none_iff.mp h0
                have hnum8 := numAllocatedBytes_dvd8 sz
                have hnumge := numAllocatedBytes_ge sz
                obtain ⟨hCW, hNW, hAPW, hgW, hkW⟩ :=
                  grow_fresh_spec s₂ (numAllocatedBytes sz) _ _ hI₂ hNA₂ hnum8
                    (by have h8 := hsz; rw [hA8] at h8; omega)
                    (fun t0 h0 => by rw [hempty] at h0; cases h0)
                    rfl rfl
                obtain ⟨hC', hap', hg', hk', hnone', hsome'⟩ := ih _ hCW hNW r s' h
                refine ⟨hC',
                  allocPreserved_trans _ _ _ (allocPreserved_trans _ _ _ hap₂ hAPW) hap',
                  ?_, ?_, hnone', hsome'⟩
                · rw [hg', hgW, hfr₂.2.1]
                · rw [hk', hkW, hfr₂.2.2.1]
            · rw [if_neg hgrow] at h
              have hrr : (none : Option Nat) = r := by
                have := congrArg (fun o => Option.map Prod.fst o) h
                simpa using this
              have hss : s₂ = s' := by
                have := congrArg (fun o => Option.map Prod.snd o) h
                simpa using this
              subst hrr
              subst hss
              refine ⟨hI₂, hap₂, hfr₂.2.1, hfr₂.2.2.1, fun _ => hNA₂, ?_⟩
              intro a ha
              cases ha

theorem roundUp8_dvd (n : Nat) : ALIGNMENT ∣ roundUp8 n := by
  unfold roundUp8
  exact Nat.dvd_mul_left _ _

theorem roundUp8_ge (n : Nat) : n ≤ roundUp8 n := by
  unfold roundUp8
  have hA : ALIGNMENT = 8 := rfl
  rw [hA]
  have hdm := Nat.div_add_mod (n + 7) 8
  have hmod : (n + 7) % 8 < 8 := Nat.mod_lt _ (by norm_num)
  omega

theorem roundUp8_min (n : Nat) (hn : 1 ≤ n) : ALIGNMENT ≤ roundUp8 n := by
  have h1 := roundUp8_ge n
  have h2 := roundUp8_dvd n
  refine Nat.le_of_dvd ?_ h2
  omega

theorem malloc_spec (n : Nat) (s : AllocState) (hI : CoreInv s) (hNA : NoAdj s) :
    CoreInv (HMMmalloc n s).2 ∧ NoAdj (HMMmalloc n s).2 ∧
    allocPreserved s (HMMmalloc n s).2 ∧
    (HMMmalloc n s).2.growOk = s.growOk ∧ (HMMmalloc n s).2.shrinkOk = s.shrinkOk ∧
    (∀ p, (HMMmalloc n s).1 = some p →
      (∃ c ∈ (HMMmalloc n s).2.chunks, c.addr + headerSize = p ∧ c.is_free = false ∧
        roundUp8 (if n = 0 then ALIGNMENT else n) ≤ c.size) ∧
      (∀ c ∈ s.chunks, c.is_free = false → c.addr + headerSize ≠ p)) := by
  have hsz8 : ALIGNMENT ∣ roundUp8 (if n = 0 then ALIGNMENT else n) := roundUp8_dvd _
  have hsz : ALIGNMENT ≤ roundUp8 (if n = 0 then ALIGNMENT else n) := by
    refine roundUp8_min _ ?_
    by_cases hn : n = 0
    · rw [if_pos hn]; exact Nat.one_le_iff_ne_zero.mpr (by decide)
    · rw [if_neg hn]; exact Nat.one_le_iff_ne_zero.mpr hn
  cases hre : HMMget_free_chunkF 2 (roundUp8 (if n = 0 then ALIGNMENT else n)) s with
  | none =>
    have hca := getF_two_isSome (roundUp8 (if n = 0 then ALIGNMENT else n)) s
    rw [hre] at hca
    cases hca
  | some p₀ =>
    cases p₀ with
    | mk r s'' =>
      obtain ⟨hC, hap, hg, hk, hnone, hsome⟩ :=
        getF_spec _ hsz8 hsz 2 s hI hNA r s'' hre
      cases r with
      | none =>
        have hmal : HMMmalloc n s = (none, s'') := by
          unfold HMMmalloc HMMget_free_chunk
          dsimp only
          rw [hre]
          rfl
        rw [hmal]
        exact ⟨hC, hnone rfl, hap, hg, hk, fun p hp => by cases hp⟩
      | some a =>
        have hmal : HMMmalloc n s = (some (a + headerSize),
            { s'' with chunks := updChunk a (fun x => { x with is_free := false }) s''.chunks }) := by
          unfold HMMmalloc HMMget_free_chunk
          dsimp only
          rw [hre]
          rfl
        obtain ⟨hNAE, hadd0, hex⟩ := hsome a rfl
        obtain ⟨c, hcmem, hca, hcfree, hcsz⟩ := hex
        have hnd'' := nodup_chunkAddrs_of_ordered _ hC.ordered
        rw [hmal]
        refine ⟨?_, ?_, ?_, hg, hk, ?_⟩
        · refine coreInv_updChunk_flags a s'' _ hC (fun c => rfl) (fun c => rfl)
            (fun c => rfl) ?_
          intro d hd hda hdadd
          rw [hadd0 d hd hda] at hdadd
          cases hdadd
        · exact noadj_of_flip a s'' hNAE
        · intro c' hc' hcf'
          have h1 : c' ∈ s''.chunks := hap c' hc' hcf'
          have hcne : c'.addr ≠ a := by
            intro hq
            have hc'' : c' = c := addr_inj s''.chunks hnd'' c' c h1 hcmem (hq.trans hca.symm)
            rw [hc'', hcfree] at hcf'
            cases hcf'
          have hm := mem_updChunk_of_mem a (fun x => { x with is_free := false }) s''.chunks c' h1
          rw [if_neg hcne] at hm
          exact hm
        · intro p hp
          have hpa : a + headerSize = p := by simpa using hp
          constructor
          · have hmem := mem_updChunk_of_mem a (fun x => { x with is_free := false })
              s''.chunks c hcmem
            rw [if_pos hca] at hmem
            refine ⟨{ c with is_free := false }, hmem, ?_, rfl, hcsz⟩
            show c.addr + headerSize = p
            rw [hca]; exact hpa
          · intro c' hc' hcf' hq
            have hca' : c'.addr = a := by omega
            have h1 : c' ∈ s''.chunks := hap c' hc' hcf'
            have hc'' : c' = c := addr_inj s''.chunks hnd'' c' c h1 hcmem (hca'.trans hca.symm)
            rw [hc'', hcfree] at hcf'
            cases hcf'

/-! ## Lemmas about HMMfree and the release-to-OS check -/

theorem freeAt_remove (b a : Nat) (s : AllocState)
    (h : ∀ d ∈ s.chunks, d.addr = a → d.is_free = true) :
    ∀ d ∈ (HMMremove_free_block b s).chunks, d.addr = a → d.is_free = true := by
  intro d hd hda
  rcases remove_chunks_cases b s with hc | hc <;> rw [hc] at hd
  · exact h d hd hda
  · obtain ⟨x, hx, hd'⟩ := mem_updChunk_elim b _ s.chunks d hd
    by_cases hxa : x.addr = b
    · rw [if_pos hxa] at hd'
      subst hd'
      exact h x hx hda
    · rw [if_neg hxa] at hd'
      subst hd'
      exact h d hx hda

theorem freeAt_add (b a : Nat) (s : AllocState)
    (h : ∀ d ∈ s.chunks, d.addr = a → d.is_free = true) :
    ∀ d ∈ (HMMadd_free_block b s).chunks, d.addr = a → d.is_free = true := by
  intro d hd hda
  rcases add_chunks_cases b s with hc | hc <;> rw [hc] at hd
  · exact h d hd hda
  · obtain ⟨x, hx, hd'⟩ := mem_updChunk_elim b _ s.chunks d hd
    by_cases hxa : x.addr = b
    · rw [if_pos hxa] at hd'
      subst hd'
      exact h x hx hda
    · rw [if_neg hxa] at hd'
      subst hd'
      exact h d hx hda

theorem chain'_dropWhile {R : Chunk → Chunk → Prop} (p : Chunk → Bool) (l : List Chunk)
    (h : l.Chain' R) : (l.dropWhile p).Chain' R := by
  induction l with
  | nil => simp
  | cons x xs ih =>
    rw [List.dropWhile_cons]
    by_cases hx : p x = true
    · rw [if_pos hx]
      exact ih h.tail
    · rw [if_neg hx]
      exact h

theorem shrink_run_cases (s : AllocState) (hNA : NoAdj s) :
    s.chunks.reverse.takeWhile (fun c => c.is_free) = [] ∨
    ∃ t, s.chunks.reverse.takeWhile (fun c => c.is_free) = [t] ∧
      s.chunks.getLast? = some t ∧ t.is_free = true := by
  cases hrev : s.chunks.reverse with
  | nil =>
    refine Or.inl ?_
    rfl
  | cons t rest =>
    by_cases htf : t.is_free = true
    · refine Or.inr ⟨t, ?_, ?_, htf⟩
      · rw [List.takeWhile_cons,
          if_pos (show (fun c => c.is_free) t = true from htf)]
        cases hrest : rest with
        | nil => simp
        | cons r rest' =>
          have hs : s.chunks = (rest'.reverse ++ [r]) ++ [t] := by
            have h1 : s.chunks = (t :: r :: rest').reverse := by
              rw [← hrest, ← hrev, List.reverse_reverse]
            rw [h1]
            simp
          have hch := hNA
          unfold NoAdj at hch
          rw [hs] at hch
          obtain ⟨hch1, hch2, hlink⟩ := List.chain'_append.mp hch
          have hrel : ¬(r.is_free = true ∧ t.is_free = true) := by
            refine hlink r ?_ t ?_
            · rw [List.getLast?_concat]; rfl
            · rfl
          have hrf : r.is_free = false := by
            cases hfb : r.is_free with
            | false => rfl
            | true => exact absurd ⟨hfb, htf⟩ hrel
          rw [List.takeWhile_cons,
            if_neg (show ¬((fun c => c.is_free) r = true) by simp [hrf])]
      · rw [← List.head?_reverse, hrev]
        rfl
    · refine Or.inl ?_
      rw [List.takeWhile_cons,
        if_neg (show ¬((fun c => c.is_free) t = true) from htf)]

theorem shrink_spec (s : AllocState) (hI : CoreInv s) (hNA : NoAdj s) :
    CoreInv (shrinkCheck s) ∧ NoAdj (shrinkCheck s) ∧
    (∀ c ∈ s.chunks, c.is_free = false → c ∈ (shrinkCheck s).chunks) ∧
    (shrinkCheck s).growOk = s.growOk ∧ (shrinkCheck s).shrinkOk = s.shrinkOk ∧
    (∀ a, (∀ d ∈ s.chunks, d.addr = a → d.is_free = true) →
      ∀ d ∈ (shrinkCheck s).chunks, d.addr = a → d.is_free = true) := by
  have h40 : headerSize = 40 := rfl
  by_cases hacc : ALLOCATED_BYTES ≤ s.current_free_size
  · rcases shrink_run_cases s hNA with hrun | ⟨t, hrun, hlast, htf⟩
    · have hres : shrinkCheck s = s := by
        unfold shrinkCheck
        rw [if_pos hacc]
        dsimp only
        rw [hrun]
        simp only [List.foldl_nil, List.map_nil, List.sum_nil]
        rw [if_neg (show ¬(ALLOCATED_BYTES ≤ 0) by decide)]
      rw [hres]
      exact ⟨hI, hNA, fun c hc _ => hc, rfl, rfl, fun a ha => ha⟩
    · have hne : s.chunks ≠ [] := by intro h0; rw [h0] at hlast; cases hlast
      have htopt : t ∈ s.chunks.getLast? := Option.mem_def.mpr hlast
      have hdec : s.chunks = s.chunks.dropLast ++ [t] :=
        (List.dropLast_append_getLast? t htopt).symm
      have htmem : t ∈ s.chunks := by rw [hdec]; simp
      have hnd := nodup_chunkAddrs_of_ordered _ hI.ordered
      set A := s.chunks.dropLast with hA
      have hIs₁ : CoreInv (HMMremove_free_block t.addr s) := coreInv_remove t.addr s hI
      have hNAs₁ : NoAdj (HMMremove_free_block t.addr s) := noadj_remove t.addr s hNA
      have hrem : (HMMremove_free_block t.addr s).chunks
          = A ++ { t with is_added := false } :: [] :=
        remove_chunks_split s hI A [] t hdec
      have hmemA : ∀ x ∈ A, x ∈ s.chunks := by
        intro x hx; rw [hdec]; exact List.mem_append_left _ hx
      have hmemA₁ : ∀ x ∈ A, x ∈ (HMMremove_free_block t.addr s).chunks := by
        intro x hx; rw [hrem]; exact List.mem_append_left _ hx
      have hbrk₁ : (HMMremove_free_block t.addr s).brk = s.brk := (remove_frame t.addr s).1
      have hgOk₁ : (HMMremove_free_block t.addr s).growOk = s.growOk :=
        (remove_frame t.addr s).2.1
      have hkOk₁ : (HMMremove_free_block t.addr s).shrinkOk = s.shrinkOk :=
        (remove_frame t.addr s).2.2.1
      by_cases htot : ALLOCATED_BYTES ≤ t.size + headerSize
      · have hlen : (A ++ ({ t with is_added := false } : Chunk) :: []).length - 1
            = A.length := by simp
        have htake' : (HMMremove_free_block t.addr s).chunks.take
            ((HMMremove_free_block t.addr s).chunks.length - 1) = A := by
          rw [hrem, hlen]
          exact List.take_left' rfl
        have hordS := hI.ordered
        rw [hdec] at hordS
        obtain ⟨hPwA, _, hcrossA⟩ := List.pairwise_append.mp hordS
        have hchA : A.Chain' (fun c d => ¬(c.is_free = true ∧ d.is_free = true)) := by
          have hch := hNA
          unfold NoAdj at hch
          rw [hdec] at hch
          exact (List.chain'_append.mp hch).1
        have haccA : (HMMremove_free_block t.addr s).current_free_size = sumAdded A := by
          rw [hIs₁.acc, hrem, sumAdded_append, sumAdded_cons]
          simp [sumAdded]
        have hfreq₁ := remove_not_in_freq t.addr s hI
        have hmem_of_bucket : ∀ e ∈ (HMMremove_free_block t.addr s).freq, ∀ a ∈ e.2,
            ∃ c ∈ A, c.addr = a ∧ c.is_added = true ∧ bucketIdx c.size = e.1 := by
          intro e he a' ha'
          obtain ⟨c', hc', hc'a, hc'add, hc'idx⟩ := hIs₁.mem_of_bucket e he a' ha'
          rw [hrem] at hc'
          rcases List.mem_append.mp hc' with hcl | hcr
          · exact ⟨c', hcl, hc'a, hc'add, hc'idx⟩
          · have hct : c' = { t with is_added := false } := by simpa using hcr
            have : t.addr = a' := by rw [← hc'a, hct]
            rw [← this] at ha'
            exact absurd ha' (hfreq₁ e he)
        have hbound : ∀ x ∈ A, x.addr + headerSize + x.size ≤ t.addr := by
          intro x hx
          exact hcrossA x hx t (by simp)
        have htbound : t.addr + headerSize + t.size ≤ s.brk := hI.brk_ub t htmem
        have hallocA : ∀ c ∈ s.chunks, c.is_free = false → c ∈ A := by
          intro c hc hcf
          rw [hdec] at hc
          rcases List.mem_append.mp hc with hcl | hcr
          · exact hcl
          · have hct : c = t := by simpa using hcr
            rw [hct, htf] at hcf
            cases hcf
        have hcore : ∀ (B : Nat), (∀ x ∈ A, x.addr + headerSize + x.size ≤ B) →
            CoreInv { HMMremove_free_block t.addr s with chunks := A, brk := B } := by
          intro B hB
          refine ⟨haccA, hmem_of_bucket, ?_, hIs₁.keys_nodup, hIs₁.bucket_nodup, hPwA,
            hB, ?_, ?_⟩
          · intro c hc hcadd
            exact hIs₁.bucket_of_added c (hmemA₁ c hc) hcadd
          · intro c hc hcadd
            exact hIs₁.added_free c (hmemA₁ c hc) hcadd
          · intro c hc
            exact hIs₁.size8 c (hmemA₁ c hc)
        have hres : shrinkCheck s = (if s.shrinkOk = true then
            { HMMremove_free_block t.addr s with chunks := A, brk := (HMMremove_free_block t.addr s).brk - (t.size + headerSize + 0) }
          else { HMMremove_free_block t.addr s with chunks := A }) := by
          unfold shrinkCheck
          rw [if_pos hacc]
          dsimp only
          rw [hrun]
          simp only [List.foldl_cons, List.foldl_nil, List.map_cons, List.map_nil,
            List.sum_cons, List.sum_nil, List.length_cons, List.length_nil]
          rw [if_pos (show ALLOCATED_BYTES ≤ t.size + headerSize + 0 by omega)]
          rw [htake']
          have hko₂iff : ({ HMMremove_free_block t.addr s with chunks := A } : AllocState).shrinkOk
              = s.shrinkOk := hkOk₁
          by_cases hko : s.shrinkOk = true
          · rw [if_pos (show ({ HMMremove_free_block t.addr s with chunks := A } : AllocState).shrinkOk = true from hko₂iff.trans hko), if_pos hko]
          · rw [if_neg (show ¬(({ HMMremove_free_block t.addr s with chunks := A } : AllocState).shrinkOk = true) from by rw [hko₂iff]; exact hko), if_neg hko]
        rw [hres]
        by_cases hko : s.shrinkOk = true
        · rw [if_pos hko]
          refine ⟨?_, hchA, ?_, hgOk₁, hkOk₁, ?_⟩
          · refine hcore _ ?_
            intro x hx
            have := hbound x hx
            rw [hbrk₁]
            omega
          · intro c hc hcf
            exact hallocA c hc hcf
          · intro a ha d hd hda
            exact ha d (hmemA d hd) hda
        · rw [if_neg hko]
          refine ⟨?_, hchA, ?_, hgOk₁, hkOk₁, ?_⟩
          · have := hcore (HMMremove_free_block t.addr s).brk ?_
            · exact this
            · intro x hx
              have := hbound x hx
              rw [hbrk₁]
              omega
          · intro c hc hcf
            exact hallocA c hc hcf
          · intro a ha d hd hda
            exact ha d (hmemA d hd) hda
      · have hres : shrinkCheck s = HMMremove_free_block t.addr s := by
          unfold shrinkCheck
          rw [if_pos hacc]
          dsimp only
          rw [hrun]
          simp only [List.foldl_cons, List.foldl_nil, List.map_cons, List.map_nil,
            List.sum_cons, List.sum_nil]
          rw [if_neg (show ¬(ALLOCATED_BYTES ≤ t.size + headerSize + 0) by omega)]
        rw [hres]
        exact ⟨hIs₁, hNAs₁, remove_alloc_preserved t.addr s hI, hgOk₁, hkOk₁,
          fun a ha => freeAt_remove t.addr a s ha⟩
  · have hres : shrinkCheck s = s := by
      unfold shrinkCheck
      rw [if_neg hacc]
    rw [hres]
    exact ⟨hI, hNA, fun c hc _ => hc, rfl, rfl, fun a ha => ha⟩

theorem free_spec (p : Nat) (s : AllocState) (hI : CoreInv s) (hNA : NoAdj s) :
    CoreInv (HMMfree p s) ∧ NoAdj (HMMfree p s) ∧
    (HMMfree p s).growOk = s.growOk ∧ (HMMfree p s).shrinkOk = s.shrinkOk ∧
    (p ≠ 0 → ∀ d ∈ (HMMfree p s).chunks, d.addr = p - headerSize → d.is_free = true) ∧
    (∀ c ∈ s.chunks, c.is_free = false → c.addr ≠ p - headerSize →
      c ∈ (HMMfree p s).chunks) := by
  by_cases hp0 : p = 0
  · have hres : HMMfree p s = s := by
      unfold HMMfree
      rw [if_pos hp0]
    rw [hres]
    exact ⟨hI, hNA, rfl, rfl, fun hne => absurd hp0 hne, fun c hc _ _ => hc⟩
  · have hndS := nodup_chunkAddrs_of_ordered _ hI.ordered
    cases hsp : splitAtAddr (p - headerSize) s.chunks with
    | none =>
      have hres : HMMfree p s = s := by
        unfold HMMfree
        rw [if_neg hp0, hsp]
      rw [hres]
      refine ⟨hI, hNA, rfl, rfl, ?_, fun c hc _ _ => hc⟩
      intro _ d hd hda
      have hnotmem := splitAtAddr_none (p - headerSize) s.chunks hsp
      exact absurd (hda ▸ List.mem_map_of_mem (fun c => c.addr) hd) hnotmem
    | some trip =>
      obtain ⟨pre, c, post⟩ := trip
      obtain ⟨he, hca, hpreaddr⟩ := splitAtAddr_eq (p - headerSize) s.chunks pre post c hsp
      by_cases hcf : c.is_free = true
      · have hres : HMMfree p s = s := by
          unfold HMMfree
          rw [if_neg hp0, hsp]
          dsimp only
          rw [if_pos hcf]
        rw [hres]
        refine ⟨hI, hNA, rfl, rfl, ?_, fun c₀ hc₀ _ _ => hc₀⟩
        intro _ d hd hda
        have hcmem : c ∈ s.chunks := by
          rw [he]; exact List.mem_append_right _ (List.mem_cons_self _ _)
        have hdc : d = c := addr_inj s.chunks hndS d c hd hcmem (hda.trans hca.symm)
        rw [hdc]
        exact hcf
      · -- the real free path
        have hndS' : (chunkAddrs pre ++ c.addr :: chunkAddrs post).Nodup := by
          have h0 := hndS
          rw [he] at h0
          simpa [chunkAddrs_append, chunkAddrs_cons] using h0
        have hmid := List.nodup_middle.mp hndS'
        have hcpp := (List.nodup_cons.mp hmid).1
        have hpostaddr : (p - headerSize) ∉ chunkAddrs post := by
          rw [← hca]
          intro hm
          exact hcpp (List.mem_append_right _ hm)
        set c' : Chunk := { c with is_free := true } with hc'
        have hc'a : c'.addr = p - headerSize := hca
        set s₁ : AllocState := { s with chunks := updChunk (p - headerSize) (fun x => { x with is_free := true }) s.chunks } with hs₁
        have hIs₁ : CoreInv s₁ :=
          coreInv_updChunk_flags (p - headerSize) s _ hI (fun _ => rfl) (fun _ => rfl)
            (fun _ => rfl) (fun _ _ _ _ => rfl)
        have hch₁ : s₁.chunks = pre ++ c' :: post :=
          updChunk_split (p - headerSize) _ s.chunks pre post c he hca hpreaddr hpostaddr
        have hnd₁ := nodup_chunkAddrs_of_ordered _ hIs₁.ordered
        have hc'mem : c' ∈ s₁.chunks := by
          rw [hch₁]; exact List.mem_append_right _ (List.mem_cons_self _ _)
        have hfa₁ : ∀ d ∈ s₁.chunks, d.addr = p - headerSize → d.is_free = true := by
          intro d hd hda
          obtain ⟨x, hx, hd'⟩ := mem_updChunk_elim (p - headerSize) _ s.chunks d hd
          by_cases hxa : x.addr = p - headerSize
          · rw [if_pos hxa] at hd'
            rw [hd']
          · rw [if_neg hxa] at hd'
            rw [hd'] at hda
            exact absurd hda hxa
        have hap₁ : ∀ c₀ ∈ s.chunks, c₀.is_free = false → c₀.addr ≠ p - headerSize →
            c₀ ∈ s₁.chunks := by
          intro c₀ hc₀ _ hcne
          have hm := mem_updChunk_of_mem (p - headerSize)
            (fun x => { x with is_free := true }) s.chunks c₀ hc₀
          rw [if_neg hcne] at hm
          exact hm
        -- chain decomposition of the original state
        have hchS : (pre ++ c :: post).Chain'
            (fun x y => ¬(x.is_free = true ∧ y.is_free = true)) := by
          have h0 := hNA
          unfold NoAdj at h0
          rw [he] at h0
          exact h0
        obtain ⟨hchPre, hchCpost, hlinkPreC⟩ := List.chain'_append.mp hchS
        obtain ⟨hheadPost, hchPost⟩ := List.chain'_cons'.mp hchCpost
        -- ordered decomposition (for membership facts)
        have hmemPre : ∀ x ∈ pre, x ∈ s.chunks := by
          intro x hx; rw [he]; exact List.mem_append_left _ hx
        have hmemPost : ∀ x ∈ post, x ∈ s.chunks := by
          intro x hx; rw [he]
          exact List.mem_append_right _ (List.mem_cons_of_mem _ hx)
        have hpostne : ∀ x ∈ post, x.addr ≠ p - headerSize := by
          intro x hx hxa
          exact hpostaddr (hxa ▸ List.mem_map_of_mem (fun c => c.addr) hx)
        have hprene : ∀ x ∈ pre, x.addr ≠ p - headerSize := by
          intro x hx hxa
          exact hpreaddr (hxa ▸ List.mem_map_of_mem (fun c => c.addr) hx)
        -- the final composition step
        have hfinish : ∀ X : AllocState, HMMfree p s = shrinkCheck X →
            (CoreInv X ∧ NoAdj X ∧ X.growOk = s.growOk ∧ X.shrinkOk = s.shrinkOk ∧
             (∀ d ∈ X.chunks, d.addr = p - headerSize → d.is_free = true) ∧
             (∀ c₀ ∈ s.chunks, c₀.is_free = false → c₀.addr ≠ p - headerSize →
               c₀ ∈ X.chunks)) →
            CoreInv (HMMfree p s) ∧ NoAdj (HMMfree p s) ∧
            (HMMfree p s).growOk = s.growOk ∧ (HMMfree p s).shrinkOk = s.shrinkOk ∧
            (p ≠ 0 → ∀ d ∈ (HMMfree p s).chunks, d.addr = p - headerSize →
              d.is_free = true) ∧
            (∀ c₀ ∈ s.chunks, c₀.is_free = false → c₀.addr ≠ p - headerSize →
              c₀ ∈ (HMMfree p s).chunks) := by
          intro X hres hX
          obtain ⟨hIX, hNX, hgX, hkX, hfaX, hapX⟩ := hX
          obtain ⟨hIsh, hNsh, hapsh, hgsh, hksh, hfash⟩ := shrink_spec X hIX hNX
          rw [hres]
          refine ⟨hIsh, hNsh, hgsh.trans hgX, hksh.trans hkX, ?_, ?_⟩
          · intro _
            exact hfash _ hfaX
          · intro c₀ hc₀ hcf₀ hcne
            exact hapsh c₀ (hapX c₀ hc₀ hcf₀ hcne) hcf₀
        -- kernel for the no-free-neighbour branch
        have hB3 : (∀ x ∈ pre.getLast?, x.is_free = false) →
            (∀ x ∈ post.head?, x.is_free = false) →
            CoreInv (HMMadd_free_block (p - headerSize) s₁) ∧
            NoAdj (HMMadd_free_block (p - headerSize) s₁) ∧
            (HMMadd_free_block (p - headerSize) s₁).growOk = s.growOk ∧
            (HMMadd_free_block (p - headerSize) s₁).shrinkOk = s.shrinkOk ∧
            (∀ d ∈ (HMMadd_free_block (p - headerSize) s₁).chunks,
              d.addr = p - headerSize → d.is_free = true) ∧
            (∀ c₀ ∈ s.chunks, c₀.is_free = false → c₀.addr ≠ p - headerSize →
              c₀ ∈ (HMMadd_free_block (p - headerSize) s₁).chunks) := by
          intro hpvnf hnxnf
          have hNAs₁ : NoAdj s₁ := by
            unfold NoAdj
            rw [hch₁]
            refine List.chain'_append.mpr ⟨hchPre, ?_, ?_⟩
            · refine List.chain'_cons'.mpr ⟨?_, hchPost⟩
              intro y hy hcontra
              have := hnxnf y hy
              rw [hcontra.2] at this
              cases this
            · intro x hx y hy
              have hyc : y = c' := by
                have h' : c' = y := by simpa using hy
                exact h'.symm
              subst hyc
              intro hcontra
              have := hpvnf x hx
              rw [hcontra.1] at this
              cases this
          have hfind₁ : findChunk (p - headerSize) s₁ = some c' :=
            findChunk_of_mem _ s₁ c' hnd₁ hc'mem hc'a
          have hfree₁ : ∀ d, findChunk (p - headerSize) s₁ = some d → d.is_free = true := by
            intro d hd
            rw [hfind₁] at hd
            have : c' = d := Option.some.inj hd
            rw [← this]
          refine ⟨coreInv_add _ _ hIs₁ hfree₁, noadj_add _ _ hNAs₁, ?_, ?_,
            freeAt_add _ _ s₁ hfa₁, ?_⟩
          · rw [(add_frame _ _).2.1]
          · rw [(add_frame _ _).2.2.1]
          · intro c₀ hc₀ hcf₀ hcne
            exact add_alloc_preserved _ s₁ hIs₁ hfree₁ c₀ (hap₁ c₀ hc₀ hcf₀ hcne) hcf₀
        -- kernel for the coalesce-with-next branch
        have hB2 : ∀ nx, post.head? = some nx → nx.is_free = true →
            (∀ x ∈ pre.getLast?, x.is_free = false) →
            CoreInv (HMMadd_free_block (p - headerSize)
              (HMMcoalesce (p - headerSize) s₁)) ∧
            NoAdj (HMMadd_free_block (p - headerSize)
              (HMMcoalesce (p - headerSize) s₁)) ∧
            (HMMadd_free_block (p - headerSize)
              (HMMcoalesce (p - headerSize) s₁)).growOk = s.growOk ∧
            (HMMadd_free_block (p - headerSize)
              (HMMcoalesce (p - headerSize) s₁)).shrinkOk = s.shrinkOk ∧
            (∀ d ∈ (HMMadd_free_block (p - headerSize)
              (HMMcoalesce (p - headerSize) s₁)).chunks,
              d.addr = p - headerSize → d.is_free = true) ∧
            (∀ c₀ ∈ s.chunks, c₀.is_free = false → c₀.addr ≠ p - headerSize →
              c₀ ∈ (HMMadd_free_block (p - headerSize)
                (HMMcoalesce (p - headerSize) s₁)).chunks) := by
          intro nx hnxhead hnxf hpvnf
          have hl₂ : s₁.chunks = pre ++ c' :: (post.takeWhile (fun x => x.is_free)
              ++ post.dropWhile (fun x => x.is_free)) := by
            rw [hch₁, List.takeWhile_append_dropWhile]
          have hrun₂ : ∀ x ∈ post.takeWhile (fun x => x.is_free), x.is_free = true := by
            intro x hx
            exact List.mem_takeWhile_imp hx
          have hrest₂ : ∀ x, (post.dropWhile (fun x => x.is_free)).head? = some x →
              x.is_free = false := head_dropWhile_not _ post
          have hk₂ : post.takeWhile (fun x => x.is_free) ≠ [] := by
            cases post with
            | nil => cases hnxhead
            | cons q qs =>
              have hq : q = nx := Option.some.inj hnxhead
              rw [List.takeWhile_cons, if_pos (show (fun x => x.is_free) q = true by
                rw [hq]; exact hnxf)]
              simp
          obtain ⟨hcochunks, hIco, hcofreq, hcobrk, hcog, hcok, hcolog⟩ :=
            coalesce_merge s₁ pre c' _ _ hIs₁ hl₂ rfl hrun₂ hrest₂ hk₂
          set merged : Chunk := (post.takeWhile (fun x => x.is_free)).foldl absorbOne
            { c' with is_added := false } with hmg
          have hcochunks : (HMMcoalesce (p - headerSize) s₁).chunks
              = pre ++ merged :: post.dropWhile (fun x => x.is_free) := by
            rw [← hc'a]
            exact hcochunks
          have hIco : CoreInv (HMMcoalesce (p - headerSize) s₁) := by
            rw [← hc'a]
            exact hIco
          have hcog : (HMMcoalesce (p - headerSize) s₁).growOk = s₁.growOk := by
            rw [← hc'a]
            exact hcog
          have hcok : (HMMcoalesce (p - headerSize) s₁).shrinkOk = s₁.shrinkOk := by
            rw [← hc'a]
            exact hcok
          have hmaddr : merged.addr = p - headerSize := by
            rw [hmg, absorbFold_addr]
            exact hc'a
          have hmfree : merged.is_free = true := by
            rw [hmg, absorbFold_is_free]
          have hmmem : merged ∈ (HMMcoalesce (p - headerSize) s₁).chunks := by
            rw [hcochunks]
            exact List.mem_append_right _ (List.mem_cons_self _ _)
          have hNAco : NoAdj (HMMcoalesce (p - headerSize) s₁) := by
            unfold NoAdj
            rw [hcochunks]
            refine List.chain'_append.mpr ⟨hchPre, ?_, ?_⟩
            · refine List.chain'_cons'.mpr ⟨?_, chain'_dropWhile _ post hchPost⟩
              intro y hy hcontra
              have := hrest₂ y (Option.mem_def.mp hy)
              rw [hcontra.2] at this
              cases this
            · intro x hx y hy
              have hyc : y = merged := by
                have h' : merged = y := by simpa using hy
                exact h'.symm
              subst hyc
              intro hcontra
              have := hpvnf x hx
              rw [hcontra.1] at this
              cases this
          have hfaco : ∀ d ∈ (HMMcoalesce (p - headerSize) s₁).chunks,
              d.addr = p - headerSize → d.is_free = true := by
            intro d hd hda
            rw [hcochunks] at hd
            rcases List.mem_append.mp hd with hdl | hdr
            · exact absurd hda (hprene d hdl)
            · rcases List.mem_cons.mp hdr with hdm | hdw
              · rw [hdm]
                exact hmfree
              · have hdp : d ∈ post := by
                  rw [← List.takeWhile_append_dropWhile (p := fun x => x.is_free) (l := post)]
                  exact List.mem_append_right _ hdw
                exact absurd hda (hpostne d hdp)
          have hapco : ∀ c₀ ∈ s.chunks, c₀.is_free = false → c₀.addr ≠ p - headerSize →
              c₀ ∈ (HMMcoalesce (p - headerSize) s₁).chunks := by
            intro c₀ hc₀ hcf₀ hcne
            have h1 : c₀ ∈ s₁.chunks := hap₁ c₀ hc₀ hcf₀ hcne
            rw [hl₂] at h1
            rw [hcochunks]
            rcases List.mem_append.mp h1 with hdl | hdr
            · exact List.mem_append_left _ hdl
            · rcases List.mem_cons.mp hdr with hdm | hdw
              · rw [hdm] at hcf₀
                cases hcf₀
              · rcases List.mem_append.mp hdw with hdt | hdd
                · have := hrun₂ c₀ hdt
                  rw [hcf₀] at this
                  cases this
                · exact List.mem_append_right _ (List.mem_cons_of_mem _ hdd)
          have hfind₂ : findChunk (p - headerSize) (HMMcoalesce (p - headerSize) s₁)
              = some merged :=
            findChunk_of_mem _ _ merged (nodup_chunkAddrs_of_ordered _ hIco.ordered)
              hmmem hmaddr
          have hfree₂ : ∀ d, findChunk (p - headerSize) (HMMcoalesce (p - headerSize) s₁)
              = some d → d.is_free = true := by
            intro d hd
            rw [hfind₂] at hd
            have : merged = d := Option.some.inj hd
            rw [← this]
            exact hmfree
          refine ⟨coreInv_add _ _ hIco hfree₂, noadj_add _ _ hNAco, ?_, ?_,
            freeAt_add _ _ _ hfaco, ?_⟩
          · rw [(add_frame _ _).2.1, hcog]
          · rw [(add_frame _ _).2.2.1, hcok]
          · intro c₀ hc₀ hcf₀ hcne
            exact add_alloc_preserved _ _ hIco hfree₂ c₀ (hapco c₀ hc₀ hcf₀ hcne) hcf₀
        -- kernel for the coalesce-with-previous branch
        have hB1 : ∀ pv, pre.getLast? = some pv → pv.is_free = true →
            CoreInv (HMMadd_free_block pv.addr (HMMcoalesce pv.addr s₁)) ∧
            NoAdj (HMMadd_free_block pv.addr (HMMcoalesce pv.addr s₁)) ∧
            (HMMadd_free_block pv.addr (HMMcoalesce pv.addr s₁)).growOk = s.growOk ∧
            (HMMadd_free_block pv.addr (HMMcoalesce pv.addr s₁)).shrinkOk = s.shrinkOk ∧
            (∀ d ∈ (HMMadd_free_block pv.addr (HMMcoalesce pv.addr s₁)).chunks,
              d.addr = p - headerSize → d.is_free = true) ∧
            (∀ c₀ ∈ s.chunks, c₀.is_free = false → c₀.addr ≠ p - headerSize →
              c₀ ∈ (HMMadd_free_block pv.addr (HMMcoalesce pv.addr s₁)).chunks) := by
          intro pv hpvlast hpvf
          have hpvopt : pv ∈ pre.getLast? := Option.mem_def.mpr hpvlast
          have hpredec : pre = pre.dropLast ++ [pv] :=
            (List.dropLast_append_getLast? pv hpvopt).symm
          have hpvmem : pv ∈ pre := by rw [hpredec]; simp
          have hl₁ : s₁.chunks = pre.dropLast ++ pv :: ((c' :: post.takeWhile
              (fun x => x.is_free)) ++ post.dropWhile (fun x => x.is_free)) := by
            rw [hch₁]
            conv_lhs => rw [hpredec]
            simp only [List.cons_append, List.append_assoc, List.singleton_append,
              List.nil_append, List.takeWhile_append_dropWhile]
          have hrun₁ : ∀ x ∈ c' :: post.takeWhile (fun x => x.is_free),
              x.is_free = true := by
            intro x hx
            rcases List.mem_cons.mp hx with hxc | hxt
            · rw [hxc]
            · exact List.mem_takeWhile_imp hxt
          have hrest₁ : ∀ x, (post.dropWhile (fun x => x.is_free)).head? = some x →
              x.is_free = false := head_dropWhile_not _ post
          have hk₁ : (c' :: post.takeWhile (fun x => x.is_free)) ≠ [] := by simp
          obtain ⟨hcochunks, hIco, hcofreq, hcobrk, hcog, hcok, hcolog⟩ :=
            coalesce_merge s₁ pre.dropLast pv _ _ hIs₁ hl₁ hpvf hrun₁ hrest₁ hk₁
          set merged : Chunk := ((c' :: post.takeWhile (fun x => x.is_free)).foldl
            absorbOne { pv with is_added := false }) with hmg
          have hmaddr : merged.addr = pv.addr := by
            rw [hmg, absorbFold_addr]
          have hmfree : merged.is_free = true := by
            rw [hmg, absorbFold_is_free]
            exact hpvf
          have hmmem : merged ∈ (HMMcoalesce pv.addr s₁).chunks := by
            rw [hcochunks]
            exact List.mem_append_right _ (List.mem_cons_self _ _)
          have hpvne : pv.addr ≠ p - headerSize := hprene pv hpvmem
          have hchPre₀ : pre.dropLast.Chain'
              (fun x y => ¬(x.is_free = true ∧ y.is_free = true)) := by
            have h0 := hchPre
            rw [hpredec] at h0
            exact (List.chain'_append.mp h0).1
          have hlinkPre₀ : ∀ x ∈ pre.dropLast.getLast?, ¬(x.is_free = true ∧
              merged.is_free = true) := by
            intro x hx hcontra
            have h0 := hchPre
            rw [hpredec] at h0
            obtain ⟨_, _, hlk⟩ := List.chain'_append.mp h0
            exact hlk x hx pv rfl ⟨hcontra.1, hpvf⟩
          have hNAco : NoAdj (HMMcoalesce pv.addr s₁) := by
            unfold NoAdj
            rw [hcochunks]
            refine List.chain'_append.mpr ⟨hchPre₀, ?_, ?_⟩
            · refine List.chain'_cons'.mpr ⟨?_, chain'_dropWhile _ post hchPost⟩
              intro y hy hcontra
              have := hrest₁ y (Option.mem_def.mp hy)
              rw [hcontra.2] at this
              cases this
            · intro x hx y hy
              have hyc : y = merged := by
                have h' : merged = y := by simpa using hy
                exact h'.symm
              subst hyc
              exact hlinkPre₀ x hx
          have hfaco : ∀ d ∈ (HMMcoalesce pv.addr s₁).chunks,
              d.addr = p - headerSize → d.is_free = true := by
            intro d hd hda
            rw [hcochunks] at hd
            rcases List.mem_append.mp hd with hdl | hdr
            · have : d ∈ pre := by rw [hpredec]; exact List.mem_append_left _ hdl
              exact absurd hda (hprene d this)
            · rcases List.mem_cons.mp hdr with hdm | hdw
              · rw [hdm]
                exact hmfree
              · have hdp : d ∈ post := by
                  rw [← List.takeWhile_append_dropWhile (p := fun x => x.is_free) (l := post)]
                  exact List.mem_append_right _ hdw
                exact absurd hda (hpostne d hdp)
          have hapco : ∀ c₀ ∈ s.chunks, c₀.is_free = false → c₀.addr ≠ p - headerSize →
              c₀ ∈ (HMMcoalesce pv.addr s₁).chunks := by
            intro c₀ hc₀ hcf₀ hcne
            have h1 : c₀ ∈ s₁.chunks := hap₁ c₀ hc₀ hcf₀ hcne
            rw [hl₁] at h1
            rw [hcochunks]
            rcases List.mem_append.mp h1 with hdl | hdr
            · exact List.mem_append_left _ hdl
            · rcases List.mem_cons.mp hdr with hdm | hdw
              · rw [hdm] at hcf₀
                rw [hpvf] at hcf₀
                cases hcf₀
              · rcases List.mem_append.mp hdw with hdt | hdd
                · have := hrun₁ c₀ hdt
                  rw [hcf₀] at this
                  cases this
                · exact List.mem_append_right _ (List.mem_cons_of_mem _ hdd)
          have hfind₃ : findChunk pv.addr (HMMcoalesce pv.addr s₁) = some merged :=
            findChunk_of_mem _ _ merged (nodup_chunkAddrs_of_ordered _ hIco.ordered)
              hmmem hmaddr
          have hfree₃ : ∀ d, findChunk pv.addr (HMMcoalesce pv.addr s₁) = some d →
              d.is_free = true := by
            intro d hd
            rw [hfind₃] at hd
            have : merged = d := Option.some.inj hd
            rw [← this]
            exact hmfree
          refine ⟨coreInv_add _ _ hIco hfree₃, noadj_add _ _ hNAco, ?_, ?_,
            freeAt_add _ _ _ hfaco, ?_⟩
          · rw [(add_frame _ _).2.1, hcog]
          · rw [(add_frame _ _).2.2.1, hcok]
          · intro c₀ hc₀ hcf₀ hcne
            exact add_alloc_preserved _ _ hIco hfree₃ c₀ (hapco c₀ hc₀ hcf₀ hcne) hcf₀
        -- now enumerate the syntactic paths of HMMfree
        cases hpv : pre.getLast? with
        | some pv =>
          by_cases hpvf : pv.is_free = true
          · have hres : HMMfree p s = shrinkCheck (HMMadd_free_block pv.addr
                (HMMcoalesce pv.addr s₁)) := by
              unfold HMMfree
              rw [if_neg hp0, hsp]
              try dsimp only
              rw [if_neg hcf]
              try dsimp only
              rw [hpv]
              try dsimp only
              rw [if_pos hpvf]
            exact hfinish _ hres (hB1 pv hpv hpvf)
          · have hpvnf : ∀ x ∈ pre.getLast?, x.is_free = false := by
              intro x hx
              rw [hpv] at hx
              have hxe : pv = x := by simpa using hx
              rw [← hxe]
              cases hq : pv.is_free with
              | false => rfl
              | true => exact absurd hq hpvf
            cases hnx : post.head? with
            | some nx =>
              by_cases hnxf : nx.is_free = true
              · have hres : HMMfree p s = shrinkCheck (HMMadd_free_block (p - headerSize)
                    (HMMcoalesce (p - headerSize) s₁)) := by
                  unfold HMMfree
                  rw [if_neg hp0, hsp]
                  try dsimp only
                  rw [if_neg hcf]
                  try dsimp only
                  rw [hpv]
                  try dsimp only
                  rw [if_neg hpvf]
                  rw [hnx]
                  try dsimp only
                  rw [if_pos hnxf]
                exact hfinish _ hres (hB2 nx hnx hnxf hpvnf)
              · have hnxnf : ∀ x ∈ post.head?, x.is_free = false := by
                  intro x hx
                  rw [hnx] at hx
                  have hxe : nx = x := by simpa using hx
                  rw [← hxe]
                  cases hq : nx.is_free with
                  | false => rfl
                  | true => exact absurd hq hnxf
                have hres : HMMfree p s = shrinkCheck (HMMadd_free_block (p - headerSize)
                    s₁) := by
                  unfold HMMfree
                  rw [if_neg hp0, hsp]
                  try dsimp only
                  rw [if_neg hcf]
                  try dsimp only
                  rw [hpv]
                  try dsimp only
                  rw [if_neg hpvf]
                  rw [hnx]
                  try dsimp only
                  rw [if_neg hnxf]
                exact hfinish _ hres (hB3 hpvnf hnxnf)
            | none =>
              have hnxnf : ∀ x ∈ post.head?, x.is_free = false := by
                intro x hx
                rw [hnx] at hx
                cases hx
              have hres : HMMfree p s = shrinkCheck (HMMadd_free_block (p - headerSize)
                  s₁) := by
                unfold HMMfree
                rw [if_neg hp0, hsp]
                try dsimp only
                rw [if_neg hcf]
                try dsimp only
                rw [hpv]
                try dsimp only
                rw [if_neg hpvf]
                rw [hnx]
              exact hfinish _ hres (hB3 hpvnf hnxnf)
        | none =>
          have hpvnf : ∀ x ∈ pre.getLast?, x.is_free = false := by
            intro x hx
            rw [hpv] at hx
            cases hx
          cases hnx : post.head? with
          | some nx =>
            by_cases hnxf : nx.is_free = true
            · have hres : HMMfree p s = shrinkCheck (HMMadd_free_block (p - headerSize)
                  (HMMcoalesce (p - headerSize) s₁)) := by
                unfold HMMfree
                rw [if_neg hp0, hsp]
                try dsimp only
                rw [if_neg hcf]
                try dsimp only
                rw [hpv]
                try dsimp only
                rw [hnx]
                try dsimp only
                rw [if_pos hnxf]
              exact hfinish _ hres (hB2 nx hnx hnxf hpvnf)
            · have hnxnf : ∀ x ∈ post.head?, x.is_free = false := by
                intro x hx
                rw [hnx] at hx
                have hxe : nx = x := by simpa using hx
                rw [← hxe]
                cases hq : nx.is_free with
                | false => rfl
                | true => exact absurd hq hnxf
              have hres : HMMfree p s = shrinkCheck (HMMadd_free_block (p - headerSize)
                  s₁) := by
                unfold HMMfree
                rw [if_neg hp0, hsp]
                try dsimp only
                rw [if_neg hcf]
                try dsimp only
                rw [hpv]
                try dsimp only
                rw [hnx]
                try dsimp only
                rw [if_neg hnxf]
              exact hfinish _ hres (hB3 hpvnf hnxnf)
          | none =>
            have hnxnf : ∀ x ∈ post.head?, x.is_free = false := by
              intro x hx
              rw [hnx] at hx
              cases hx
            have hres : HMMfree p s = shrinkCheck (HMMadd_free_block (p - headerSize)
                s₁) := by
              unfold HMMfree
              rw [if_neg hp0, hsp]
              try dsimp only
              rw [if_neg hcf]
              try dsimp only
              rw [hpv]
              try dsimp only
              rw [hnx]
            exact hfinish _ hres (hB3 hpvnf hnxnf)

theorem data_update_core (a : Nat) (g : Chunk → Nat → Nat) (s : AllocState)
    (hI : CoreInv s) :
    CoreInv { s with chunks := updChunk a (fun x => { x with data := g x }) s.chunks } := by
  refine coreInv_updChunk_flags a s _ hI (fun _ => rfl) (fun _ => rfl) (fun _ => rfl) ?_
  intro d hd _ hdadd
  exact hI.added_free d hd hdadd

theorem data_update_noadj (a : Nat) (g : Chunk → Nat → Nat) (s : AllocState)
    (hNA : NoAdj s) :
    NoAdj { s with chunks := updChunk a (fun x => { x with data := g x }) s.chunks } := by
  show (updChunk a _ s.chunks).Chain' _
  exact chain'_updChunk _ _ s.chunks hNA (fun c d hcd => ⟨hcd, hcd, hcd⟩)

theorem calloc_spec (nmemb sz : Nat) (s : AllocState) (hI : CoreInv s) (hNA : NoAdj s) :
    CoreInv (HMMcalloc nmemb sz s).2 ∧ NoAdj (HMMcalloc nmemb sz s).2 ∧
    (HMMcalloc nmemb sz s).2.growOk = s.growOk ∧
    (HMMcalloc nmemb sz s).2.shrinkOk = s.shrinkOk := by
  unfold HMMcalloc
  by_cases hg : sz ≠ 0 ∧ ULONG_MAX / sz < nmemb
  · rw [if_pos hg]
    exact ⟨hI, hNA, rfl, rfl⟩
  · rw [if_neg hg]
    dsimp only
    cases hm : HMMmalloc (if roundUp8 (sz * nmemb) = 0 then ALIGNMENT
        else roundUp8 (sz * nmemb)) s with
    | mk r s' =>
      have mspec := malloc_spec (if roundUp8 (sz * nmemb) = 0 then ALIGNMENT
        else roundUp8 (sz * nmemb)) s hI hNA
      rw [hm] at mspec
      obtain ⟨hC, hN, hap, hgok, hkok, hpost⟩ := mspec
      cases r with
      | none => exact ⟨hC, hN, hgok, hkok⟩
      | some q =>
        exact ⟨data_update_core (q - headerSize) _ s' hC,
          data_update_noadj (q - headerSize) _ s' hN, hgok, hkok⟩

theorem realloc_spec (p n : Nat) (s : AllocState) (hI : CoreInv s) (hNA : NoAdj s) :
    CoreInv (HMMrealloc p n s).2 ∧ NoAdj (HMMrealloc p n s).2 ∧
    (HMMrealloc p n s).2.growOk = s.growOk ∧
    (HMMrealloc p n s).2.shrinkOk = s.shrinkOk := by
  unfold HMMrealloc
  dsimp only
  by_cases hp0 : p = 0
  · rw [if_pos hp0]
    obtain ⟨hC, hN, _, hg, hk, _⟩ := malloc_spec (roundUp8 n) s hI hNA
    exact ⟨hC, hN, hg, hk⟩
  · rw [if_neg hp0]
    by_cases hsz0 : roundUp8 n = 0
    · rw [if_pos hsz0]
      obtain ⟨hCf, hNf, hgf, hkf, _, _⟩ := free_spec p s hI hNA
      obtain ⟨hC, hN, _, hg, hk, _⟩ := malloc_spec ALIGNMENT (HMMfree p s) hCf hNf
      exact ⟨hC, hN, hg.trans hgf, hk.trans hkf⟩
    · rw [if_neg hsz0]
      cases hf : findChunk (p - headerSize) s with
      | none =>
        exact ⟨hI, hNA, rfl, rfl⟩
      | some c =>
        dsimp only
        by_cases hsc : roundUp8 n = c.size
        · rw [if_pos hsc]
          exact ⟨hI, hNA, rfl, rfl⟩
        · rw [if_neg hsc]
          cases hm : HMMmalloc (roundUp8 n) s with
          | mk r s₁ =>
            have mspec := malloc_spec (roundUp8 n) s hI hNA
            rw [hm] at mspec
            obtain ⟨hC1, hN1, hap1, hg1, hk1, hpost1⟩ := mspec
            cases r with
            | none => exact ⟨hC1, hN1, hg1, hk1⟩
            | some q =>
              dsimp only
              obtain ⟨hCf, hNf, hgf, hkf, _, _⟩ :=
                free_spec p _ (data_update_core (q - headerSize) _ s₁ hC1)
                  (data_update_noadj (q - headerSize) _ s₁ hN1)
              exact ⟨hCf, hNf, hgf.trans hg1, hkf.trans hk1⟩

/-! ## The invariant along every run of public operations -/

theorem coreInv_oracles (s : AllocState) (g k : Bool) (hI : CoreInv s) :
    CoreInv { s with growOk := g, shrinkOk := k } :=
  ⟨hI.acc, hI.mem_of_bucket, hI.bucket_of_added, hI.keys_nodup, hI.bucket_nodup,
    hI.ordered, hI.brk_ub, hI.added_free, hI.size8⟩

theorem noadj_oracles (s : AllocState) (g k : Bool) (hNA : NoAdj s) :
    NoAdj { s with growOk := g, shrinkOk := k } := hNA

theorem inv_step (s : AllocState) (op : Op) (h : Inv s) : Inv (step s op) := by
  obtain ⟨hC, hN⟩ := h
  cases op with
  | alloc n g k =>
    obtain ⟨hC', hN', _, _, _, _⟩ :=
      malloc_spec n { s with growOk := g, shrinkOk := k }
        (coreInv_oracles s g k hC) (noadj_oracles s g k hN)
    exact ⟨hC', hN'⟩
  | dealloc p g k =>
    obtain ⟨hC', hN', _, _, _, _⟩ :=
      free_spec p { s with growOk := g, shrinkOk := k }
        (coreInv_oracles s g k hC) (noadj_oracles s g k hN)
    exact ⟨hC', hN'⟩
  | zalloc n m g k =>
    obtain ⟨hC', hN', _, _⟩ :=
      calloc_spec n m { s with growOk := g, shrinkOk := k }
        (coreInv_oracles s g k hC) (noadj_oracles s g k hN)
    exact ⟨hC', hN'⟩
  | resize p n g k =>
    obtain ⟨hC', hN', _, _⟩ :=
      realloc_spec p n { s with growOk := g, shrinkOk := k }
        (coreInv_oracles s g k hC) (noadj_oracles s g k hN)
    exact ⟨hC', hN'⟩

theorem inv_init (base : Nat) : Inv (initState base) := by
  constructor
  · refine ⟨rfl, ?_, ?_, ?_, ?_, ?_, ?_, ?_, ?_⟩
    · intro e he
      cases he
    · intro c hc
      cases hc
    · simp [initState]
    · intro e he
      cases he
    · simp [initState]
    · intro c hc
      cases hc
    · intro c hc
      cases hc
    · intro c hc
      cases hc
  · simp [NoAdj, initState]

theorem inv_run (ops : List Op) (base : Nat) : Inv (run ops base) := by
  unfold run
  have h : ∀ (l : List Op) (s : AllocState), Inv s → Inv (l.foldl step s) := by
    intro l
    induction l with
    | nil => intro s h; exact h
    | cons op rest ih =>
      intro s h
      exact ih (step s op) (inv_step s op h)
  exact h ops (initState base) (inv_init base)

/-! ## Address and size alignment, tracked independently of the invariant -/

theorem sum_size_header (run : List Chunk) :
    (run.map (fun x => x.size + headerSize)).sum
      = (run.map Chunk.size).sum + run.length * headerSize := by
  induction run with
  | nil => simp
  | cons z zs ih =>
    simp only [List.map_cons, List.sum_cons, List.length_cons, ih]
    ring

/-! ## The claims -/

/-- Claim C2: when `start` (here `c`) is free and is followed by a nonempty
run of free chunks terminated by a non-free chunk or the end of the list,
`HMMcoalesce` merges the whole run into `start`: the resulting chunk keeps
`start`'s address, has size equal to the sum of the k payload sizes plus
(k-1) headers (k = run length + 1), is linked directly to the terminator
(the list equation; when `rest` is empty it is the new tail), and is NOT
re-inserted into the freelist index (`is_added` false and its address in no
bucket). -/
theorem coalesce_merges_run (s : AllocState) (pre : List Chunk) (c : Chunk)
    (run rest : List Chunk) (hI : CoreInv s)
    (hl : s.chunks = pre ++ c :: (run ++ rest))
    (hc : c.is_free = true)
    (hrun : ∀ x ∈ run, x.is_free = true)
    (hrest : ∀ x, rest.head? = some x → x.is_free = false)
    (hk : run ≠ []) :
    (HMMcoalesce c.addr s).chunks
        = pre ++ (run.foldl absorbOne { c with is_added := false }) :: rest ∧
    (run.foldl absorbOne { c with is_added := false }).size
        = ((c :: run).map Chunk.size).sum + run.length * headerSize ∧
    (run.foldl absorbOne { c with is_added := false }).addr = c.addr ∧
    (run.foldl absorbOne { c with is_added := false }).is_added = false ∧
    (∀ e ∈ (HMMcoalesce c.addr s).freq, c.addr ∉ e.2) := by
  obtain ⟨h1, _, h3, _, _, _, _⟩ := coalesce_merge s pre c run rest hI hl hc hrun hrest hk
  refine ⟨h1, ?_, absorbFold_addr _ _, absorbFold_is_added _ _, h3⟩
  rw [absorbFold_size, sum_size_header]
  show c.size + _ = _
  simp only [List.map_cons, List.sum_cons]
  omega

theorem coalesce_merges_run_witness :
    (CoreInv wState2 ∧ wState2.chunks = [] ++ wChunkA :: ([wChunkB] ++ []) ∧
      wChunkA.is_free = true ∧ (∀ x ∈ [wChunkB], x.is_free = true) ∧
      (∀ x, ([] : List Chunk).head? = some x → x.is_free = false) ∧
      [wChunkB] ≠ ([] : List Chunk)) ∧
    ((HMMcoalesce wChunkA.addr wState2).chunks
        = [] ++ ([wChunkB].foldl absorbOne { wChunkA with is_added := false }) :: [] ∧
      ([wChunkB].foldl absorbOne { wChunkA with is_added := false }).size
        = ((wChunkA :: [wChunkB]).map Chunk.size).sum + [wChunkB].length * headerSize ∧
      ([wChunkB].foldl absorbOne { wChunkA with is_added := false }).addr = wChunkA.addr ∧
      ([wChunkB].foldl absorbOne { wChunkA with is_added := false }).is_added = false ∧
      (∀ e ∈ (HMMcoalesce wChunkA.addr wState2).freq, wChunkA.addr ∉ e.2)) := by
  have hrun : ∀ x ∈ [wChunkB], x.is_free = true := by
    intro x hx
    have hxe : x = wChunkB := by simpa using hx
    rw [hxe]
    rfl
  have hrest : ∀ x, ([] : List Chunk).head? = some x → x.is_free = false := by
    intro x hx
    cases hx
  exact ⟨⟨by decide, rfl, rfl, hrun, hrest, by simp⟩,
    coalesce_merges_run wState2 [] wChunkA [wChunkB] [] (by decide) rfl rfl hrun hrest
      (by simp)⟩

/-- Claim C4, counterexample: after `malloc(40)` followed by `malloc(16 MiB)`
the heap contains a chunk that is free but NOT in the freelist index
(`is_added = false`) — the grown tail exceeds the bucket range and is
silently dropped from the index, refuting "every chunk with is_free = true
is present in the freelist index". -/
theorem free_chunk_unindexed_cex :
    (run [Op.alloc 40 true true, Op.alloc 16777216 true true] 0).chunks.any
      (fun c => c.is_free && !c.is_added) = true := by
  rfl

/-- Claim C4, amended: after every public operation no two adjacent chunks
are both free (so in particular no two adjacent chunks are both free and
both outside the index); a free chunk may however be missing from the
freelist index, e.g. when its bucket index is out of range. -/
theorem no_adjacent_free_chunks (ops : List Op) (base : Nat) :
    NoAdj (run ops base) :=
  (inv_run ops base).2

/-- Claim C7, counterexample: starting from the empty heap, `malloc(40)`
then `free` leaves the single free chunk in bucket 1048570 (its payload
grew to 8388568 bytes by splitting and coalescing with the 8 MiB arena),
NOT in bucket `(48/8)-1 = 5`: bucket 5 is empty. -/
theorem small_free_bucket_cex :
    freqGet 5 (run [Op.alloc 40 true true, Op.dealloc 40 true true] 0).freq = [] ∧
    (run [Op.alloc 40 true true, Op.dealloc 40 true true] 0).chunks.map
      (fun c => (c.addr, c.is_free, c.size)) = [(0, true, 8388568)] := by
  exact ⟨rfl, rfl⟩

/-- Claim C7, amended: starting from the empty heap, `malloc(40)` returns
the 8-aligned payload address 40; after freeing it the chunk list is a
single chunk (head = tail) which is free, and that chunk sits in the
bucket of its actual payload size 8388568 (bucket index 1048570), not in
bucket 5 as the spec computes from the request size. -/
theorem small_free_scenario :
    (HMMmalloc 40 (initState 0)).1 = some 40 ∧ ALIGNMENT ∣ 40 ∧
    (run [Op.alloc 40 true true, Op.dealloc 40 true true] 0).chunks.map
      (fun c => (c.addr, c.is_free, c.size)) = [(0, true, 8388568)] ∧
    bucketIdx 8388568 = 1048570 ∧
    freqGet (bucketIdx 8388568)
      (run [Op.alloc 40 true true, Op.dealloc 40 true true] 0).freq = [0] := by
  exact ⟨rfl, by decide, rfl, rfl, rfl⟩

/-- Claim C8: when `nmemb * size` overflows an unsigned 64-bit word (the
condition the code tests as `size != 0 && ULONG_MAX / size < nmemb`),
`HMMcalloc` returns the null pointer and the entire allocator state —
chunk list, freelist index, accumulator and break — is unchanged. -/
theorem zalloc_overflow_rejected (nmemb sz : Nat) (s : AllocState)
    (h : ULONG_MAX < nmemb * sz) :
    HMMcalloc nmemb sz s = (none, s) := by
  have hsz : sz ≠ 0 := by
    intro h0
    rw [h0, Nat.mul_zero] at h
    omega
  have hdiv : ULONG_MAX / sz < nmemb := by
    rw [Nat.div_lt_iff_lt_mul (Nat.pos_of_ne_zero hsz)]
    exact h
  unfold HMMcalloc
  rw [if_pos ⟨hsz, hdiv⟩]

theorem zalloc_overflow_rejected_witness :
    ULONG_MAX < ULONG_MAX * 2 ∧
    HMMcalloc ULONG_MAX 2 (initState 0) = (none, initState 0) :=
  ⟨by decide, zalloc_overflow_rejected ULONG_MAX 2 (initState 0) (by decide)⟩

/-- Claim C9: for a currently allocated chunk `c` at `p - 40` and a new
size `m > 0` that does not round to the old payload size, if the internal
allocation of the new chunk fails then `HMMrealloc` returns the null
pointer with the post-malloc state, and the old chunk record — still
allocated, with its payload bytes untouched — survives in that state. -/
theorem resize_failure_preserves_old (s : AllocState) (hI : CoreInv s) (hNA : NoAdj s)
    (p m : Nat) (c : Chunk)
    (hf : findChunk (p - headerSize) s = some c)
    (hcf : c.is_free = false)
    (hp0 : p ≠ 0) (hm : m ≠ 0)
    (hne : roundUp8 m ≠ c.size)
    (hfail : (HMMmalloc (roundUp8 m) s).1 = none) :
    HMMrealloc p m s = (none, (HMMmalloc (roundUp8 m) s).2) ∧
    c ∈ (HMMmalloc (roundUp8 m) s).2.chunks ∧ c.is_free = false := by
  have hA8 : ALIGNMENT = 8 := rfl
  have hsz0 : roundUp8 m ≠ 0 := by
    have h1 := roundUp8_min m (Nat.one_le_iff_ne_zero.mpr hm)
    rw [hA8] at h1
    omega
  cases hmal : HMMmalloc (roundUp8 m) s with
  | mk r s₁ =>
    have hr : r = none := by
      rw [hmal] at hfail
      exact hfail
    subst hr
    have mspec := malloc_spec (roundUp8 m) s hI hNA
    rw [hmal] at mspec
    obtain ⟨_, _, hap1, _, _, _⟩ := mspec
    refine ⟨?_, ?_, hcf⟩
    · unfold HMMrealloc
      dsimp only
      rw [if_neg hp0, if_neg hsz0, hf]
      dsimp only
      rw [if_neg hne, hmal]
    · exact hap1 c (findChunk_mem _ s c hf).1 hcf

theorem resize_failure_preserves_old_witness :
    (CoreInv wState9 ∧ NoAdj wState9 ∧
      findChunk (40 - headerSize) wState9 = some wChunkAlloc ∧
      wChunkAlloc.is_free = false ∧ (40 : Nat) ≠ 0 ∧ (16 : Nat) ≠ 0 ∧
      roundUp8 16 ≠ wChunkAlloc.size ∧
      (HMMmalloc (roundUp8 16) wState9).1 = none) ∧
    (HMMrealloc 40 16 wState9 = (none, (HMMmalloc (roundUp8 16) wState9).2) ∧
      wChunkAlloc ∈ (HMMmalloc (roundUp8 16) wState9).2.chunks ∧
      wChunkAlloc.is_free = false) :=
  ⟨⟨by decide, by exact List.chain'_singleton _, rfl, rfl, by decide, by decide, by decide, rfl⟩,
    resize_failure_preserves_old wState9 (by decide) (by exact List.chain'_singleton _) 40 16
      wChunkAlloc rfl rfl (by decide) (by decide) (by decide) rfl⟩

end HMM
